import Mathlib

/-!
A shallow embedding of the DP-SLAM core of `slam.js` (the later, corrected
variant of the file, which the specification declares authoritative).

Modelling conventions:
* JavaScript numbers are modelled as rationals (`ℚ`).  The transcendental
  library functions (`Math.cos`, `Math.sin`, `Math.log`, `Math.sqrt`,
  `Math.atan2`, `Math.exp`) and the stream of `Math.random()` draws are
  opaque platform functions; they are modelled as an explicit `Oracle`
  record of rational-valued functions, and the random stream is consumed
  through an index threaded in program order.  `Math.PI` is a fixed
  numeric constant of the platform and is a field of the oracle record.
* Mutable heap objects (ancestry nodes) live in an arena: a `List` of node
  records indexed by allocation order; a JS object reference is the arena
  index, and `parent` pointers are `Option` indices (null = `none`).
* The sparse nested map `map[x][y][id]` is a total function
  `ℤ → ℤ → ℕ → Option Bool`; an absent row / cell / key is `none`.
* `dp_node_t.trim` recurses along parent pointers; the recursion is given
  explicit fuel.  The only `none` results are a JavaScript `TypeError`
  (reading `.id`/fields of a `null` parent or of a missing arena slot) or
  fuel exhaustion; for every state reachable by the driver the fuel
  supplied by the embedding is shown to be sufficient.
-/

namespace Slam

/-- Opaque platform numerics: `Math.random()` as a stream indexed by draw
order, plus `Math.cos/sin/log/sqrt/atan2/exp` and the constant `Math.PI`. -/
structure Oracle where
  rand : ℕ → ℚ
  cos : ℚ → ℚ
  sin : ℚ → ℚ
  log : ℚ → ℚ
  sqrt : ℚ → ℚ
  exp : ℚ → ℚ
  atan2 : ℚ → ℚ → ℚ
  pi : ℚ

/-- `sample_normal(mean, variance)`: Box-Muller from two uniform draws,
flipped off zero.  Consumes two stream values; returns the sample and the
next stream index. -/
def sample_normal (O : Oracle) (k : ℕ) (mean variance : ℚ) : ℚ × ℕ :=
  let u : ℚ := 1 - O.rand k
  let v : ℚ := 1 - O.rand (k + 1)
  (mean + O.sqrt (-2 * variance * O.log u) * O.cos (2 * O.pi * v), k + 2)

/-- `prob_normal(value, mean, variance)`: the Gaussian pdf, with the
platform square root and exponential. -/
def prob_normal (O : Oracle) (value mean variance : ℚ) : ℚ :=
  (1 / O.sqrt (2 * O.pi * variance)) * O.exp (-(1/2) * (value - mean)^2 / variance)

/-- `location_t`: coordinates and orientation. -/
structure location_t where
  x : ℚ
  y : ℚ
  angle : ℚ
deriving DecidableEq, Repr

/-- `location_t.add(r, angle)`: turn by `angle`, then advance `r` along the
new heading (`this.angle += angle; this.x += cos(this.angle)*r; ...`). -/
def location_t.add (O : Oracle) (l : location_t) (r angle : ℚ) : location_t :=
  let a := l.angle + angle
  { x := l.x + O.cos a * r, y := l.y + O.sin a * r, angle := a }

/-- `location_t.distance`: Euclidean distance over `(x, y)` only. -/
def location_t.distance (O : Oracle) (l m : location_t) : ℚ :=
  O.sqrt ((l.x - m.x)^2 + (l.y - m.y)^2)

/-- `control_t`: two consecutive odometry poses. -/
structure control_t where
  current : location_t
  last : location_t
deriving DecidableEq, Repr

/-- `control_t.still()`: component-wise equality of the two poses. -/
def control_t.still (c : control_t) : Bool :=
  c.current = c.last

/-- `odometry_motion_model_t` variance parameters. -/
structure motion_model_t where
  a1 : ℚ
  a2 : ℚ
  a3 : ℚ
  a4 : ℚ
deriving DecidableEq, Repr

/-- `odometry_motion_model_t.sample(control, location)`: if the control is
still return the location unchanged (consuming no randomness), otherwise
perturb the three odometry deltas and compose them onto the location. -/
def motion_model_t.sample (M : motion_model_t) (O : Oracle) (k : ℕ)
    (control : control_t) (location : location_t) : location_t × ℕ :=
  if control.still then (location, k)
  else
    let dx_bar := control.current.x - control.last.x
    let dy_bar := control.current.y - control.last.y
    let delta_r1 := O.atan2 dy_bar dx_bar - control.last.angle
    let delta_trans := O.sqrt (dx_bar^2 + dy_bar^2)
    let delta_r2 := control.current.angle - control.last.angle - delta_r1
    let s1 := sample_normal O k delta_r1 (M.a1 * delta_r1^2 + M.a2 * delta_trans^2)
    let s2 := sample_normal O s1.2 delta_trans
      (M.a3 * delta_trans^2 + M.a4 * delta_r1^2 + M.a4 * delta_r2^2)
    let s3 := sample_normal O s2.2 delta_r2 (M.a1 * delta_r2^2 + M.a2 * delta_trans^2)
    let l1 := location_t.add O location s2.1 s1.1
    let l2 := location_t.add O l1 0 s3.1
    (l2, s3.2)

/-! ### Ray tracing -/

/-- Extended time values for the grid walker: `none` models the JavaScript
`Infinity` produced by `1.0 / 0` on a degenerate axis. -/
def TVal : Type := Option ℚ

/-- Strict order on extended times: everything finite is below `Infinity`,
and `Infinity < Infinity` is false. -/
def tlt : TVal → TVal → Bool
  | some a, some b => a < b
  | some _, none => true
  | none, _ => false

/-- Addition of extended times (`Infinity + Infinity = Infinity`; a finite
step is only ever added to a finite accumulator on the same axis). -/
def tadd : TVal → TVal → TVal
  | some a, some b => some (a + b)
  | _, _ => none

/-- The body of `ray_trace`'s `for(; n > 0; --n)` loop.  The visitor takes
the accumulated state and `(x, y, n-1)` and returns the new state together
with the early-termination flag. -/
def ray_loop {σ : Type _} (visit : σ → ℤ → ℤ → ℕ → σ × Bool)
    (x_inc y_inc : ℤ) (dt_dx dt_dy : TVal) :
    ℕ → ℤ → ℤ → TVal → TVal → σ → σ
  | 0, _, _, _, _, s => s
  | n + 1, x, y, t_next_vertical, t_next_horizontal, s =>
    let r := visit s x y n
    if r.2 then r.1
    else if tlt t_next_vertical t_next_horizontal then
      ray_loop visit x_inc y_inc dt_dx dt_dy n x (y + y_inc)
        (tadd t_next_vertical dt_dy) t_next_horizontal r.1
    else
      ray_loop visit x_inc y_inc dt_dx dt_dy n (x + x_inc) y
        t_next_vertical (tadd t_next_horizontal dt_dx) r.1

/-- `ray_trace(start_location, end_location, evaluate_cell)`: the
Amanatides-Woo style grid walk of the later `slam.js` variant. -/
def ray_trace {σ : Type _} (start_location end_location : location_t)
    (visit : σ → ℤ → ℤ → ℕ → σ × Bool) (s : σ) : σ :=
  let x0 := start_location.x
  let y0 := start_location.y
  let x1 := end_location.x
  let y1 := end_location.y
  let dx := |x1 - x0|
  let dy := |y1 - y0|
  let x := ⌊x0⌋
  let y := ⌊y0⌋
  let dt_dx : TVal := if dx = 0 then none else some (1 / dx)
  let dt_dy : TVal := if dy = 0 then none else some (1 / dy)
  let hsetup : ℤ × ℕ × TVal :=
    if dx = 0 then (0, 0, dt_dx)
    else if x1 > x0 then (1, (⌊x1⌋ - x).toNat, some ((↑x + 1 - x0) * (1 / dx)))
    else (-1, (x - ⌊x1⌋).toNat, some ((x0 - ↑x) * (1 / dx)))
  let vsetup : ℤ × ℕ × TVal :=
    if dy = 0 then (0, 0, dt_dy)
    else if y1 > y0 then (1, (⌊y1⌋ - y).toNat, some ((↑y + 1 - y0) * (1 / dy)))
    else (-1, (y - ⌊y1⌋).toNat, some ((y0 - ↑y) * (1 / dy)))
  let n := 1 + hsetup.2.1 + vsetup.2.1
  ray_loop visit hsetup.1 vsetup.1 dt_dx dt_dy n x y vsetup.2.2 hsetup.2.2 s

/-- The full list of `(x, y, n)` triples a non-terminating visitor sees
along the ray (`n` is the number of cells remaining after the current). -/
def ray_cells (start_location end_location : location_t) : List (ℤ × ℤ × ℕ) :=
  ray_trace start_location end_location
    (fun s x y n => (s ++ [(x, y, n)], false)) []

/-! ### Beam measurement model -/

/-- `beam_measurement_model_t` configuration and its one mutable field
`start_index`. -/
structure beam_model_t where
  variance : ℚ
  max_ray : ℚ
  samples : ℕ
  size : ℕ
  start_index : ℕ
deriving DecidableEq, Repr

/-- `this.range_size = size / samples` (exact under the documented
constraint `size % samples == 0`). -/
def beam_model_t.range_size (m : beam_model_t) : ℕ := m.size / m.samples

/-- `this.delta_rot = 2.0 * Math.PI / this.size`. -/
def beam_model_t.delta_rot (O : Oracle) (m : beam_model_t) : ℚ :=
  2 * O.pi / (m.size : ℚ)

/-- The `for(var i = start_index; i < size; i += range_size)` loop shared
by `prob` and `update`.  The explicit fuel (`size` at the call sites)
bounds the iteration count; it is never exhausted when `range_size ≥ 1`. -/
def beam_fold {α : Type _} (m : beam_model_t) (f : ℕ → ℚ → α → α) (O : Oracle) :
    ℕ → ℕ → ℚ → α → α
  | 0, _, _, a => a
  | fuel + 1, i, rot, a =>
    if i < m.size then
      beam_fold m f O fuel (i + m.range_size)
        (rot + m.delta_rot O * (m.range_size : ℚ)) (f i rot a)
    else a

/-- `prob_ray(robot_location, hit_location, map_lookup)`: cast a ray of
length `max_ray` from the robot, turned by `hit_location.angle`; stop at
the first cell the particle map reports occupied and score the measured
range against the distance to that cell's centre; `1.0` if no cell along
the ray is occupied. -/
def prob_ray (O : Oracle) (m : beam_model_t) (robot_location hit_location : location_t)
    (map_lookup : ℤ → ℤ → Bool) : ℚ :=
  let end_location := location_t.add O robot_location m.max_ray hit_location.angle
  let exp_hit : Option location_t :=
    ray_trace robot_location end_location
      (fun s x y _ =>
        if map_lookup x y then
          (some ⟨(x : ℚ) + 1/2, (y : ℚ) + 1/2, 0⟩, true)
        else (s, false)) none
  match exp_hit with
  | some hit_cell =>
    prob_normal O (location_t.distance O robot_location hit_location)
      (location_t.distance O robot_location hit_cell) m.variance
  | none => 1

/-- `prob(robot_location, measurement, map_lookup)`: the product of the
floored per-beam likelihoods over the sampled beam indices. -/
def beam_prob (O : Oracle) (m : beam_model_t) (robot_location : location_t)
    (measurement : ℕ → ℚ) (map_lookup : ℤ → ℤ → Bool) : ℚ :=
  beam_fold m
    (fun i rot q =>
      if measurement i ≠ 0 then
        let hit_location := location_t.add O robot_location (measurement i) rot
        q * max (1/1000) (prob_ray O m robot_location hit_location map_lookup)
      else q)
    O m.size m.start_index (m.delta_rot O * (m.start_index : ℚ)) 1

/-- `update(robot_location, measurement, map_update)`: ray-trace each
sampled beam with a non-zero range to its hit point; the visitor calls the
writer with `false` (free) when more than one cell remains and with `true`
(occupied) at the terminal cell, and is silent when exactly one cell
remains. -/
def beam_update {σ : Type _} (O : Oracle) (m : beam_model_t) (robot_location : location_t)
    (measurement : ℕ → ℚ) (map_update : σ → Bool → ℤ → ℤ → σ) (s : σ) : σ :=
  beam_fold m
    (fun i rot s =>
      if measurement i ≠ 0 then
        let hit_location := location_t.add O robot_location (measurement i) rot
        ray_trace robot_location hit_location
          (fun s x y n =>
            if 1 < n then (map_update s false x y, false)
            else if n = 0 then (map_update s true x y, false)
            else (s, false)) s
      else s)
    O m.size m.start_index (m.delta_rot O * (m.start_index : ℚ)) s

/-- `increment()`: advance the rotating start index. -/
def beam_model_t.increment (m : beam_model_t) : beam_model_t :=
  { m with start_index := (m.start_index + 1) % m.range_size }

/-! ### Particle filter -/

/-- `weight(particles, measurement)`: multiply each weight above the
threshold by the measurement likelihood, zero the rest, then normalize by
the sum, resetting to `n` on catastrophic underflow (`sum ≤ 1e-10`). -/
def filter_weight {α : Type _} (n threshold : ℚ) (weight_model : α → ℚ)
    (particles : List α) (weights : List ℚ) : List ℚ :=
  let w1 := (weights.zip particles).map
    (fun wp => if threshold < wp.1 then wp.1 * weight_model wp.2 else 0)
  let sum := w1.foldl (· + ·) 0
  if 1 / 10 ^ 10 < sum then w1.map (fun w => w / sum) else w1.map (fun _ => n)

/-- `effective_sample_size()` = `1 / Σ wᵢ²`. -/
def filter_ess (weights : List ℚ) : ℚ :=
  1 / weights.foldl (fun s w => s + w ^ 2) 0

/-- The `while(u > c) { ++i; c += weights[i]; }` walk of `resample`.  The
fuel equals the weight count; the walk never leaves the array under the
wellformedness used by the driver. -/
def resample_walk (weights : List ℚ) (u : ℚ) : ℕ → ℚ → ℕ → ℕ × ℚ
  | 0, c, i => (i, c)
  | fuel + 1, c, i =>
    if c < u then resample_walk weights u fuel (c + weights.getD (i + 1) 0) (i + 1)
    else (i, c)

/-- The `for(m = 0; m < size; ++m)` loop of `resample`, emitting
`particles[i]` after each walk; `i` and `c` persist across iterations. -/
def resample_go {α : Type _} [Inhabited α] (n : ℚ) (weights : List ℚ)
    (particles : List α) (r : ℚ) : ℕ → ℕ → ℕ → ℚ → List α → List α
  | 0, _, _, _, out => out
  | rem + 1, m, i, c, out =>
    let u := r + m * n
    let w := resample_walk weights u weights.length c i
    resample_go n weights particles r rem (m + 1) w.1 w.2
      (out ++ [particles.getD w.1 default])

/-- `resample(particles)`: low-variance systematic resampling with the
single uniform draw `rand`, scaled by `n` (`r = Math.random() * n`). -/
def filter_resample {α : Type _} [Inhabited α] (size : ℕ) (n : ℚ) (weights : List ℚ)
    (particles : List α) (rand : ℚ) : List α :=
  resample_go n weights particles (rand * n) size 0 0 (weights.getD 0 0) []

/-! ### Distributed particle map -/

/-- `dp_map_t`'s nested sparse store `map[x][y][id]`; `none` models every
flavour of absence (`lookup_by_id`'s `-1`). -/
def DPMap : Type := ℤ → ℤ → ℕ → Option Bool

/-- `lookup_by_id(x, y, id)`. -/
def map_lookup_by_id (m : DPMap) (x y : ℤ) (id : ℕ) : Option Bool := m x y id

/-- `update_by_id(value, x, y, id)`: install or overwrite. -/
def map_update_by_id (m : DPMap) (value : Bool) (x y : ℤ) (id : ℕ) : DPMap :=
  fun a b k => if a = x ∧ b = y ∧ k = id then some value else m a b k

/-- `erase(x, y, id)`. -/
def map_erase (m : DPMap) (x y : ℤ) (id : ℕ) : DPMap :=
  fun a b k => if a = x ∧ b = y ∧ k = id then none else m a b k

/-- `rename(x, y, old_id, new_id)`: copy the entry to the new key, then
erase the old key. -/
def map_rename (m : DPMap) (x y : ℤ) (old_id new_id : ℕ) : DPMap :=
  let m1 : DPMap := fun a b k => if a = x ∧ b = y ∧ k = new_id then m x y old_id else m a b k
  map_erase m1 x y old_id

/-! ### Ancestry nodes -/

/-- `dp_node_t`: one ancestry-tree node.  Objects live in an arena
(`List dp_node`), object references are arena indices, and `parent` is an
optional index (`none` = JavaScript `null`). -/
structure dp_node where
  id : ℕ
  location : location_t
  parent : Option ℕ
  leaf : Bool
  children : ℤ
  modified_cells : List (ℤ × ℤ)
deriving DecidableEq, Repr

/-- Update the node record at an arena index (no-op when out of range,
which the driver never does). -/
def set_node (ns : List dp_node) (i : ℕ) (f : dp_node → dp_node) : List dp_node :=
  match ns[i]? with
  | some nd => ns.set i (f nd)
  | none => ns

/-- The `dp_node_t` constructor: attach a fresh node (leaf flag false,
no children, no modified cells, location copied) and, when a parent is
given, clear its leaf flag and bump its child count. -/
def alloc_node (ns : List dp_node) (id : ℕ) (loc : location_t) (parent : Option ℕ) :
    List dp_node :=
  let ns1 := match parent with
    | some p => set_node ns p (fun pn => { pn with leaf := false, children := pn.children + 1 })
    | none => ns
  ns1 ++ [{ id := id, location := loc, parent := parent, leaf := false,
            children := 0, modified_cells := [] }]

/-- `dp_node_t.add_cell(x, y)`. -/
def add_cell (ns : List dp_node) (i : ℕ) (x y : ℤ) : List dp_node :=
  set_node ns i (fun nd => { nd with modified_cells := nd.modified_cells ++ [(x, y)] })

/-- `dp_map_t.lookup(x, y, dp_node)`: walk the ancestry until a defined
value is found; unknown at the root is reported free (`false`).  The fuel
(`ns.length` at call sites) covers every ancestry chain of the arena,
whose parent indices decrease. -/
def dp_lookup (ns : List dp_node) (m : DPMap) (x y : ℤ) : ℕ → ℕ → Bool
  | 0, _ => false
  | fuel + 1, i =>
    match ns[i]? with
    | none => false
    | some nd =>
      match map_lookup_by_id m x y nd.id with
      | some true => true
      | some false => false
      | none =>
        match nd.parent with
        | none => false
        | some p => dp_lookup ns m x y fuel p

/-- The ancestry walk of `dp_map_t.update`: is there a defined entry at
`(x, y)` for the node or any of its ancestors? -/
def dp_update_check (ns : List dp_node) (m : DPMap) (x y : ℤ) : ℕ → ℕ → Bool
  | 0, _ => false
  | fuel + 1, i =>
    match ns[i]? with
    | none => false
    | some nd =>
      if (map_lookup_by_id m x y nd.id).isSome then true
      else
        match nd.parent with
        | none => false
        | some p => dp_update_check ns m x y fuel p

/-- `dp_map_t.update(value, x, y, dp_node)`: first-writer-wins along the
ancestry; returns the new map and whether the write was installed. -/
def dp_map_update (ns : List dp_node) (m : DPMap) (value : Bool) (x y : ℤ) (i : ℕ) :
    DPMap × Bool :=
  if dp_update_check ns m x y ns.length i then (m, false)
  else
    match ns[i]? with
    | some nd => (map_update_by_id m value x y nd.id, true)
    | none => (m, false)

/-- `map.erase` folded over a node's `modified_cells`. -/
def erase_cells (m : DPMap) (cells : List (ℤ × ℤ)) (id : ℕ) : DPMap :=
  cells.foldl (fun m c => map_erase m c.1 c.2 id) m

/-- `map.rename` folded over a node's `modified_cells`. -/
def rename_cells (m : DPMap) (cells : List (ℤ × ℤ)) (old_id new_id : ℕ) : DPMap :=
  cells.foldl (fun m c => map_rename m c.1 c.2 old_id new_id) m

/-- `dp_node_t.trim(map)`.  `none` models a JavaScript `TypeError`
(reading fields of a `null` parent or a missing arena slot) or fuel
exhaustion; the driver's fuel is sufficient on every reachable state.
The three cases are: stop at the root's child; erase and detach a dead
branch (recursing into the parent first, as the source does); fold an
only-child's parent into it (rename its cells to the parent's id, merge
the cell lists, adopt the parent's id and grandparent) and retry; else
recurse into the parent. -/
def trim : ℕ → List dp_node → DPMap → ℕ → Option (List dp_node × DPMap)
  | 0, _, _, _ => none
  | fuel + 1, ns, m, i =>
    match ns[i]? with
    | none => none
    | some nd =>
      match nd.parent with
      | none => none
      | some p =>
        match ns[p]? with
        | none => none
        | some pn =>
          if pn.id = 0 then some (ns, m)
          else if nd.leaf = false ∧ nd.children = 0 then
            let ns1 := ns.set p { pn with children := pn.children - 1 }
            let m1 := erase_cells m nd.modified_cells nd.id
            match trim fuel ns1 m1 p with
            | none => none
            | some r =>
              some (set_node r.1 i (fun nd2 => { nd2 with parent := none }), r.2)
          else if pn.children = 1 ∧ pn.id ≠ 0 then
            let merged := pn.modified_cells ++ nd.modified_cells
            let m1 := rename_cells m nd.modified_cells nd.id pn.id
            let ns1 := (ns.set p { pn with modified_cells := merged }).set i
              { nd with modified_cells := merged, id := pn.id, parent := pn.parent }
            trim fuel ns1 m1 i
          else trim fuel ns m p

/-- The body of one `trim` step once the node, its parent pointer and
the parent's slot have been resolved (used to unfold `trim` one case at
a time in proofs). -/
def trim_body (fuel : ℕ) (ns : List dp_node) (m : DPMap) (i : ℕ)
    (nd pn : dp_node) (p : ℕ) : Option (List dp_node × DPMap) :=
  if pn.id = 0 then some (ns, m)
  else if nd.leaf = false ∧ nd.children = 0 then
    let ns1 := ns.set p { pn with children := pn.children - 1 }
    let m1 := erase_cells m nd.modified_cells nd.id
    match trim fuel ns1 m1 p with
    | none => none
    | some r =>
      some (set_node r.1 i (fun nd2 => { nd2 with parent := none }), r.2)
  else if pn.children = 1 ∧ pn.id ≠ 0 then
    let merged := pn.modified_cells ++ nd.modified_cells
    let m1 := rename_cells m nd.modified_cells nd.id pn.id
    let ns1 := (ns.set p { pn with modified_cells := merged }).set i
      { nd with modified_cells := merged, id := pn.id, parent := pn.parent }
    trim fuel ns1 m1 i
  else trim fuel ns m p

instance : Inhabited dp_node :=
  ⟨{ id := 0, location := ⟨0, 0, 0⟩, parent := none, leaf := false,
     children := 0, modified_cells := [] }⟩

/-! ### DP-SLAM driver -/

/-- `dp_slam_t` construction parameters: particle count, resample
fraction (`resample_size = size * frac`, default `0.5`) and the motion
model.  The particle filter inside the driver always uses the default
`elimination_factor = 0.01`. -/
structure slam_config where
  size : ℕ
  frac : ℚ
  motion : motion_model_t
deriving Repr

/-- The filter's `n = 1 / size`. -/
def slam_config.n (cfg : slam_config) : ℚ := 1 / (cfg.size : ℚ)

/-- The filter's weight floor `threshold = 0.01 * n`. -/
def slam_config.threshold (cfg : slam_config) : ℚ := (1 / 100) * cfg.n

/-- `resample_size = size * frac`. -/
def slam_config.resample_size (cfg : slam_config) : ℚ := (cfg.size : ℚ) * cfg.frac

/-- The full estimator state: node arena, distributed map, filter
weights, current particle indices, the id counter, the sensor model with
its rotating start index, and the next position in the random stream. -/
structure slam_state where
  nodes : List dp_node
  smap : DPMap
  weights : List ℚ
  particles : List ℕ
  next_id : ℕ
  sensor : beam_model_t
  rng : ℕ

/-- The construction loop creating `size` children of the root. -/
def init_particles : ℕ → List dp_node × List ℕ × ℕ → List dp_node × List ℕ × ℕ
  | 0, acc => acc
  | k + 1, (ns, ps, nid) =>
    init_particles k (alloc_node ns nid ⟨0, 0, 0⟩ (some 0), ps ++ [ns.length], nid + 1)

/-- `dp_slam_t` construction: root (id 0, pose the origin) plus `size`
child particles at the root's pose, uniform weights, empty map. -/
def slam_init (cfg : slam_config) (sensor0 : beam_model_t) : slam_state :=
  let ns0 := alloc_node [] 0 ⟨0, 0, 0⟩ none
  let r := init_particles cfg.size (ns0, [], 1)
  { nodes := r.1, smap := fun _ _ _ => none,
    weights := List.replicate cfg.size cfg.n,
    particles := r.2.1, next_id := r.2.2, sensor := sensor0, rng := 0 }

/-- The filter's `predict` with the driver's `prediction_model`: sample a
pose from the motion model and attach a fresh child node to the particle.
The accumulator carries `(nodes, next_id, rng, new particle indices)`. -/
def predict_fold (O : Oracle) (cfg : slam_config) (control : control_t) :
    List ℕ → List dp_node × ℕ × ℕ × List ℕ → List dp_node × ℕ × ℕ × List ℕ
  | [], acc => acc
  | pidx :: rest, (ns, nid, rng, out) =>
    let s := cfg.motion.sample O rng control (ns.getD pidx default).location
    predict_fold O cfg control rest
      (alloc_node ns nid s.1 (some pidx), nid + 1, s.2, out ++ [ns.length])

/-- Mark every node in the list as a leaf (`new_particles[i].leaf = true`). -/
def mark_leaves (ns : List dp_node) (idxs : List ℕ) : List dp_node :=
  idxs.foldl (fun ns i => set_node ns i (fun nd => { nd with leaf := true })) ns

/-- `particles[i].trim(map)` for every index in order, propagating a
trim-time error. -/
def trim_list (fuel : ℕ) : List ℕ → List dp_node × DPMap → Option (List dp_node × DPMap)
  | [], s => some s
  | i :: rest, s =>
    match trim fuel s.1 s.2 i with
    | none => none
    | some s2 => trim_list fuel rest s2

/-- The non-resampling branch: `particles[i].leaf = true` then
`particles[i].trim(map)`, one particle at a time. -/
def mark_trim_list (fuel : ℕ) : List ℕ → List dp_node × DPMap → Option (List dp_node × DPMap)
  | [], s => some s
  | i :: rest, s =>
    let ns1 := set_node s.1 i (fun nd => { nd with leaf := true })
    match trim fuel ns1 s.2 i with
    | none => none
    | some s2 => mark_trim_list fuel rest s2

/-- The driver's map writer for one particle: attempt the
first-writer-wins update and record the cell on success. -/
def slam_writer (pidx : ℕ) (s : List dp_node × DPMap) (value : Bool) (x y : ℤ) :
    List dp_node × DPMap :=
  let r := dp_map_update s.1 s.2 value x y pidx
  if r.2 then (add_cell s.1 pidx x y, r.1) else (s.1, r.1)

/-- The sensor-update loop over all current particles. -/
def write_fold (O : Oracle) (sensor : beam_model_t) (scan : ℕ → ℚ) :
    List ℕ → List dp_node × DPMap → List dp_node × DPMap
  | [], s => s
  | pidx :: rest, s =>
    let s2 := beam_update O sensor (s.1.getD pidx default).location scan (slam_writer pidx) s
    write_fold O sensor scan rest s2

/-- `dp_slam_t.update(control, measurement)`: predict, weight, optionally
resample (marking survivors and trimming every predicted node), write the
observed cells, and advance the sensor's start index.  `none` propagates
a trim error; on reachable states trimming always succeeds. -/
def supdate (O : Oracle) (cfg : slam_config) (control : control_t) (scan : ℕ → ℚ)
    (st : slam_state) : Option slam_state :=
  let pr := predict_fold O cfg control st.particles (st.nodes, st.next_id, st.rng, [])
  let ns1 := pr.1
  let parts1 := pr.2.2.2
  let wm := fun pidx => beam_prob O st.sensor (ns1.getD pidx default).location scan
    (fun x y => dp_lookup ns1 st.smap x y ns1.length pidx)
  let w1 := filter_weight cfg.n cfg.threshold wm parts1 st.weights
  let fuel := 2 * ns1.length + 2
  if filter_ess w1 < cfg.resample_size then
    let newp := filter_resample cfg.size cfg.n w1 parts1 (O.rand pr.2.2.1)
    let ns2 := mark_leaves ns1 newp
    match trim_list fuel parts1 (ns2, st.smap) with
    | none => none
    | some s2 =>
      let s3 := write_fold O st.sensor scan newp s2
      some { nodes := s3.1, smap := s3.2, weights := List.replicate cfg.size cfg.n,
             particles := newp, next_id := pr.2.1, sensor := st.sensor.increment,
             rng := pr.2.2.1 + 1 }
  else
    match mark_trim_list fuel parts1 (ns1, st.smap) with
    | none => none
    | some s2 =>
      let s3 := write_fold O st.sensor scan parts1 s2
      some { nodes := s3.1, smap := s3.2, weights := w1,
             particles := parts1, next_id := pr.2.1, sensor := st.sensor.increment,
             rng := pr.2.2.1 }

/-- The states of the estimator: the freshly constructed state (for any
sensor configuration, whose rotating start index begins at zero) and
everything reachable from it by `update` steps with arbitrary controls
and scans. -/
inductive slam_reach (O : Oracle) (cfg : slam_config) : slam_state → Prop
  | init : ∀ sensor0 : beam_model_t, sensor0.start_index = 0 →
      slam_reach O cfg (slam_init cfg sensor0)
  | step : ∀ st control scan st', slam_reach O cfg st →
      supdate O cfg control scan st = some st' → slam_reach O cfg st'

/-! ### Observation helpers used to state the claims -/

/-- The ancestry chain of a node: the node followed by its parents, as
far as the fuel reaches (`ns.length` covers every chain of the arena,
whose parent indices strictly decrease). -/
def ancestor_chain (ns : List dp_node) : ℕ → ℕ → List ℕ
  | 0, _ => []
  | fuel + 1, i =>
    i :: (match ns[i]? with
      | none => []
      | some nd =>
        match nd.parent with
        | none => []
        | some p => ancestor_chain ns fuel p)

/-- A node is attached when its parent chain ends at the root (index 0):
these are the nodes the ancestry tree still contains, as opposed to
branches detached by `trim`. -/
def attached (ns : List dp_node) (i : ℕ) : Prop :=
  (ancestor_chain ns ns.length i).getLast? = some 0

instance (ns : List dp_node) (i : ℕ) : Decidable (attached ns i) := by
  unfold attached; infer_instance

/-- How many nodes along a chain own a defined map entry at `(x, y)`. -/
def chain_entry_count (ns : List dp_node) (m : DPMap) (x y : ℤ) (chain : List ℕ) : ℕ :=
  (chain.filter (fun j =>
    match ns[j]? with
    | some nd => (map_lookup_by_id m x y nd.id).isSome
    | none => false)).length

/-- The trace of writer calls `(value, x, y)` made by the sensor model's
`update` for a given pose and scan. -/
def beam_update_writes (O : Oracle) (m : beam_model_t) (robot_location : location_t)
    (measurement : ℕ → ℚ) : List (Bool × ℤ × ℤ) :=
  beam_update O m robot_location measurement (fun s v x y => s ++ [(v, x, y)]) []

/-- The `(index, rotation)` pairs of the sampled beams, in iteration
order of the sensor loops. -/
def beam_samples (O : Oracle) (m : beam_model_t) : List (ℕ × ℚ) :=
  beam_fold m (fun i rot a => a ++ [(i, rot)]) O m.size m.start_index
    (m.delta_rot O * (m.start_index : ℚ)) []

/-- The writer calls the code makes for one beam: free for every cell
with more than one cell remaining, occupied at the terminal cell, and
nothing for the penultimate cell. -/
def ray_write_list (cs : List (ℤ × ℤ × ℕ)) : List (Bool × ℤ × ℤ) :=
  (cs.take (cs.length - 2)).map (fun c => (false, c.1, c.2.1)) ++
    (cs.drop (cs.length - 1)).map (fun c => (true, c.1, c.2.1))

/-- The claim's reading of `prob_ray` (stated for comparison with the
code): cast from the pose toward the endpoint at distance `max_ray` in
the absolute direction `hit_location.angle`, rather than turning the
pose's own heading by `hit_location.angle` as `location_t.add` does. -/
def prob_ray_claim_reading (O : Oracle) (m : beam_model_t)
    (robot_location hit_location : location_t) (map_lookup : ℤ → ℤ → Bool) : ℚ :=
  let end_location : location_t :=
    ⟨robot_location.x + O.cos hit_location.angle * m.max_ray,
     robot_location.y + O.sin hit_location.angle * m.max_ray, hit_location.angle⟩
  match (ray_cells robot_location end_location).find? (fun c => map_lookup c.1 c.2.1) with
  | some c =>
    prob_normal O (location_t.distance O robot_location hit_location)
      (location_t.distance O robot_location ⟨(c.1 : ℚ) + 1/2, (c.2.1 : ℚ) + 1/2, 0⟩)
      m.variance
  | none => 1

/-- The list of current particle poses, in slot order. -/
def particle_poses (st : slam_state) : List location_t :=
  st.particles.map (fun i => (st.nodes.getD i default).location)

instance : Inhabited slam_state :=
  ⟨{ nodes := [], smap := fun _ _ _ => none, weights := [], particles := [],
     next_id := 0, sensor := ⟨0, 0, 0, 0, 0⟩, rng := 0 }⟩

/-- A platform oracle all of whose numeric primitives return zero. -/
def zero_oracle : Oracle :=
  ⟨fun _ => 0, fun _ => 0, fun _ => 0, fun _ => 0, fun _ => 0, fun _ => 0, fun _ _ => 0, 0⟩

/-- A two-particle estimator whose resample threshold `size * frac = 3`
always exceeds the effective sample size, so every update resamples. -/
def c5_cfg : slam_config := ⟨2, 3/2, ⟨0, 0, 0, 0⟩⟩

/-- A one-beam sensor (`samples = size = 1`). -/
def unit_sensor : beam_model_t := ⟨1, 1, 1, 1, 0⟩

/-- A still control at the origin. -/
def still_control : control_t := ⟨⟨0, 0, 0⟩, ⟨0, 0, 0⟩⟩

/-- A platform oracle for the C7 trace: the random stream is
`(k+1)/100` except draw 13, which is zero; `cos ≡ 1`, `sin ≡ 0`,
`log q = q - 1`, `sqrt q = q`. -/
def c7_oracle : Oracle :=
  ⟨fun k => if k = 13 then 0 else ((k : ℚ) + 1) / 100, fun _ => 1, fun _ => 0,
   fun q => q - 1, fun q => q, fun _ => 0, fun _ _ => 0, 0⟩

/-- Two particles, always-resampling threshold, translation noise
`a3 = 1/2` so the two particles receive distinct poses. -/
def c7_cfg : slam_config := ⟨2, 3/2, ⟨0, 0, 1/2, 0⟩⟩

/-- A unit translation along x. -/
def c7_move_control : control_t := ⟨⟨1, 0, 0⟩, ⟨0, 0, 0⟩⟩

/-- A still control at the translated pose. -/
def c7_still_control : control_t := ⟨⟨1, 0, 0⟩, ⟨1, 0, 0⟩⟩

/-- Concrete fixture for the spec's trim-collapse scenario: the chain
root → A → B → C where C is the only leaf, A and B each have exactly one
child, and A, B, C have modified cells `(1,1)`, `(2,2)`, `(3,3)`. -/
def c3_nodes : List dp_node :=
  [⟨0, ⟨0, 0, 0⟩, none, false, 1, []⟩,
   ⟨1, ⟨0, 0, 0⟩, some 0, false, 1, [(1, 1)]⟩,
   ⟨2, ⟨0, 0, 0⟩, some 1, false, 1, [(2, 2)]⟩,
   ⟨3, ⟨0, 0, 0⟩, some 2, true, 0, [(3, 3)]⟩]

/-- The map matching `c3_nodes`: A wrote occupied at `(1,1)`, B wrote
free at `(2,2)`, C wrote occupied at `(3,3)`. -/
def c3_map : DPMap :=
  map_update_by_id (map_update_by_id (map_update_by_id (fun _ _ _ => none)
    true 1 1 1) false 2 2 2) true 3 3 3

/-! ### Invariants of the reachable states -/

/-- The parent pointer of arena slot `j` (`none` when detached, the root,
or out of range). -/
def parentOf (ns : List dp_node) (j : ℕ) : Option ℕ :=
  match ns[j]? with
  | some nd => nd.parent
  | none => none

/-- The number of live arena slots whose parent pointer is `i`. -/
def childCount (ns : List dp_node) (live : Finset ℕ) (i : ℕ) : ℕ :=
  ((Finset.range ns.length).filter (fun j => j ∈ live ∧ parentOf ns j = some i)).card

/-- `IsAnc ns i j`: slot `j` is `i` itself or an ancestor of `i` along
the parent pointers of the arena. -/
inductive IsAnc (ns : List dp_node) : ℕ → ℕ → Prop
  | refl (i : ℕ) : IsAnc ns i i
  | step {i j p : ℕ} {nd : dp_node} : ns[i]? = some nd → nd.parent = some p →
      IsAnc ns p j → IsAnc ns i j

/-- Slot `j` owns a defined map entry at `(x, y)`. -/
def entry_at (ns : List dp_node) (m : DPMap) (x y : ℤ) (j : ℕ) : Prop :=
  ∃ nd, ns[j]? = some nd ∧ (map_lookup_by_id m x y nd.id).isSome

/-- Well-formedness of the arena and the distributed map.  `live` labels
the nodes of the current object graph (the root, the current particles
and their ancestors, and the never-pruned dead children of the root);
the rest of the arena is garbage left behind by `trim` (detached dead
branches, and merged-away parents that stay attached with their stale
unit child count).  `G` collects nodes temporarily exempt from the
garbage clause: inside one `trim` call, a dead node stays attached with
child count zero until the recursion into its parent returns.  Between
`update` calls the invariant holds with `G = ∅`. -/
structure Inv (ns : List dp_node) (m : DPMap) (live : Finset ℕ) (nid : ℕ)
    (G : Finset ℕ) : Prop where
  root_lt : 0 < ns.length
  root_node : ∀ nd, ns[0]? = some nd → nd.parent = none ∧ nd.id = 0
  root_live : 0 ∈ live
  live_lt : ∀ i ∈ live, i < ns.length
  parent_live : ∀ i ∈ live, i ≠ 0 → ∀ nd, ns[i]? = some nd →
    ∃ p, nd.parent = some p ∧ p ∈ live
  parent_dec : ∀ (j : ℕ) (nd : dp_node), ns[j]? = some nd → ∀ p, nd.parent = some p → p < j
  counts : ∀ i ∈ live, ∀ nd, ns[i]? = some nd → nd.children = (childCount ns live i : ℤ)
  ids_distinct : ∀ i ∈ live, ∀ j ∈ live, i ≠ j → ∀ a, ns[i]? = some a →
    ∀ b, ns[j]? = some b → a.id ≠ b.id
  id_nonzero : ∀ i ∈ live, i ≠ 0 → ∀ nd, ns[i]? = some nd → nd.id ≠ 0
  ids_lt : ∀ i ∈ live, ∀ nd, ns[i]? = some nd → nd.id < nid
  garbage_one : ∀ i, i ∉ live → i ∉ G → ∀ nd, ns[i]? = some nd →
    ∀ p, nd.parent = some p → nd.children = 1
  owner : ∀ x y k, (m x y k).isSome →
    ∃ i ∈ live, ∃ nd, ns[i]? = some nd ∧ nd.id = k ∧ (x, y) ∈ nd.modified_cells
  cells_defined : ∀ i ∈ live, ∀ nd, ns[i]? = some nd →
    ∀ c ∈ nd.modified_cells, (m c.1 c.2 nd.id).isSome
  cells_nodup : ∀ i ∈ live, ∀ nd, ns[i]? = some nd → nd.modified_cells.Nodup
  uniq : ∀ l ∈ live, ∀ x y j k, IsAnc ns l j → IsAnc ns l k →
    entry_at ns m x y j → entry_at ns m x y k → j = k

/-- The reachable-state invariant of the estimator: a well-formed arena
and map with no trim in progress, every current particle a live non-root
node with no children that is either a marked leaf or a direct child of
the root, and dead ends only at the root's children. -/
def SlamInv (st : slam_state) : Prop :=
  ∃ live : Finset ℕ,
    Inv st.nodes st.smap live st.next_id ∅ ∧
    (∀ p ∈ st.particles, p ∈ live ∧ p ≠ 0) ∧
    (∀ p ∈ st.particles, ∀ nd, st.nodes[p]? = some nd →
      nd.children = 0 ∧ (nd.leaf = true ∨ nd.parent = some 0)) ∧
    (∀ i ∈ live, i ≠ 0 → ∀ nd, st.nodes[i]? = some nd → nd.leaf = false →
      nd.children = 0 → nd.parent = some 0)

/-- The contract of one successful `trim` call on a live node `i` whose
slot holds `nd`: the live set shrinks, the invariant is preserved with
the same exemptions, the arena keeps its length, slots off the ancestry
chain of `i` are untouched, leaf flags and poses are preserved
everywhere, a surviving node keeps its child count and a second `trim`
returns the state unchanged, a dead node is either detached or a child
of the root, nodes whose slots changed can only be dead at the root, and
every surviving node's lookups are unchanged. -/
@[reducible]
def TrimPost (ns : List dp_node) (m : DPMap) (live : Finset ℕ) (nid : ℕ) (G : Finset ℕ)
    (i : ℕ) (nd : dp_node) (ns' : List dp_node) (m' : DPMap) (live' : Finset ℕ) : Prop :=
  live' ⊆ live ∧
  Inv ns' m' live' nid G ∧
  ns'.length = ns.length ∧
  (∀ j, ¬ IsAnc ns i j → ns'[j]? = ns[j]? ∧ (j ∈ live' ↔ j ∈ live)) ∧
  (∀ j : ℕ, ((ns'[j]?).map (fun n : dp_node => (n.leaf, n.location)))
    = ((ns[j]?).map (fun n : dp_node => (n.leaf, n.location)))) ∧
  (¬ (nd.leaf = false ∧ nd.children = 0) →
    i ∈ live' ∧
    (∀ nd', ns'[i]? = some nd' → nd'.children = nd.children) ∧
    (∀ f2 p' nd', ns'[i]? = some nd' → nd'.parent = some p' → i + p' + 2 ≤ f2 →
      trim f2 ns' m' i = some (ns', m'))) ∧
  (nd.leaf = false → nd.children = 0 →
    i ∉ live' ∨ ∀ nd', ns'[i]? = some nd' → nd'.parent = some 0) ∧
  (∀ j ∈ live', ∀ nd', ns'[j]? = some nd' → nd'.leaf = false → nd'.children = 0 →
    ns'[j]? = ns[j]? ∨ nd'.parent = some 0) ∧
  (∀ j ∈ live', ∀ x y, dp_lookup ns' m' x y ns'.length j = dp_lookup ns m x y ns.length j)

/-- The resampling test of `dp_slam_t.update`: the effective sample size
of the freshly weighted particles falls below `resample_size`. -/
def supdate_resamples (O : Oracle) (cfg : slam_config) (control : control_t)
    (scan : ℕ → ℚ) (st : slam_state) : Prop :=
  let pr := predict_fold O cfg control st.particles (st.nodes, st.next_id, st.rng, [])
  let ns1 := pr.1
  let parts1 := pr.2.2.2
  let wm := fun pidx => beam_prob O st.sensor (ns1.getD pidx default).location scan
    (fun x y => dp_lookup ns1 st.smap x y ns1.length pidx)
  filter_ess (filter_weight cfg.n cfg.threshold wm parts1 st.weights) < cfg.resample_size

/-- A two-particle estimator with resample fraction zero: the
effective-sample-size test never triggers. -/
def c7b_cfg : slam_config := ⟨2, 0, ⟨0, 0, 0, 0⟩⟩

/-! ## Theorems -/

/-! ### Arena access lemmas -/

theorem set_node_length (ns : List dp_node) (i : ℕ) (f : dp_node → dp_node) :
    (set_node ns i f).length = ns.length := by
  unfold set_node
  cases h : ns[i]? with
  | none => rfl
  | some nd => simp

theorem set_node_get_self (ns : List dp_node) (i : ℕ) (f : dp_node → dp_node) :
    (set_node ns i f)[i]? = (ns[i]?).map f := by
  unfold set_node
  cases h : ns[i]? with
  | none => simp [h]
  | some nd =>
    have hlt : i < ns.length := by
      by_contra hge
      rw [List.getElem?_eq_none (by omega)] at h
      cases h
    simp [List.getElem?_set_self hlt, h]

theorem set_node_get_other (ns : List dp_node) (i j : ℕ) (f : dp_node → dp_node)
    (hne : i ≠ j) : (set_node ns i f)[j]? = ns[j]? := by
  unfold set_node
  cases h : ns[i]? with
  | none => rfl
  | some nd => simp [List.getElem?_set_ne hne]

theorem set_node_parentOf_other (ns : List dp_node) (i j : ℕ) (f : dp_node → dp_node)
    (hne : i ≠ j) : parentOf (set_node ns i f) j = parentOf ns j := by
  unfold parentOf
  rw [set_node_get_other ns i j f hne]

/-! ### Pointwise characterizations of the map operations -/

theorem map_update_by_id_spec (m : DPMap) (v : Bool) (x y : ℤ) (id : ℕ) (a b : ℤ) (k : ℕ) :
    map_update_by_id m v x y id a b k =
      if a = x ∧ b = y ∧ k = id then some v else m a b k := rfl

theorem map_erase_spec (m : DPMap) (x y : ℤ) (id : ℕ) (a b : ℤ) (k : ℕ) :
    map_erase m x y id a b k = if a = x ∧ b = y ∧ k = id then none else m a b k := rfl

theorem map_rename_spec (m : DPMap) (x y : ℤ) (oi ni : ℕ) (hne : oi ≠ ni) (a b : ℤ) (k : ℕ) :
    map_rename m x y oi ni a b k =
      if a = x ∧ b = y ∧ k = ni then m x y oi
      else if a = x ∧ b = y ∧ k = oi then none
      else m a b k := by
  show (if a = x ∧ b = y ∧ k = oi then none
      else if a = x ∧ b = y ∧ k = ni then m x y oi else m a b k) = _
  by_cases h1 : a = x ∧ b = y ∧ k = oi
  · have h2 : ¬ (a = x ∧ b = y ∧ k = ni) := by
      rintro ⟨_, _, hk⟩
      exact hne (h1.2.2.symm.trans hk)
    rw [if_pos h1, if_neg h2, if_pos h1]
  · rw [if_neg h1, if_neg h1]

/-- `erase_cells` deletes exactly the listed cells under the given id. -/
theorem erase_cells_spec (id : ℕ) : ∀ (cells : List (ℤ × ℤ)) (m : DPMap) (a b : ℤ) (k : ℕ),
    erase_cells m cells id a b k =
      if k = id ∧ (a, b) ∈ cells then none else m a b k := by
  intro cells
  induction cells with
  | nil => intro m a b k; simp [erase_cells]
  | cons c t ih =>
    intro m a b k
    obtain ⟨cx, cy⟩ := c
    have hstep : erase_cells m ((cx, cy) :: t) id
        = erase_cells (map_erase m cx cy id) t id := rfl
    rw [hstep, ih]
    by_cases hc : a = cx ∧ b = cy
    · obtain ⟨rfl, rfl⟩ := hc
      by_cases hk : k = id
      · simp [map_erase_spec, hk]
      · simp [map_erase_spec, hk]
    · have hM : map_erase m cx cy id a b k = m a b k := by
        rw [map_erase_spec]
        have h1 : ¬ (a = cx ∧ b = cy ∧ k = id) := fun h => hc ⟨h.1, h.2.1⟩
        rw [if_neg h1]
      have hmem : ((a, b) ∈ (cx, cy) :: t) ↔ ((a, b) ∈ t) := by
        simp only [List.mem_cons, Prod.mk.injEq]
        constructor
        · rintro (⟨h1, h2⟩ | h)
          · exact absurd ⟨h1, h2⟩ hc
          · exact h
        · exact Or.inr
      simp only [hM, hmem]

/-- `rename_cells` moves exactly the listed cells from the old id to the
new id, provided the ids differ and the list has no duplicates. -/
theorem rename_cells_spec (oi ni : ℕ) (hne : oi ≠ ni) :
    ∀ (cells : List (ℤ × ℤ)), cells.Nodup → ∀ (m : DPMap) (a b : ℤ) (k : ℕ),
    rename_cells m cells oi ni a b k =
      if k = ni then (if (a, b) ∈ cells then m a b oi else m a b ni)
      else if k = oi then (if (a, b) ∈ cells then none else m a b oi)
      else m a b k := by
  intro cells
  induction cells with
  | nil =>
    intro _ m a b k
    show m a b k = _
    by_cases hk : k = ni
    · subst hk; simp
    · by_cases hko : k = oi
      · subst hko; simp [hk]
      · simp [hk, hko]
  | cons c t ih =>
    intro hnodup m a b k
    obtain ⟨cx, cy⟩ := c
    have hct : ((cx, cy) : ℤ × ℤ) ∉ t := (List.nodup_cons.mp hnodup).1
    have hstep : rename_cells m ((cx, cy) :: t) oi ni
        = rename_cells (map_rename m cx cy oi ni) t oi ni := rfl
    rw [hstep, ih (List.Nodup.of_cons hnodup)]
    by_cases hc : a = cx ∧ b = cy
    · obtain ⟨rfl, rfl⟩ := hc
      by_cases hk : k = ni
      · simp [map_rename_spec m a b oi ni hne, hct, hk]
      · by_cases hko : k = oi
        · simp [map_rename_spec m a b oi ni hne, hct, hk, hko, hne]
        · simp [map_rename_spec m a b oi ni hne, hk, hko]
    · have hM : ∀ k', map_rename m cx cy oi ni a b k' = m a b k' := by
        intro k'
        rw [map_rename_spec m cx cy oi ni hne]
        have h1 : ¬ (a = cx ∧ b = cy ∧ k' = ni) := fun h => hc ⟨h.1, h.2.1⟩
        have h2 : ¬ (a = cx ∧ b = cy ∧ k' = oi) := fun h => hc ⟨h.1, h.2.1⟩
        rw [if_neg h1, if_neg h2]
      have hmem : ((a, b) ∈ (cx, cy) :: t) ↔ ((a, b) ∈ t) := by
        simp only [List.mem_cons, Prod.mk.injEq]
        constructor
        · rintro (⟨h1, h2⟩ | h)
          · exact absurd ⟨h1, h2⟩ hc
          · exact h
        · exact Or.inr
      simp only [hM, hmem]

/-! ### Ancestry relation lemmas -/

theorem parentOf_eq_some {ns : List dp_node} {j p : ℕ} :
    parentOf ns j = some p ↔ ∃ nd, ns[j]? = some nd ∧ nd.parent = some p := by
  unfold parentOf
  cases h : ns[j]? with
  | none => simp
  | some nd => simp

theorem isAnc_le {ns : List dp_node}
    (hdec : ∀ (j : ℕ) (nd : dp_node), ns[j]? = some nd → ∀ p, nd.parent = some p → p < j) :
    ∀ {i j : ℕ}, IsAnc ns i j → j ≤ i := by
  intro i j h
  induction h with
  | refl i => exact le_refl i
  | step hnd hp _ ih => exact le_of_lt (lt_of_le_of_lt ih (hdec _ _ hnd _ hp))

theorem isAnc_trans {ns : List dp_node} {k : ℕ} :
    ∀ {i j : ℕ}, IsAnc ns i j → IsAnc ns j k → IsAnc ns i k := by
  intro i j h1
  induction h1 with
  | refl => exact id
  | step hnd hp _ ih => intro h2; exact IsAnc.step hnd hp (ih h2)

theorem isAnc_parent {ns : List dp_node} {i p : ℕ} {nd : dp_node}
    (hnd : ns[i]? = some nd) (hp : nd.parent = some p) : IsAnc ns i p :=
  IsAnc.step hnd hp (IsAnc.refl p)

/-- A live node's ancestors are live (using the root's null parent and
the liveness of parents of live nodes). -/
theorem isAnc_live {ns : List dp_node} {live : Finset ℕ}
    (hroot : ∀ nd, ns[0]? = some nd → nd.parent = none ∧ nd.id = 0)
    (hpar : ∀ i ∈ live, i ≠ 0 → ∀ nd, ns[i]? = some nd →
      ∃ p, nd.parent = some p ∧ p ∈ live) :
    ∀ {i j : ℕ}, IsAnc ns i j → i ∈ live → j ∈ live := by
  intro i j h
  induction h with
  | refl => exact id
  | @step a b p nd hnd hp _ ih =>
    intro hi
    apply ih
    by_cases h0 : a = 0
    · subst h0
      rcases hroot _ hnd with ⟨hn, _⟩
      rw [hn] at hp; cases hp
    · rcases hpar _ hi h0 _ hnd with ⟨p', hp', hlive⟩
      have hpp := Option.some.inj (hp.symm.trans hp')
      rw [hpp]
      exact hlive

theorem childCount_zero_no_child {ns : List dp_node} {live : Finset ℕ} {i : ℕ}
    (h : childCount ns live i = 0) :
    ∀ x ∈ live, x < ns.length → parentOf ns x ≠ some i := by
  intro x hx hlt hp
  have hmem : x ∈ (Finset.range ns.length).filter
      (fun j => j ∈ live ∧ parentOf ns j = some i) := by
    simp only [Finset.mem_filter, Finset.mem_range]
    exact ⟨hlt, hx, hp⟩
  unfold childCount at h
  rw [Finset.card_eq_zero] at h
  rw [h] at hmem
  cases hmem

theorem childCount_pos {ns : List dp_node} {live : Finset ℕ} {i x : ℕ}
    (hx : x ∈ live) (hlt : x < ns.length) (hp : parentOf ns x = some i) :
    1 ≤ childCount ns live i := by
  have hmem : x ∈ (Finset.range ns.length).filter
      (fun j => j ∈ live ∧ parentOf ns j = some i) := by
    simp only [Finset.mem_filter, Finset.mem_range]
    exact ⟨hlt, hx, hp⟩
  exact Finset.card_pos.mpr ⟨x, hmem⟩

theorem childCount_one_unique {ns : List dp_node} {live : Finset ℕ} {i : ℕ}
    (h : childCount ns live i = 1) {x y : ℕ}
    (hx : x ∈ live) (hxl : x < ns.length) (hpx : parentOf ns x = some i)
    (hy : y ∈ live) (hyl : y < ns.length) (hpy : parentOf ns y = some i) : x = y := by
  have hmx : x ∈ (Finset.range ns.length).filter
      (fun j => j ∈ live ∧ parentOf ns j = some i) := by
    simp only [Finset.mem_filter, Finset.mem_range]
    exact ⟨hxl, hx, hpx⟩
  have hmy : y ∈ (Finset.range ns.length).filter
      (fun j => j ∈ live ∧ parentOf ns j = some i) := by
    simp only [Finset.mem_filter, Finset.mem_range]
    exact ⟨hyl, hy, hpy⟩
  exact Finset.card_le_one.mp (le_of_eq h) x hmx y hmy

/-- `IsAnc` transports to any arena with the same parent pointers. -/
theorem isAnc_congr {ns ns2 : List dp_node}
    (h : ∀ j, parentOf ns2 j = parentOf ns j) :
    ∀ {i j : ℕ}, IsAnc ns i j → IsAnc ns2 i j := by
  intro i j ha
  induction ha with
  | refl i => exact IsAnc.refl i
  | step hnd hp _ ih =>
    rcases parentOf_eq_some.mp ((h _).trans (parentOf_eq_some.mpr ⟨_, hnd, hp⟩)) with
      ⟨nd2, hnd2, hp2⟩
    exact IsAnc.step hnd2 hp2 ih

/-- No live node has `i` as a proper ancestor when `i` has no live
child. -/
theorem isAnc_ne_of_no_child {ns : List dp_node} {live : Finset ℕ} {i : ℕ}
    (hroot : ∀ nd, ns[0]? = some nd → nd.parent = none ∧ nd.id = 0)
    (hpar : ∀ l ∈ live, l ≠ 0 → ∀ nd, ns[l]? = some nd →
      ∃ p, nd.parent = some p ∧ p ∈ live)
    (hnochild : ∀ x ∈ live, ∀ nd, ns[x]? = some nd → nd.parent ≠ some i) :
    ∀ {l j : ℕ}, IsAnc ns l j → l ∈ live → l ≠ i → j ≠ i := by
  intro l j h
  induction h with
  | refl => exact fun _ h => h
  | @step a b p nd hnd hp hanc ih =>
    intro hl _
    by_cases h0 : a = 0
    · subst h0
      rcases hroot _ hnd with ⟨hn, _⟩
      rw [hn] at hp; cases hp
    · rcases hpar _ hl h0 _ hnd with ⟨p', hp', hplive⟩
      have hpp := Option.some.inj (hp.symm.trans hp')
      subst hpp
      exact ih hplive (fun he => hnochild _ hl _ hnd (he ▸ hp))

/-! ### Lookup walk lemmas -/

theorem dp_lookup_succ (ns : List dp_node) (m : DPMap) (x y : ℤ) (f k : ℕ) :
    dp_lookup ns m x y (f + 1) k =
      match ns[k]? with
      | none => false
      | some nd =>
        match map_lookup_by_id m x y nd.id with
        | some true => true
        | some false => false
        | none =>
          match nd.parent with
          | none => false
          | some p => dp_lookup ns m x y f p := rfl

theorem dp_lookup_none {ns : List dp_node} {m : DPMap} {x y : ℤ} {f k : ℕ}
    (h : ns[k]? = none) : dp_lookup ns m x y (f + 1) k = false := by
  rw [dp_lookup_succ, h]

theorem dp_lookup_some {ns : List dp_node} {m : DPMap} {x y : ℤ} {f k : ℕ}
    {nd : dp_node} (h : ns[k]? = some nd) :
    dp_lookup ns m x y (f + 1) k =
      match map_lookup_by_id m x y nd.id with
      | some true => true
      | some false => false
      | none =>
        match nd.parent with
        | none => false
        | some p => dp_lookup ns m x y f p := by
  rw [dp_lookup_succ, h]

theorem dp_lookup_found {ns : List dp_node} {m : DPMap} {x y : ℤ} {f k : ℕ}
    {nd : dp_node} {b : Bool} (h : ns[k]? = some nd)
    (hl : map_lookup_by_id m x y nd.id = some b) :
    dp_lookup ns m x y (f + 1) k = b := by
  rw [dp_lookup_some h, hl]
  cases b <;> rfl

theorem dp_lookup_root {ns : List dp_node} {m : DPMap} {x y : ℤ} {f k : ℕ}
    {nd : dp_node} (h : ns[k]? = some nd)
    (hl : map_lookup_by_id m x y nd.id = none) (hp : nd.parent = none) :
    dp_lookup ns m x y (f + 1) k = false := by
  rw [dp_lookup_some h, hl, hp]

theorem dp_lookup_step {ns : List dp_node} {m : DPMap} {x y : ℤ} {f k p : ℕ}
    {nd : dp_node} (h : ns[k]? = some nd)
    (hl : map_lookup_by_id m x y nd.id = none) (hp : nd.parent = some p) :
    dp_lookup ns m x y (f + 1) k = dp_lookup ns m x y f p := by
  rw [dp_lookup_some h, hl, hp]

/-- The lookup walk is fuel-insensitive once the fuel exceeds the start
index, because parent indices strictly decrease. -/
theorem dp_lookup_fuel {ns : List dp_node} {m : DPMap} {x y : ℤ}
    (hdec : ∀ (j : ℕ) (nd : dp_node), ns[j]? = some nd → ∀ p, nd.parent = some p → p < j) :
    ∀ f g k, k + 1 ≤ f → k + 1 ≤ g →
      dp_lookup ns m x y f k = dp_lookup ns m x y g k := by
  intro f
  induction f with
  | zero => intro g k hf _; exact absurd hf (by omega)
  | succ f ih =>
    intro g k hf hg
    cases g with
    | zero => exact absurd hg (by omega)
    | succ g =>
      cases hk : ns[k]? with
      | none => rw [dp_lookup_none hk, dp_lookup_none hk]
      | some nd =>
        cases hl : map_lookup_by_id m x y nd.id with
        | some b => rw [dp_lookup_found hk hl, dp_lookup_found hk hl]
        | none =>
          cases hp : nd.parent with
          | none => rw [dp_lookup_root hk hl hp, dp_lookup_root hk hl hp]
          | some p =>
            rw [dp_lookup_step hk hl hp, dp_lookup_step hk hl hp]
            have hpk := hdec _ _ hk _ hp
            exact ih g p (by omega) (by omega)

/-- Generic simulation lemma for the lookup walk: if along a set of
slots closed under parents the two states agree on the stored node's
id-keyed value and parent pointer, the walks agree. -/
theorem dp_lookup_sim {ns ns2 : List dp_node} {m m2 : DPMap} {x y : ℤ}
    (S : ℕ → Prop)
    (h : ∀ k, S k →
      (ns[k]? = none ∧ ns2[k]? = none) ∨
      ∃ nd nd2, ns[k]? = some nd ∧ ns2[k]? = some nd2 ∧
        map_lookup_by_id m2 x y nd2.id = map_lookup_by_id m x y nd.id ∧
        nd2.parent = nd.parent ∧ (∀ p, nd.parent = some p → S p)) :
    ∀ f k, S k → dp_lookup ns2 m2 x y f k = dp_lookup ns m x y f k := by
  intro f
  induction f with
  | zero => intro k _; rfl
  | succ f ih =>
    intro k hk
    rcases h k hk with ⟨h1, h2⟩ | ⟨nd, nd2, h1, h2, hval, hpar, hclosed⟩
    · rw [dp_lookup_none h1, dp_lookup_none h2]
    · cases hl : map_lookup_by_id m x y nd.id with
      | some b => rw [dp_lookup_found h1 hl, dp_lookup_found h2 (hval.trans hl)]
      | none =>
        cases hp : nd.parent with
        | none =>
          rw [dp_lookup_root h1 hl hp, dp_lookup_root h2 (hval.trans hl) (hpar.trans hp)]
        | some p =>
          rw [dp_lookup_step h1 hl hp, dp_lookup_step h2 (hval.trans hl) (hpar.trans hp)]
          exact ih p (hclosed p hp)

/-! ### Child count bookkeeping -/

theorem childCount_congr {ns ns2 : List dp_node} {live : Finset ℕ} {j : ℕ}
    (hlen : ns2.length = ns.length)
    (h : ∀ z ∈ live, parentOf ns2 z = parentOf ns z) :
    childCount ns2 live j = childCount ns live j := by
  unfold childCount
  rw [hlen]
  congr 1
  apply Finset.filter_congr
  intro z _
  constructor
  · rintro ⟨hzl, hp⟩; exact ⟨hzl, (h z hzl).symm.trans hp⟩
  · rintro ⟨hzl, hp⟩; exact ⟨hzl, (h z hzl).trans hp⟩

theorem childCount_erase_other {ns : List dp_node} {live : Finset ℕ} {i j : ℕ}
    (hij : parentOf ns i ≠ some j) :
    childCount ns (live.erase i) j = childCount ns live j := by
  unfold childCount
  congr 1
  apply Finset.filter_congr
  intro z _
  constructor
  · rintro ⟨hzl, hp⟩; exact ⟨(Finset.mem_erase.mp hzl).2, hp⟩
  · rintro ⟨hzl, hp⟩
    refine ⟨Finset.mem_erase.mpr ⟨?_, hzl⟩, hp⟩
    intro hzi
    rw [hzi] at hp
    exact hij hp

theorem childCount_erase_parent {ns : List dp_node} {live : Finset ℕ} {i p : ℕ}
    (hi : i ∈ live) (hil : i < ns.length) (hp : parentOf ns i = some p) :
    childCount ns (live.erase i) p + 1 = childCount ns live p := by
  unfold childCount
  have heq : (Finset.range ns.length).filter (fun z => z ∈ live ∧ parentOf ns z = some p)
      = insert i ((Finset.range ns.length).filter
          (fun z => z ∈ live.erase i ∧ parentOf ns z = some p)) := by
    ext z
    simp only [Finset.mem_filter, Finset.mem_insert, Finset.mem_range, Finset.mem_erase]
    constructor
    · rintro ⟨hzr, hzl, hzp⟩
      by_cases hzi : z = i
      · exact Or.inl hzi
      · exact Or.inr ⟨hzr, ⟨hzi, hzl⟩, hzp⟩
    · rintro (rfl | ⟨hzr, ⟨hzi, hzl⟩, hzp⟩)
      · exact ⟨hil, hi, hp⟩
      · exact ⟨hzr, hzl, hzp⟩
  have hnm : i ∉ (Finset.range ns.length).filter
      (fun z => z ∈ live.erase i ∧ parentOf ns z = some p) := by
    intro hmem
    rw [Finset.mem_filter] at hmem
    exact (Finset.mem_erase.mp hmem.2.1).1 rfl
  rw [heq, Finset.card_insert_of_not_mem hnm]

/-- The reparenting count argument of the merge case: when the child
adopts the grandparent and the parent leaves the live set, the
grandparent's live child count is unchanged. -/
theorem childCount_swap {ns ns1 : List dp_node} {live : Finset ℕ} {i p g : ℕ}
    (hlen : ns1.length = ns.length)
    (hpar : ∀ z, z ≠ i → parentOf ns1 z = parentOf ns z)
    (hinew : parentOf ns1 i = some g)
    (hiold : parentOf ns i = some p)
    (hplive : p ∈ live) (hplen : p < ns.length) (hpg : parentOf ns p = some g)
    (hilive : i ∈ live) (hilen : i < ns.length) (hgp : p ≠ g) (hip : i ≠ p) :
    childCount ns1 (live.erase p) g = childCount ns live g := by
  unfold childCount
  rw [hlen]
  have heq : (Finset.range ns.length).filter (fun z => z ∈ live.erase p ∧ parentOf ns1 z = some g)
      = insert i (((Finset.range ns.length).filter
          (fun z => z ∈ live ∧ parentOf ns z = some g)).erase p) := by
    ext z
    simp only [Finset.mem_filter, Finset.mem_insert, Finset.mem_range, Finset.mem_erase]
    constructor
    · rintro ⟨hzr, ⟨hzp, hzl⟩, hza⟩
      by_cases hzi : z = i
      · exact Or.inl hzi
      · rw [hpar z hzi] at hza
        exact Or.inr ⟨hzp, hzr, hzl, hza⟩
    · rintro (rfl | ⟨hzp, hzr, hzl, hza⟩)
      · exact ⟨hilen, ⟨hip, hilive⟩, hinew⟩
      · by_cases hzi : z = i
        · rw [hzi] at hza
          rw [hiold] at hza
          have := Option.some.inj hza
          exact absurd this hgp
        · rw [← hpar z hzi] at hza
          exact ⟨hzr, ⟨hzp, hzl⟩, hza⟩
  rw [heq]
  have hpF : p ∈ (Finset.range ns.length).filter
      (fun z => z ∈ live ∧ parentOf ns z = some g) := by
    simp only [Finset.mem_filter, Finset.mem_range]
    exact ⟨hplen, hplive, hpg⟩
  have hnm : i ∉ ((Finset.range ns.length).filter
      (fun z => z ∈ live ∧ parentOf ns z = some g)).erase p := by
    intro hmem
    have := (Finset.mem_erase.mp hmem).2
    rw [Finset.mem_filter] at this
    rw [hiold] at this
    exact hgp (Option.some.inj this.2.2)
  rw [Finset.card_insert_of_not_mem hnm, Finset.card_erase_of_mem hpF]
  have := Finset.card_pos.mpr ⟨p, hpF⟩
  omega

/-! ### Ancestry transport under trim steps -/

/-- Ancestry restricts to a sub-arena that agrees on a parent-closed
live set. -/
theorem isAnc_restrict {ns2 ns3 : List dp_node} {live2 : Finset ℕ}
    (hroot2 : ∀ nd, ns2[0]? = some nd → nd.parent = none ∧ nd.id = 0)
    (hpar2 : ∀ l ∈ live2, l ≠ 0 → ∀ nd, ns2[l]? = some nd →
      ∃ q, nd.parent = some q ∧ q ∈ live2)
    (hsame : ∀ j ∈ live2, ns3[j]? = ns2[j]?) :
    ∀ {l j : ℕ}, IsAnc ns3 l j → l ∈ live2 → IsAnc ns2 l j ∧ j ∈ live2 := by
  intro l j h
  induction h with
  | refl l => exact fun hl => ⟨IsAnc.refl l, hl⟩
  | @step a b q nd hnd hq _ ih =>
    intro ha
    have hnd2 : ns2[a]? = some nd := by rw [← hsame a ha]; exact hnd
    have hqlive : q ∈ live2 := by
      by_cases h0 : a = 0
      · subst h0
        rcases hroot2 nd hnd2 with ⟨hnone, _⟩
        rw [hnone] at hq; cases hq
      · rcases hpar2 a ha h0 nd hnd2 with ⟨q', hq', hqlive⟩
        have := Option.some.inj (hq.symm.trans hq')
        rw [this]
        exact hqlive
    rcases ih hqlive with ⟨hanc, hj⟩
    exact ⟨IsAnc.step hnd2 hq hanc, hj⟩

/-- Ancestry in the merged arena maps back to the original arena,
skipping the merged-away parent. -/
theorem isAnc_merge {ns ns1 : List dp_node} {live : Finset ℕ} {i p g : ℕ}
    (hroot : ∀ nd, ns[0]? = some nd → nd.parent = none ∧ nd.id = 0)
    (hpar : ∀ l ∈ live, l ≠ 0 → ∀ nd, ns[l]? = some nd →
      ∃ q, nd.parent = some q ∧ q ∈ live)
    (honly : ∀ z ∈ live, parentOf ns z = some p → z = i)
    (hilive : i ∈ live)
    (hold : parentOf ns i = some p) (hpg : parentOf ns p = some g)
    (hnew : ∀ nd1, ns1[i]? = some nd1 → nd1.parent = some g)
    (hsame : ∀ z, z ≠ i → z ≠ p → ns1[z]? = ns[z]?)
    (hglive : g ∈ live) (hgp : g ≠ p) :
    ∀ {l j : ℕ}, IsAnc ns1 l j → l ∈ live.erase p → IsAnc ns l j ∧ j ∈ live.erase p := by
  intro l j h
  induction h with
  | refl l => exact fun hl => ⟨IsAnc.refl l, hl⟩
  | @step a b q nd1 hnd1 hq _ ih =>
    intro ha
    rcases Finset.mem_erase.mp ha with ⟨hap, halive⟩
    by_cases hai : a = i
    · subst hai
      have hqg : q = g := (Option.some.inj ((hnew nd1 hnd1).symm.trans hq)).symm
      subst hqg
      have hqerase : q ∈ live.erase p := Finset.mem_erase.mpr ⟨hgp, hglive⟩
      rcases ih hqerase with ⟨hanc, hj⟩
      rcases parentOf_eq_some.mp hold with ⟨nd, hnd, hps⟩
      rcases parentOf_eq_some.mp hpg with ⟨pn, hpn, hgs⟩
      exact ⟨IsAnc.step hnd hps (IsAnc.step hpn hgs hanc), hj⟩
    · have hnd : ns[a]? = some nd1 := by rw [← hsame a hai hap]; exact hnd1
      have hqlive : q ∈ live := by
        by_cases h0 : a = 0
        · subst h0
          rcases hroot nd1 hnd with ⟨hnone, _⟩
          rw [hnone] at hq; cases hq
        · rcases hpar a halive h0 nd1 hnd with ⟨q', hq', hqlive⟩
          have := Option.some.inj (hq.symm.trans hq')
          rw [this]
          exact hqlive
      have hqp : q ≠ p := by
        intro hqp
        rw [hqp] at hq
        exact hai (honly a halive (parentOf_eq_some.mpr ⟨nd1, hnd, hq⟩))
      rcases ih (Finset.mem_erase.mpr ⟨hqp, hqlive⟩) with ⟨hanc, hj⟩
      exact ⟨IsAnc.step hnd hq hanc, hj⟩

theorem getElem?_some_lt {ns : List dp_node} {z : ℕ} {nd : dp_node}
    (h : ns[z]? = some nd) : z < ns.length := by
  by_contra hge
  rw [List.getElem?_eq_none (by omega)] at h
  cases h

/-! ### Invariant preservation for the three trim mutations -/

/-- Case 2 of `trim`, before the recursive call: erasing the dead node's
cells, decrementing its parent's child count, and dropping it from the
live set (it joins the exemption set until its parent pointer is
cleared) preserves the invariant. -/
theorem inv_erase_step {ns : List dp_node} {m : DPMap} {live : Finset ℕ} {nid : ℕ}
    {G : Finset ℕ} (hI : Inv ns m live nid G)
    {i p : ℕ} {nd pn : dp_node}
    (hi : i ∈ live) (hi0 : i ≠ 0)
    (hnd : ns[i]? = some nd) (hp : nd.parent = some p)
    (hpn : ns[p]? = some pn) (hp0 : p ≠ 0) (hdead : nd.children = 0) :
    Inv (ns.set p { pn with children := pn.children - 1 })
      (erase_cells m nd.modified_cells nd.id) (live.erase i) nid (insert i G) := by
  have hpi : p < i := hI.parent_dec i nd hnd p hp
  have hilen : i < ns.length := hI.live_lt i hi
  have hplen : p < ns.length := by omega
  have hplive : p ∈ live := by
    rcases hI.parent_live i hi hi0 nd hnd with ⟨p', hp', hplive⟩
    have := Option.some.inj (hp.symm.trans hp')
    rw [this]
    exact hplive
  have hlen1 : (ns.set p { pn with children := pn.children - 1 }).length = ns.length := by
    simp
  have hns1p : (ns.set p { pn with children := pn.children - 1 })[p]?
      = some { pn with children := pn.children - 1 } := List.getElem?_set_self hplen
  have hns1o : ∀ z, z ≠ p →
      (ns.set p { pn with children := pn.children - 1 })[z]? = ns[z]? := by
    intro z hz
    exact List.getElem?_set_ne (fun h => hz h.symm)
  have hpar1 : ∀ z, parentOf (ns.set p { pn with children := pn.children - 1 }) z
      = parentOf ns z := by
    intro z
    by_cases hz : z = p
    · subst hz
      unfold parentOf
      rw [hns1p, hpn]
    · unfold parentOf
      rw [hns1o z hz]
  have hnode1 : ∀ (z : ℕ) (nd' : dp_node),
      (ns.set p { pn with children := pn.children - 1 })[z]? = some nd' →
      ∃ nd0 : dp_node, ns[z]? = some nd0 ∧ nd'.id = nd0.id ∧ nd'.parent = nd0.parent ∧
        nd'.modified_cells = nd0.modified_cells ∧ nd'.leaf = nd0.leaf := by
    intro z nd' h
    by_cases hz : z = p
    · subst hz
      rw [hns1p] at h
      have he : nd' = { pn with children := pn.children - 1 } := (Option.some.inj h).symm
      subst he
      exact ⟨pn, hpn, rfl, rfl, rfl, rfl⟩
    · rw [hns1o z hz] at h
      exact ⟨nd', h, rfl, rfl, rfl, rfl⟩
  have hnochild : ∀ z ∈ live, parentOf ns z ≠ some i := by
    intro z hz hpz
    have hcc : (childCount ns live i : ℤ) = 0 := by
      rw [← hI.counts i hi nd hnd]; exact hdead
    rcases parentOf_eq_some.mp hpz with ⟨ndz, hndz, _⟩
    exact childCount_zero_no_child (by exact_mod_cast hcc) z hz (getElem?_some_lt hndz) hpz
  have hlive1sub : ∀ z ∈ live.erase i, z ∈ live ∧ z ≠ i := by
    intro z hz
    rcases Finset.mem_erase.mp hz with ⟨h1, h2⟩
    exact ⟨h2, h1⟩
  have herase := erase_cells_spec nd.id nd.modified_cells m
  have hvalue : ∀ (z : ℕ) (ndz : dp_node), z ∈ live → z ≠ i → ns[z]? = some ndz →
      ∀ a b, erase_cells m nd.modified_cells nd.id a b ndz.id = m a b ndz.id := by
    intro z ndz hz hzi hndz a b
    rw [herase]
    have hidne : ndz.id ≠ nd.id := hI.ids_distinct z hz i hi hzi ndz hndz nd hnd
    have : ¬ (ndz.id = nd.id ∧ (a, b) ∈ nd.modified_cells) := fun h => hidne h.1
    rw [if_neg this]
  refine ⟨?_, ?_, ?_, ?_, ?_, ?_, ?_, ?_, ?_, ?_, ?_, ?_, ?_, ?_, ?_⟩
  · rw [hlen1]; exact hI.root_lt
  · intro nd' h
    rw [hns1o 0 (fun he => hp0 he.symm)] at h
    exact hI.root_node nd' h
  · exact Finset.mem_erase.mpr ⟨by omega, hI.root_live⟩
  · intro z hz
    rw [hlen1]
    exact hI.live_lt z (hlive1sub z hz).1
  · intro z hz hz0 nd' h
    rcases hlive1sub z hz with ⟨hzl, hzi⟩
    rcases hnode1 z nd' h with ⟨nd0, hnd0, _, hpar, _, _⟩
    rcases hI.parent_live z hzl hz0 nd0 hnd0 with ⟨q, hq, hqlive⟩
    refine ⟨q, by rw [hpar]; exact hq, Finset.mem_erase.mpr ⟨?_, hqlive⟩⟩
    intro hqi
    subst hqi
    exact hnochild z hzl (parentOf_eq_some.mpr ⟨nd0, hnd0, hq⟩)
  · intro j nd' h q hq
    rcases hnode1 j nd' h with ⟨nd0, hnd0, _, hpar, _, _⟩
    rw [hpar] at hq
    exact hI.parent_dec j nd0 hnd0 q hq
  · intro z hz nd' h
    rcases hlive1sub z hz with ⟨hzl, hzi⟩
    have hcc : childCount (ns.set p { pn with children := pn.children - 1 }) (live.erase i) z
        = childCount ns (live.erase i) z :=
      childCount_congr hlen1 (fun w _ => hpar1 w)
    rw [hcc]
    by_cases hzp : z = p
    · subst hzp
      rw [hns1p] at h
      have hnd' : nd' = { pn with children := pn.children - 1 } := (Option.some.inj h).symm
      have hplus := childCount_erase_parent hi hilen (parentOf_eq_some.mpr ⟨nd, hnd, hp⟩)
      have hpre := hI.counts z hzl pn hpn
      rw [hnd']
      show pn.children - 1 = (childCount ns (live.erase i) z : ℤ)
      rw [hpre]
      have : (childCount ns live z : ℤ) = (childCount ns (live.erase i) z : ℤ) + 1 := by
        exact_mod_cast hplus.symm
      omega
    · rw [hns1o z hzp] at h
      have hother : childCount ns (live.erase i) z = childCount ns live z := by
        apply childCount_erase_other
        rw [parentOf_eq_some.mpr ⟨nd, hnd, hp⟩]
        intro hc
        exact hzp (Option.some.inj hc).symm
      rw [hother]
      exact hI.counts z hzl nd' h
  · intro z hz w hw hzw a ha b hb
    rcases hnode1 z a ha with ⟨a0, ha0, hida, _, _, _⟩
    rcases hnode1 w b hb with ⟨b0, hb0, hidb, _, _, _⟩
    rw [hida, hidb]
    exact hI.ids_distinct z (hlive1sub z hz).1 w (hlive1sub w hw).1 hzw a0 ha0 b0 hb0
  · intro z hz hz0 nd' h
    rcases hnode1 z nd' h with ⟨nd0, hnd0, hid, _, _, _⟩
    rw [hid]
    exact hI.id_nonzero z (hlive1sub z hz).1 hz0 nd0 hnd0
  · intro z hz nd' h
    rcases hnode1 z nd' h with ⟨nd0, hnd0, hid, _, _, _⟩
    rw [hid]
    exact hI.ids_lt z (hlive1sub z hz).1 nd0 hnd0
  · intro z hz1 hzG nd' h q hq
    have hzi : z ≠ i := fun hzi => hzG (by rw [hzi]; exact Finset.mem_insert_self i G)
    have hzl : z ∉ live := fun hzl => hz1 (Finset.mem_erase.mpr ⟨hzi, hzl⟩)
    have hzG0 : z ∉ G := fun hzG0 => hzG (Finset.mem_insert_of_mem hzG0)
    have hzp : z ≠ p := fun hzp => hzl (hzp ▸ hplive)
    rw [hns1o z hzp] at h
    exact hI.garbage_one z hzl hzG0 nd' h q hq
  · intro a b k hk
    rw [herase] at hk
    by_cases hcond : k = nd.id ∧ (a, b) ∈ nd.modified_cells
    · rw [if_pos hcond] at hk
      cases hk
    · rw [if_neg hcond] at hk
      rcases hI.owner a b k hk with ⟨j, hj, ndj, hndj, hidj, hmemj⟩
      have hji : j ≠ i := by
        intro hji
        subst hji
        have : ndj = nd := by rw [hnd] at hndj; exact (Option.some.inj hndj).symm
        rw [this] at hidj hmemj
        exact hcond ⟨hidj.symm, hmemj⟩
      refine ⟨j, Finset.mem_erase.mpr ⟨hji, hj⟩, ?_⟩
      by_cases hjp : j = p
      · subst hjp
        have : ndj = pn := by rw [hpn] at hndj; exact (Option.some.inj hndj).symm
        refine ⟨{ pn with children := pn.children - 1 }, hns1p, ?_, ?_⟩
        · show pn.id = k
          rw [← this]; exact hidj
        · show (a, b) ∈ pn.modified_cells
          rw [← this]; exact hmemj
      · exact ⟨ndj, by rw [hns1o j hjp]; exact hndj, hidj, hmemj⟩
  · intro z hz nd' h c hc
    rcases hlive1sub z hz with ⟨hzl, hzi⟩
    rcases hnode1 z nd' h with ⟨nd0, hnd0, hid, _, hcells, _⟩
    rw [hid]
    rw [hcells] at hc
    rw [hvalue z nd0 hzl hzi hnd0]
    exact hI.cells_defined z hzl nd0 hnd0 c hc
  · intro z hz nd' h
    rcases hnode1 z nd' h with ⟨nd0, hnd0, _, _, hcells, _⟩
    rw [hcells]
    exact hI.cells_nodup z (hlive1sub z hz).1 nd0 hnd0
  · intro l hl a b j k hj hk hej hek
    rcases hlive1sub l hl with ⟨hll, hli⟩
    have htrans : ∀ w, IsAnc (ns.set p { pn with children := pn.children - 1 }) l w →
        IsAnc ns l w := fun w hw => isAnc_congr (fun u => (hpar1 u).symm) hw
    have hanc_j := htrans j hj
    have hanc_k := htrans k hk
    have hlivej : j ∈ live := isAnc_live hI.root_node hI.parent_live hanc_j hll
    have hlivek : k ∈ live := isAnc_live hI.root_node hI.parent_live hanc_k hll
    have hnochild' : ∀ z ∈ live, ∀ ndz : dp_node, ns[z]? = some ndz →
        ndz.parent ≠ some i := by
      intro z hzl ndz hndz hc
      exact hnochild z hzl (parentOf_eq_some.mpr ⟨ndz, hndz, hc⟩)
    have hji : j ≠ i := isAnc_ne_of_no_child hI.root_node hI.parent_live hnochild' hanc_j hll hli
    have hki : k ≠ i := isAnc_ne_of_no_child hI.root_node hI.parent_live hnochild' hanc_k hll hli
    have hmape : ∀ w, w ∈ live → w ≠ i →
        entry_at (ns.set p { pn with children := pn.children - 1 })
          (erase_cells m nd.modified_cells nd.id) a b w → entry_at ns m a b w := by
      rintro w hwl hwi ⟨ndw, hndw, hsw⟩
      rcases hnode1 w ndw hndw with ⟨nd0, hnd0, hid, _, _, _⟩
      refine ⟨nd0, hnd0, ?_⟩
      have : map_lookup_by_id (erase_cells m nd.modified_cells nd.id) a b ndw.id
          = map_lookup_by_id m a b nd0.id := by
        show erase_cells m nd.modified_cells nd.id a b ndw.id = m a b nd0.id
        rw [hid]
        exact hvalue w nd0 hwl hwi hnd0 a b
      rw [← this]
      exact hsw
    exact hI.uniq l hll a b j k hanc_j hanc_k
      (hmape j hlivej hji hej) (hmape k hlivek hki hek)

/-- Case 3 of `trim`: folding an only-child's parent into it preserves
the invariant, with the merged-away parent leaving the live set as
attached garbage of unit child count. -/
theorem inv_merge_step {ns ns1 : List dp_node} {m m1 : DPMap} {live : Finset ℕ}
    {nid : ℕ} {G : Finset ℕ} (hI : Inv ns m live nid G)
    {i p g : ℕ} {nd pn n1 pn1 : dp_node}
    (hi : i ∈ live) (hi0 : i ≠ 0)
    (hnd : ns[i]? = some nd) (hp : nd.parent = some p)
    (hpn : ns[p]? = some pn) (hpg : pn.parent = some g)
    (hone : pn.children = 1) (hpid0 : pn.id ≠ 0)
    (hlen1 : ns1.length = ns.length)
    (hns1i : ns1[i]? = some n1)
    (hn1id : n1.id = pn.id) (hn1par : n1.parent = pn.parent)
    (hn1ch : n1.children = nd.children) (hn1leaf : n1.leaf = nd.leaf)
    (hn1cells : n1.modified_cells = pn.modified_cells ++ nd.modified_cells)
    (hns1p : ns1[p]? = some pn1)
    (hpn1id : pn1.id = pn.id) (hpn1par : pn1.parent = pn.parent)
    (hpn1ch : pn1.children = pn.children)
    (hns1o : ∀ z, z ≠ i → z ≠ p → ns1[z]? = ns[z]?)
    (hm1 : ∀ a b k, m1 a b k =
      if k = pn.id then (if (a, b) ∈ nd.modified_cells then m a b nd.id else m a b pn.id)
      else if k = nd.id then (if (a, b) ∈ nd.modified_cells then none else m a b nd.id)
      else m a b k) :
    Inv ns1 m1 (live.erase p) nid G := by
  have hpi : p < i := hI.parent_dec i nd hnd p hp
  have hilen : i < ns.length := hI.live_lt i hi
  have hplen : p < ns.length := by omega
  have hplive : p ∈ live := by
    rcases hI.parent_live i hi hi0 nd hnd with ⟨p', hp', hplive⟩
    have := Option.some.inj (hp.symm.trans hp')
    rw [this]
    exact hplive
  have hp0 : p ≠ 0 := by
    intro h
    subst h
    rcases hI.root_node pn hpn with ⟨hnone, _⟩
    rw [hnone] at hpg; cases hpg
  have hgp : g < p := hI.parent_dec p pn hpn g hpg
  have hglive : g ∈ live := by
    rcases hI.parent_live p hplive hp0 pn hpn with ⟨g', hg', hglive⟩
    have := Option.some.inj (hpg.symm.trans hg')
    rw [this]
    exact hglive
  have hip : i ≠ p := by omega
  have hidne : nd.id ≠ pn.id := hI.ids_distinct i hi p hplive hip nd hnd pn hpn
  have hcc1 : childCount ns live p = 1 := by
    have := hI.counts p hplive pn hpn
    rw [hone] at this
    exact_mod_cast this.symm
  have honly : ∀ z ∈ live, parentOf ns z = some p → z = i := by
    intro z hz hzp
    rcases parentOf_eq_some.mp hzp with ⟨ndz, hndz, _⟩
    exact childCount_one_unique hcc1 hz (getElem?_some_lt hndz) hzp hi hilen
      (parentOf_eq_some.mpr ⟨nd, hnd, hp⟩)
  have hpar1i : parentOf ns1 i = some g := by
    unfold parentOf
    rw [hns1i]
    show n1.parent = some g
    rw [hn1par, hpg]
  have hpar1p : parentOf ns1 p = parentOf ns p := by
    unfold parentOf
    rw [hns1p, hpn]
    show pn1.parent = pn.parent
    exact hpn1par
  have hpar1o : ∀ z, z ≠ i → parentOf ns1 z = parentOf ns z := by
    intro z hzi
    by_cases hzp : z = p
    · subst hzp; exact hpar1p
    · unfold parentOf
      rw [hns1o z hzi hzp]
  have hiold : parentOf ns i = some p := parentOf_eq_some.mpr ⟨nd, hnd, hp⟩
  have hpgPar : parentOf ns p = some g := parentOf_eq_some.mpr ⟨pn, hpn, hpg⟩
  have hlive1sub : ∀ z ∈ live.erase p, z ∈ live ∧ z ≠ p := by
    intro z hz
    rcases Finset.mem_erase.mp hz with ⟨h1, h2⟩
    exact ⟨h2, h1⟩
  have hmemi : ∀ a b, (m a b nd.id).isSome → (a, b) ∈ nd.modified_cells := by
    intro a b hs
    rcases hI.owner a b nd.id hs with ⟨j, hj, ndj, hndj, hidj, hmemj⟩
    by_cases hji : j = i
    · subst hji
      have : ndj = nd := by rw [hnd] at hndj; exact (Option.some.inj hndj).symm
      rw [← this]
      exact hmemj
    · exact absurd hidj (hI.ids_distinct j hj i hi hji ndj hndj nd hnd)
  have hmemp : ∀ a b, (m a b pn.id).isSome → (a, b) ∈ pn.modified_cells := by
    intro a b hs
    rcases hI.owner a b pn.id hs with ⟨j, hj, ndj, hndj, hidj, hmemj⟩
    by_cases hjp : j = p
    · subst hjp
      have : ndj = pn := by rw [hpn] at hndj; exact (Option.some.inj hndj).symm
      rw [← this]
      exact hmemj
    · exact absurd hidj (hI.ids_distinct j hj p hplive hjp ndj hndj pn hpn)
  have hdisj : ∀ c, c ∈ pn.modified_cells → c ∉ nd.modified_cells := by
    rintro ⟨a, b⟩ hcp hcn
    have h1 : entry_at ns m a b i := ⟨nd, hnd, hI.cells_defined i hi nd hnd (a, b) hcn⟩
    have h2 : entry_at ns m a b p := ⟨pn, hpn, hI.cells_defined p hplive pn hpn (a, b) hcp⟩
    have := hI.uniq i hi a b i p (IsAnc.refl i) (isAnc_parent hnd hp) h1 h2
    exact hip this
  have hvalo : ∀ a b (k : ℕ), k ≠ pn.id → k ≠ nd.id → m1 a b k = m a b k := by
    intro a b k h1 h2
    rw [hm1, if_neg h1, if_neg h2]
  have hcc_other : ∀ z, z ≠ g → z ≠ p → childCount ns1 (live.erase p) z = childCount ns live z := by
    intro z hzg hzp
    unfold childCount
    rw [hlen1]
    congr 1
    apply Finset.filter_congr
    intro w _
    constructor
    · rintro ⟨hwl, hwp⟩
      rcases Finset.mem_erase.mp hwl with ⟨hwpne, hwlive⟩
      by_cases hwi : w = i
      · subst hwi
        rw [hpar1i] at hwp
        exact absurd (Option.some.inj hwp) (fun he => hzg he.symm)
      · rw [hpar1o w hwi] at hwp
        exact ⟨hwlive, hwp⟩
    · rintro ⟨hwl, hwp⟩
      by_cases hwpne : w = p
      · subst hwpne
        rw [hpgPar] at hwp
        exact absurd (Option.some.inj hwp) (fun he => hzg he.symm)
      · by_cases hwi : w = i
        · subst hwi
          rw [hiold] at hwp
          exact absurd (Option.some.inj hwp) (fun he => hzp he.symm)
        · refine ⟨Finset.mem_erase.mpr ⟨hwpne, hwl⟩, ?_⟩
          rw [hpar1o w hwi]
          exact hwp
  have hanc_tr : ∀ l j, IsAnc ns1 l j → l ∈ live.erase p →
      IsAnc ns l j ∧ j ∈ live.erase p := by
    intro l j h hl
    exact isAnc_merge hI.root_node hI.parent_live honly hi hiold hpgPar
      (fun nd1' h1 => by
        rw [hns1i] at h1
        rw [← Option.some.inj h1, hn1par, hpg])
      hns1o hglive (by omega) h hl
  refine ⟨?_, ?_, ?_, ?_, ?_, ?_, ?_, ?_, ?_, ?_, ?_, ?_, ?_, ?_, ?_⟩
  · rw [hlen1]; exact hI.root_lt
  · intro nd' h
    rw [hns1o 0 (fun he => hi0 he.symm) (fun he => hp0 he.symm)] at h
    exact hI.root_node nd' h
  · exact Finset.mem_erase.mpr ⟨fun he => hp0 he.symm, hI.root_live⟩
  · intro z hz
    rw [hlen1]
    exact hI.live_lt z (hlive1sub z hz).1
  · intro z hz hz0 nd' h
    rcases hlive1sub z hz with ⟨hzl, hzp⟩
    by_cases hzi : z = i
    · subst hzi
      have : nd' = n1 := by rw [hns1i] at h; exact (Option.some.inj h).symm
      refine ⟨g, by rw [this, hn1par]; exact hpg, Finset.mem_erase.mpr ⟨by omega, hglive⟩⟩
    · rw [hns1o z hzi hzp] at h
      rcases hI.parent_live z hzl hz0 nd' h with ⟨q, hq, hqlive⟩
      refine ⟨q, hq, Finset.mem_erase.mpr ⟨?_, hqlive⟩⟩
      intro hqp
      subst hqp
      exact hzi (honly z hzl (parentOf_eq_some.mpr ⟨nd', h, hq⟩))
  · intro j nd' h q hq
    by_cases hji : j = i
    · subst hji
      have : nd' = n1 := by rw [hns1i] at h; exact (Option.some.inj h).symm
      rw [this, hn1par, hpg] at hq
      have := Option.some.inj hq
      omega
    · by_cases hjp : j = p
      · subst hjp
        have : nd' = pn1 := by rw [hns1p] at h; exact (Option.some.inj h).symm
        rw [this, hpn1par, hpg] at hq
        have := Option.some.inj hq
        omega
      · rw [hns1o j hji hjp] at h
        exact hI.parent_dec j nd' h q hq
  · intro z hz nd' h
    rcases hlive1sub z hz with ⟨hzl, hzp⟩
    by_cases hzg : z = g
    · subst hzg
      have hswap : childCount ns1 (live.erase p) z = childCount ns live z :=
        childCount_swap hlen1 hpar1o hpar1i hiold hplive hplen hpgPar hi hilen
          (by omega) hip
      rw [hswap]
      rw [hns1o z (by omega) (by omega)] at h
      exact hI.counts z hzl nd' h
    · rw [hcc_other z hzg hzp]
      by_cases hzi : z = i
      · subst hzi
        have : nd' = n1 := by rw [hns1i] at h; exact (Option.some.inj h).symm
        rw [this, hn1ch]
        have hcc_i : childCount ns1 (live.erase p) z = childCount ns live z := by
          exact hcc_other z hzg hzp
        exact hI.counts z hzl nd hnd
      · rw [hns1o z hzi hzp] at h
        exact hI.counts z hzl nd' h
  · intro z hz w hw hzw a ha b hb
    rcases hlive1sub z hz with ⟨hzl, hzp⟩
    rcases hlive1sub w hw with ⟨hwl, hwp⟩
    by_cases hzi : z = i
    · have he1 : a = n1 := by
        rw [hzi] at ha
        rw [hns1i] at ha; exact (Option.some.inj ha).symm
      rw [he1, hn1id]
      have hwi : w ≠ i := fun he => hzw (hzi.trans he.symm)
      rw [hns1o w hwi hwp] at hb
      exact hI.ids_distinct p hplive w hwl (fun hpw => hwp hpw.symm) pn hpn b hb
    · by_cases hwi : w = i
      · have he1 : b = n1 := by
          rw [hwi] at hb
          rw [hns1i] at hb; exact (Option.some.inj hb).symm
        rw [he1, hn1id]
        rw [hns1o z hzi hzp] at ha
        exact hI.ids_distinct z hzl p hplive (fun hzp2 => hzp hzp2) a ha pn hpn
      · rw [hns1o z hzi hzp] at ha
        rw [hns1o w hwi hwp] at hb
        exact hI.ids_distinct z hzl w hwl hzw a ha b hb
  · intro z hz hz0 nd' h
    by_cases hzi : z = i
    · subst hzi
      have : nd' = n1 := by rw [hns1i] at h; exact (Option.some.inj h).symm
      rw [this, hn1id]
      exact hpid0
    · rw [hns1o z hzi (hlive1sub z hz).2] at h
      exact hI.id_nonzero z (hlive1sub z hz).1 hz0 nd' h
  · intro z hz nd' h
    by_cases hzi : z = i
    · subst hzi
      have : nd' = n1 := by rw [hns1i] at h; exact (Option.some.inj h).symm
      rw [this, hn1id]
      exact hI.ids_lt p hplive pn hpn
    · rw [hns1o z hzi (hlive1sub z hz).2] at h
      exact hI.ids_lt z (hlive1sub z hz).1 nd' h
  · intro z hz1 hzG nd' h q hq
    by_cases hzp : z = p
    · subst hzp
      have : nd' = pn1 := by rw [hns1p] at h; exact (Option.some.inj h).symm
      rw [this, hpn1ch]
      exact hone
    · have hzl : z ∉ live := fun hzl => hz1 (Finset.mem_erase.mpr ⟨hzp, hzl⟩)
      have hzi : z ≠ i := fun hzi => hzl (hzi ▸ hi)
      rw [hns1o z hzi hzp] at h
      exact hI.garbage_one z hzl hzG nd' h q hq
  · intro a b k hk
    rw [hm1] at hk
    by_cases h1 : k = pn.id
    · subst h1
      rw [if_pos rfl] at hk
      refine ⟨i, Finset.mem_erase.mpr ⟨hip, hi⟩, n1, hns1i, hn1id, ?_⟩
      rw [hn1cells]
      by_cases hmem : (a, b) ∈ nd.modified_cells
      · exact List.mem_append.mpr (Or.inr hmem)
      · rw [if_neg hmem] at hk
        exact List.mem_append.mpr (Or.inl (hmemp a b hk))
    · rw [if_neg h1] at hk
      by_cases h2 : k = nd.id
      · subst h2
        rw [if_pos rfl] at hk
        by_cases hmem : (a, b) ∈ nd.modified_cells
        · rw [if_pos hmem] at hk
          cases hk
        · rw [if_neg hmem] at hk
          exact absurd (hmemi a b hk) hmem
      · rw [if_neg h2] at hk
        rcases hI.owner a b k hk with ⟨j, hj, ndj, hndj, hidj, hmemj⟩
        have hji : j ≠ i := by
          intro hji
          rw [hji] at hndj
          rw [hnd] at hndj
          have he := (Option.some.inj hndj).symm
          rw [he] at hidj
          exact h2 hidj.symm
        have hjp : j ≠ p := by
          intro hjp
          rw [hjp] at hndj
          rw [hpn] at hndj
          have he := (Option.some.inj hndj).symm
          rw [he] at hidj
          exact h1 hidj.symm
        exact ⟨j, Finset.mem_erase.mpr ⟨hjp, hj⟩, ndj,
          by rw [hns1o j hji hjp]; exact hndj, hidj, hmemj⟩
  · intro z hz nd' h c hc
    rcases hlive1sub z hz with ⟨hzl, hzp⟩
    by_cases hzi : z = i
    · subst hzi
      have he : nd' = n1 := by rw [hns1i] at h; exact (Option.some.inj h).symm
      rw [he, hn1id]
      rw [he, hn1cells] at hc
      rw [hm1, if_pos rfl]
      rcases List.mem_append.mp hc with hcp | hcn
      · have hcnn : c ∉ nd.modified_cells := hdisj c hcp
        rw [show (c.1, c.2) = c from rfl, if_neg hcnn]
        exact hI.cells_defined p hplive pn hpn c hcp
      · rw [show (c.1, c.2) = c from rfl, if_pos hcn]
        exact hI.cells_defined z hzl nd hnd c hcn
    · rw [hns1o z hzi hzp] at h
      have hidne1 : nd'.id ≠ pn.id := hI.ids_distinct z hzl p hplive hzp nd' h pn hpn
      have hidne2 : nd'.id ≠ nd.id := hI.ids_distinct z hzl i hi hzi nd' h nd hnd
      rw [hvalo c.1 c.2 nd'.id hidne1 hidne2]
      exact hI.cells_defined z hzl nd' h c hc
  · intro z hz nd' h
    by_cases hzi : z = i
    · subst hzi
      have he : nd' = n1 := by rw [hns1i] at h; exact (Option.some.inj h).symm
      rw [he, hn1cells]
      refine List.Nodup.append (hI.cells_nodup p hplive pn hpn)
        (hI.cells_nodup z (hlive1sub z hz).1 nd hnd) ?_
      intro c hcp hcn
      exact hdisj c hcp hcn
    · rw [hns1o z hzi (hlive1sub z hz).2] at h
      exact hI.cells_nodup z (hlive1sub z hz).1 nd' h
  · intro l hl a b j k hj hk hej hek
    rcases hlive1sub l hl with ⟨hll, hlp⟩
    rcases hanc_tr l j hj hl with ⟨hancj, hjmem⟩
    rcases hanc_tr l k hk hl with ⟨hanck, hkmem⟩
    rcases hlive1sub j hjmem with ⟨hjl, hjp⟩
    rcases hlive1sub k hkmem with ⟨hkl, hkp⟩
    have hmape : ∀ w, w ∈ live → w ≠ p → entry_at ns1 m1 a b w →
        (w = i ∧ (entry_at ns m a b i ∨ entry_at ns m a b p)) ∨
        (w ≠ i ∧ entry_at ns m a b w) := by
      rintro w hwl hwp ⟨ndw, hndw, hsw⟩
      by_cases hwi : w = i
      · subst hwi
        left
        refine ⟨rfl, ?_⟩
        have he : ndw = n1 := by rw [hns1i] at hndw; exact (Option.some.inj hndw).symm
        rw [he, hn1id] at hsw
        have hsw' : (m1 a b pn.id).isSome := hsw
        rw [hm1, if_pos rfl] at hsw'
        by_cases hmem : (a, b) ∈ nd.modified_cells
        · rw [if_pos hmem] at hsw'
          exact Or.inl ⟨nd, hnd, hsw'⟩
        · rw [if_neg hmem] at hsw'
          exact Or.inr ⟨pn, hpn, hsw'⟩
      · right
        refine ⟨hwi, ?_⟩
        have hndw' : ns[w]? = some ndw := by rw [← hns1o w hwi hwp]; exact hndw
        have hidne1 : ndw.id ≠ pn.id := hI.ids_distinct w hwl p hplive hwp ndw hndw' pn hpn
        have hidne2 : ndw.id ≠ nd.id := hI.ids_distinct w hwl i hi hwi ndw hndw' nd hnd
        refine ⟨ndw, hndw', ?_⟩
        have : map_lookup_by_id m1 a b ndw.id = map_lookup_by_id m a b ndw.id :=
          hvalo a b ndw.id hidne1 hidne2
        rw [← this]
        exact hsw
    have hanc_p : IsAnc ns l i → IsAnc ns l p :=
      fun h => isAnc_trans h (isAnc_parent hnd hp)
    rcases hmape j hjl hjp hej with ⟨hje, hjpre⟩ | ⟨hjne, hjpre⟩ <;>
      rcases hmape k hkl hkp hek with ⟨hke, hkpre⟩ | ⟨hkne, hkpre⟩
    · rw [hje, hke]
    · rw [hje] at hancj ⊢
      rcases hjpre with hpre | hpre
      · exact hI.uniq l hll a b i k hancj hanck hpre hkpre
      · have := hI.uniq l hll a b p k (hanc_p hancj) hanck hpre hkpre
        exact absurd this.symm hkp
    · rw [hke] at hanck ⊢
      rcases hkpre with hpre | hpre
      · exact hI.uniq l hll a b j i hancj hanck hjpre hpre
      · have := hI.uniq l hll a b j p hancj (hanc_p hanck) hjpre hpre
        exact absurd this hjp
    · exact hI.uniq l hll a b j k hancj hanck hjpre hkpre

/-- End of case 2 of `trim`: clearing the detached dead node's parent
pointer discharges its garbage exemption. -/
theorem inv_detach_step {ns2 : List dp_node} {m2 : DPMap} {live2 : Finset ℕ} {nid : ℕ}
    {G : Finset ℕ} {i : ℕ}
    (hI : Inv ns2 m2 live2 nid (insert i G))
    (hnl : i ∉ live2) :
    Inv (set_node ns2 i (fun nd => { nd with parent := none })) m2 live2 nid G := by
  have hi0 : i ≠ 0 := fun h => hnl (h ▸ hI.root_live)
  have hlen : (set_node ns2 i (fun nd => { nd with parent := none })).length = ns2.length :=
    set_node_length ns2 i _
  have hsame : ∀ z : ℕ, z ≠ i →
      (set_node ns2 i (fun nd => { nd with parent := none }))[z]? = ns2[z]? :=
    fun z hz => set_node_get_other ns2 i z _ (fun h => hz h.symm)
  have hlive_ne : ∀ z ∈ live2, z ≠ i := fun z hz he => hnl (he ▸ hz)
  refine ⟨?_, ?_, ?_, ?_, ?_, ?_, ?_, ?_, ?_, ?_, ?_, ?_, ?_, ?_, ?_⟩
  · rw [hlen]; exact hI.root_lt
  · intro nd' h
    rw [hsame 0 (fun h0 => hi0 h0.symm)] at h
    exact hI.root_node nd' h
  · exact hI.root_live
  · intro z hz
    rw [hlen]
    exact hI.live_lt z hz
  · intro z hz hz0 nd' h
    rw [hsame z (hlive_ne z hz)] at h
    exact hI.parent_live z hz hz0 nd' h
  · intro j nd' h q hq
    by_cases hji : j = i
    · subst hji
      rw [set_node_get_self] at h
      cases h2 : ns2[j]? with
      | none => rw [h2] at h; cases h
      | some nd0 =>
        rw [h2] at h
        have : nd' = { nd0 with parent := none } := (Option.some.inj h).symm
        rw [this] at hq
        cases hq
    · rw [hsame j hji] at h
      exact hI.parent_dec j nd' h q hq
  · intro z hz nd' h
    rw [hsame z (hlive_ne z hz)] at h
    have hcc : childCount (set_node ns2 i (fun nd => { nd with parent := none })) live2 z
        = childCount ns2 live2 z :=
      childCount_congr hlen (fun w hw => set_node_parentOf_other ns2 i w _
        (fun he => hlive_ne w hw he.symm))
    rw [hcc]
    exact hI.counts z hz nd' h
  · intro z hz w hw hzw a ha b hb
    rw [hsame z (hlive_ne z hz)] at ha
    rw [hsame w (hlive_ne w hw)] at hb
    exact hI.ids_distinct z hz w hw hzw a ha b hb
  · intro z hz hz0 nd' h
    rw [hsame z (hlive_ne z hz)] at h
    exact hI.id_nonzero z hz hz0 nd' h
  · intro z hz nd' h
    rw [hsame z (hlive_ne z hz)] at h
    exact hI.ids_lt z hz nd' h
  · intro z hz1 hzG nd' h q hq
    by_cases hzi : z = i
    · subst hzi
      rw [set_node_get_self] at h
      cases h2 : ns2[z]? with
      | none => rw [h2] at h; cases h
      | some nd0 =>
        rw [h2] at h
        have : nd' = { nd0 with parent := none } := (Option.some.inj h).symm
        rw [this] at hq
        cases hq
    · rw [hsame z hzi] at h
      exact hI.garbage_one z hz1 (fun hm => hzG (Finset.mem_insert.mp hm |>.resolve_left hzi)) nd' h q hq
  · intro a b k hk
    rcases hI.owner a b k hk with ⟨j, hj, ndj, hndj, hidj, hmemj⟩
    exact ⟨j, hj, ndj, by rw [hsame j (hlive_ne j hj)]; exact hndj, hidj, hmemj⟩
  · intro z hz nd' h c hc
    rw [hsame z (hlive_ne z hz)] at h
    exact hI.cells_defined z hz nd' h c hc
  · intro z hz nd' h
    rw [hsame z (hlive_ne z hz)] at h
    exact hI.cells_nodup z hz nd' h
  · intro l hl a b j k hj hk hej hek
    have htr : ∀ w1 w2, IsAnc (set_node ns2 i (fun nd => { nd with parent := none })) w1 w2 →
        w1 ∈ live2 → IsAnc ns2 w1 w2 ∧ w2 ∈ live2 := by
      intro w1 w2 hw hw1
      exact isAnc_restrict hI.root_node hI.parent_live
        (fun z hz => hsame z (hlive_ne z hz)) hw hw1
    rcases htr l j hj hl with ⟨hancj, hjl⟩
    rcases htr l k hk hl with ⟨hanck, hkl⟩
    have hmape : ∀ w, w ∈ live2 →
        entry_at (set_node ns2 i (fun nd => { nd with parent := none })) m2 a b w →
        entry_at ns2 m2 a b w := by
      rintro w hw ⟨ndw, hndw, hsw⟩
      rw [hsame w (hlive_ne w hw)] at hndw
      exact ⟨ndw, hndw, hsw⟩
    exact hI.uniq l hl a b j k hancj hanck (hmape j hjl hej) (hmape k hkl hek)

/-! ### Unfolding lemmas for `trim` -/

theorem trim_eq_body {fuel : ℕ} {ns : List dp_node} {m : DPMap} {i p : ℕ}
    {nd pn : dp_node} (hnd : ns[i]? = some nd) (hp : nd.parent = some p)
    (hpn : ns[p]? = some pn) :
    trim (fuel + 1) ns m i = trim_body fuel ns m i nd pn p := by
  show (match ns[i]? with
    | none => none
    | some nd =>
      match nd.parent with
      | none => none
      | some p =>
        match ns[p]? with
        | none => none
        | some pn => trim_body fuel ns m i nd pn p) = trim_body fuel ns m i nd pn p
  rw [hnd]
  show (match nd.parent with
    | none => none
    | some p =>
      match ns[p]? with
      | none => none
      | some pn => trim_body fuel ns m i nd pn p) = trim_body fuel ns m i nd pn p
  rw [hp]
  show (match ns[p]? with
    | none => none
    | some pn => trim_body fuel ns m i nd pn p) = trim_body fuel ns m i nd pn p
  rw [hpn]

theorem trim_body_root {fuel : ℕ} {ns : List dp_node} {m : DPMap} {i p : ℕ}
    {nd pn : dp_node} (h1 : pn.id = 0) :
    trim_body fuel ns m i nd pn p = some (ns, m) := by
  unfold trim_body
  rw [if_pos h1]

theorem trim_body_dead {fuel : ℕ} {ns : List dp_node} {m : DPMap} {i p : ℕ}
    {nd pn : dp_node} (h1 : pn.id ≠ 0) (h2 : nd.leaf = false ∧ nd.children = 0) :
    trim_body fuel ns m i nd pn p =
      match trim fuel (ns.set p { pn with children := pn.children - 1 })
          (erase_cells m nd.modified_cells nd.id) p with
      | none => none
      | some r => some (set_node r.1 i (fun nd2 => { nd2 with parent := none }), r.2) := by
  unfold trim_body
  rw [if_neg h1, if_pos h2]

theorem trim_body_merge {fuel : ℕ} {ns : List dp_node} {m : DPMap} {i p : ℕ}
    {nd pn : dp_node} (h1 : pn.id ≠ 0) (h2 : ¬ (nd.leaf = false ∧ nd.children = 0))
    (h3 : pn.children = 1 ∧ pn.id ≠ 0) :
    trim_body fuel ns m i nd pn p =
      trim fuel
        ((ns.set p { pn with modified_cells := pn.modified_cells ++ nd.modified_cells }).set i
          { nd with modified_cells := pn.modified_cells ++ nd.modified_cells, id := pn.id, parent := pn.parent })
        (rename_cells m nd.modified_cells nd.id pn.id) i := by
  unfold trim_body
  rw [if_neg h1, if_neg h2, if_pos h3]

theorem trim_body_walk {fuel : ℕ} {ns : List dp_node} {m : DPMap} {i p : ℕ}
    {nd pn : dp_node} (h1 : pn.id ≠ 0) (h2 : ¬ (nd.leaf = false ∧ nd.children = 0))
    (h3 : ¬ (pn.children = 1 ∧ pn.id ≠ 0)) :
    trim_body fuel ns m i nd pn p = trim fuel ns m p := by
  unfold trim_body
  rw [if_neg h1, if_neg h2, if_neg h3]

/-- Clearing a detached garbage node's parent pointer does not change
any live node's lookups. -/
theorem lookup_detach {ns2 : List dp_node} {m2 : DPMap} {live2 : Finset ℕ} {nid : ℕ}
    {G : Finset ℕ} {i : ℕ} (hI : Inv ns2 m2 live2 nid G) (hnl : i ∉ live2)
    (x y : ℤ) :
    ∀ f k, k ∈ live2 →
      dp_lookup (set_node ns2 i (fun nd => { nd with parent := none })) m2 x y f k
      = dp_lookup ns2 m2 x y f k := by
  intro f k hk
  apply dp_lookup_sim (fun z => z ∈ live2) _ f k hk
  intro z hz
  right
  have hzi : z ≠ i := fun he => hnl (he ▸ hz)
  have hzlen := hI.live_lt z hz
  have hzget : ∃ ndz, ns2[z]? = some ndz := by
    rw [← Option.isSome_iff_exists]
    simp [List.getElem?_eq_getElem hzlen]
  rcases hzget with ⟨ndz, hndz⟩
  refine ⟨ndz, ndz, hndz,
    by rw [set_node_get_other ns2 i z _ (fun h => hzi h.symm)]; exact hndz, rfl, rfl, ?_⟩
  intro q hq
  by_cases hz0 : z = 0
  · subst hz0
    rcases hI.root_node ndz hndz with ⟨hnone, _⟩
    rw [hnone] at hq; cases hq
  · rcases hI.parent_live z hz hz0 ndz hndz with ⟨q', hq', hqlive⟩
    have := Option.some.inj (hq.symm.trans hq')
    rw [this]
    exact hqlive

/-- Erasing a dead live node's cells and decrementing its parent's child
count does not change any other live node's lookups (the dead node is on
nobody's chain and its id keys no other live node's entries). -/
theorem lookup_erase {ns ns1 : List dp_node} {m m1 : DPMap} {live : Finset ℕ} {nid : ℕ}
    {G : Finset ℕ} (hI : Inv ns m live nid G)
    {i p : ℕ} {nd : dp_node}
    (hi : i ∈ live)
    (hnd : ns[i]? = some nd) (hp : nd.parent = some p)
    (hdead : nd.children = 0)
    (hns1p : ∃ pn1, ns1[p]? = some pn1 ∧ ∃ pn, ns[p]? = some pn ∧
      pn1.id = pn.id ∧ pn1.parent = pn.parent)
    (hns1o : ∀ k, k ≠ p → ns1[k]? = ns[k]?)
    (hm1 : ∀ a b k, m1 a b k =
      if k = nd.id ∧ (a, b) ∈ nd.modified_cells then none else m a b k)
    (x y : ℤ) :
    ∀ f k, k ∈ live ∧ k ≠ i →
      dp_lookup ns1 m1 x y f k = dp_lookup ns m x y f k := by
  have hpi : p < i := hI.parent_dec i nd hnd p hp
  have hnochild : ∀ z ∈ live, z < ns.length → parentOf ns z ≠ some i := by
    have hcc : (childCount ns live i : ℤ) = 0 := by
      rw [← hI.counts i hi nd hnd]; exact hdead
    exact childCount_zero_no_child (by exact_mod_cast hcc)
  apply dp_lookup_sim
  rintro k ⟨hk, hki⟩
  right
  have hklen := hI.live_lt k hk
  have hkget : ∃ ndk, ns[k]? = some ndk := by
    rw [← Option.isSome_iff_exists]
    simp [List.getElem?_eq_getElem hklen]
  rcases hkget with ⟨ndk, hndk⟩
  have hparclosed : ∀ q, ndk.parent = some q → q ∈ live ∧ q ≠ i := by
    intro q hq
    by_cases hk0 : k = 0
    · subst hk0
      rcases hI.root_node ndk hndk with ⟨hnone, _⟩
      rw [hnone] at hq; cases hq
    · constructor
      · rcases hI.parent_live k hk hk0 ndk hndk with ⟨q', hq', hqlive⟩
        have := Option.some.inj (hq.symm.trans hq')
        rw [← this] at hqlive
        exact hqlive
      · intro hqi
        subst hqi
        exact hnochild k hk hklen (parentOf_eq_some.mpr ⟨ndk, hndk, hq⟩)
  have hvalk : ∀ id2, id2 ≠ nd.id → m1 x y id2 = m x y id2 := by
    intro id2 hne
    rw [hm1]
    have : ¬ (id2 = nd.id ∧ (x, y) ∈ nd.modified_cells) := fun h => hne h.1
    rw [if_neg this]
  by_cases hkp : k = p
  · rcases hns1p with ⟨pn1, hpn1, pn, hpn, hpid, hppar⟩
    have hnde : ndk = pn := by
      rw [hkp] at hndk
      rw [hpn] at hndk; exact (Option.some.inj hndk).symm
    refine ⟨ndk, pn1, hndk, by rw [hkp]; exact hpn1, ?_, by rw [hppar, hnde], ?_⟩
    · show m1 x y pn1.id = m x y ndk.id
      rw [hpid, ← hnde]
      apply hvalk
      exact hI.ids_distinct k hk i hi hki ndk hndk nd hnd
    · exact hparclosed
  · refine ⟨ndk, ndk, hndk, by rw [hns1o k hkp]; exact hndk, ?_, rfl, hparclosed⟩
    show m1 x y ndk.id = m x y ndk.id
    apply hvalk
    exact hI.ids_distinct k hk i hi hki ndk hndk nd hnd

/-- Folding an only-child's parent into it (rename the child's cells to
the parent's id, merge the lists, adopt the parent's id and grandparent)
does not change any live node's lookups other than the merged-away
parent's. -/
theorem lookup_merge {ns ns1 : List dp_node} {m m1 : DPMap} {live : Finset ℕ} {nid : ℕ}
    {G : Finset ℕ} (hI : Inv ns m live nid G)
    {i p g : ℕ} {nd pn nd1 pn1 : dp_node}
    (hi : i ∈ live) (hi0 : i ≠ 0)
    (hnd : ns[i]? = some nd) (hp : nd.parent = some p)
    (hpn : ns[p]? = some pn) (hpg : pn.parent = some g)
    (hone : pn.children = 1)
    (hns1i : ns1[i]? = some nd1) (hid1 : nd1.id = pn.id) (hpar1 : nd1.parent = pn.parent)
    (hns1p : ns1[p]? = some pn1) (hpar1p : pn1.parent = pn.parent)
    (hns1o : ∀ k, k ≠ i → k ≠ p → ns1[k]? = ns[k]?)
    (hm1 : ∀ a b k, m1 a b k =
      if k = pn.id then (if (a, b) ∈ nd.modified_cells then m a b nd.id else m a b pn.id)
      else if k = nd.id then (if (a, b) ∈ nd.modified_cells then none else m a b nd.id)
      else m a b k)
    (x y : ℤ) :
    ∀ k, k ∈ live → k ≠ p →
      dp_lookup ns1 m1 x y (k + 1) k = dp_lookup ns m x y (k + 1) k := by
  have hilen : i < ns.length := hI.live_lt i hi
  have hpi : p < i := hI.parent_dec i nd hnd p hp
  have hplen : p < ns.length := by omega
  have hplive : p ∈ live := by
    rcases hI.parent_live i hi hi0 nd hnd with ⟨p', hp', hplive⟩
    have := Option.some.inj (hp.symm.trans hp')
    rw [this]
    exact hplive
  have hp0 : p ≠ 0 := by
    intro h
    subst h
    rcases hI.root_node pn hpn with ⟨hnone, _⟩
    rw [hnone] at hpg; cases hpg
  have hgp : g < p := hI.parent_dec p pn hpn g hpg
  have hglive : g ∈ live := by
    rcases hI.parent_live p hplive hp0 pn hpn with ⟨g', hg', hglive⟩
    have := Option.some.inj (hpg.symm.trans hg')
    rw [this]
    exact hglive
  have hip : i ≠ p := by omega
  have hidne : nd.id ≠ pn.id := hI.ids_distinct i hi p hplive hip nd hnd pn hpn
  have hcc1 : childCount ns live p = 1 := by
    have := hI.counts p hplive pn hpn
    rw [hone] at this
    exact_mod_cast this.symm
  have honly : ∀ z ∈ live, z < ns.length → parentOf ns z = some p → z = i :=
    fun z hz hzl hzp =>
      childCount_one_unique hcc1 hz hzl hzp hi hilen (parentOf_eq_some.mpr ⟨nd, hnd, hp⟩)
  have hmem_def : ∀ c ∈ nd.modified_cells, (m c.1 c.2 nd.id).isSome :=
    hI.cells_defined i hi nd hnd
  have hsome_mem : (m x y nd.id).isSome → (x, y) ∈ nd.modified_cells := by
    intro hs
    rcases hI.owner x y nd.id hs with ⟨j, hj, ndj, hndj, hidj, hmemj⟩
    by_cases hji : j = i
    · subst hji
      have : ndj = nd := by rw [hnd] at hndj; exact (Option.some.inj hndj).symm
      rw [← this]
      exact hmemj
    · exact absurd hidj (hI.ids_distinct j hj i hi hji ndj hndj nd hnd)
  have hdec1 : ∀ (j : ℕ) (nd' : dp_node), ns1[j]? = some nd' →
      ∀ q, nd'.parent = some q → q < j := by
    intro j nd' hj q hq
    by_cases hji : j = i
    · subst hji
      have : nd' = nd1 := by rw [hns1i] at hj; exact (Option.some.inj hj).symm
      rw [this, hpar1, hpg] at hq
      have := Option.some.inj hq
      omega
    · by_cases hjp : j = p
      · subst hjp
        have : nd' = pn1 := by rw [hns1p] at hj; exact (Option.some.inj hj).symm
        rw [this, hpar1p, hpg] at hq
        have := Option.some.inj hq
        omega
      · rw [hns1o j hji hjp] at hj
        exact hI.parent_dec j nd' hj q hq
  intro k
  induction k using Nat.strong_induction_on with
  | _ k ih =>
    intro hk hkp
    have hklen := hI.live_lt k hk
    have hkget : ∃ ndk, ns[k]? = some ndk := by
      rw [← Option.isSome_iff_exists]
      simp [List.getElem?_eq_getElem hklen]
    rcases hkget with ⟨ndk, hndk⟩
    by_cases hki : k = i
    · subst hki
      have hnde : ndk = nd := by rw [hnd] at hndk; exact (Option.some.inj hndk).symm
      subst hnde
      obtain ⟨k', rfl⟩ : ∃ k', k = k' + 1 := ⟨k - 1, by omega⟩
      have hm1pn : map_lookup_by_id m1 x y nd1.id =
          (if (x, y) ∈ ndk.modified_cells then m x y ndk.id else m x y pn.id) := by
        show m1 x y nd1.id = _
        rw [hid1, hm1, if_pos rfl]
      cases hv : m x y ndk.id with
      | some b =>
        have hmem : (x, y) ∈ ndk.modified_cells := hsome_mem (by rw [hv]; rfl)
        have hm1v : map_lookup_by_id m1 x y nd1.id = some b := by
          rw [hm1pn, if_pos hmem]
          exact hv
        rw [dp_lookup_found hns1i hm1v, dp_lookup_found hndk hv]
      | none =>
        have hnmem : (x, y) ∉ ndk.modified_cells := by
          intro hmem
          have := hmem_def (x, y) hmem
          rw [hv] at this
          cases this
        have hm1v : map_lookup_by_id m1 x y nd1.id = m x y pn.id := by
          rw [hm1pn, if_neg hnmem]
        cases hv2 : m x y pn.id with
        | some b =>
          have hm1some : map_lookup_by_id m1 x y nd1.id = some b := hm1v.trans hv2
          rw [dp_lookup_found hns1i hm1some]
          rw [dp_lookup_step hndk hv hp, dp_lookup_found hpn hv2]
        | none =>
          have hm1none : map_lookup_by_id m1 x y nd1.id = none := hm1v.trans hv2
          rw [dp_lookup_step hns1i hm1none (hpar1.trans hpg)]
          rw [dp_lookup_step hndk hv hp]
          obtain ⟨k'', rfl⟩ : ∃ k'', k' = k'' + 1 := ⟨k' - 1, by omega⟩
          rw [dp_lookup_step hpn hv2 hpg]
          have hL : dp_lookup ns1 m1 x y (k'' + 2) g = dp_lookup ns1 m1 x y (g + 1) g :=
            dp_lookup_fuel hdec1 (k'' + 2) (g + 1) g (by omega) (by omega)
          have hR : dp_lookup ns m x y (k'' + 1) g = dp_lookup ns m x y (g + 1) g :=
            dp_lookup_fuel hI.parent_dec (k'' + 1) (g + 1) g (by omega) (by omega)
          rw [hL, hR]
          exact ih g (by omega) hglive (by omega)
    · have hns1k : ns1[k]? = some ndk := by rw [hns1o k hki hkp]; exact hndk
      have hidk1 : ndk.id ≠ nd.id := hI.ids_distinct k hk i hi hki ndk hndk nd hnd
      have hidk2 : ndk.id ≠ pn.id := hI.ids_distinct k hk p hplive hkp ndk hndk pn hpn
      have hmv : map_lookup_by_id m1 x y ndk.id = m x y ndk.id := by
        show m1 x y ndk.id = _
        rw [hm1]
        rw [if_neg hidk2, if_neg hidk1]
      cases hv : m x y ndk.id with
      | some b =>
        have hm1some : map_lookup_by_id m1 x y ndk.id = some b := hmv.trans hv
        rw [dp_lookup_found hns1k hm1some, dp_lookup_found hndk hv]
      | none =>
        have hm1none : map_lookup_by_id m1 x y ndk.id = none := hmv.trans hv
        cases hq : ndk.parent with
        | none =>
          rw [dp_lookup_root hns1k hm1none hq, dp_lookup_root hndk hv hq]
        | some q =>
          have hqk : q < k := hI.parent_dec k ndk hndk q hq
          obtain ⟨k', rfl⟩ : ∃ k', k = k' + 1 := ⟨k - 1, by omega⟩
          rw [dp_lookup_step hns1k hm1none hq, dp_lookup_step hndk hv hq]
          have hk0 : k' + 1 ≠ 0 := by omega
          have hqlive : q ∈ live := by
            rcases hI.parent_live _ hk hk0 ndk hndk with ⟨q', hq', hqlive⟩
            have := Option.some.inj (hq.symm.trans hq')
            rw [this]
            exact hqlive
          have hqp : q ≠ p := by
            intro hqp2
            rw [hqp2] at hq
            exact hki (honly _ hk hklen (parentOf_eq_some.mpr ⟨ndk, hndk, hq⟩))
          have hL : dp_lookup ns1 m1 x y (k' + 1) q = dp_lookup ns1 m1 x y (q + 1) q :=
            dp_lookup_fuel hdec1 (k' + 1) (q + 1) q (by omega) (by omega)
          have hR : dp_lookup ns m x y (k' + 1) q = dp_lookup ns m x y (q + 1) q :=
            dp_lookup_fuel hI.parent_dec (k' + 1) (q + 1) q (by omega) (by omega)
          rw [hL, hR]
          exact ih q (by omega) hqlive hqp

/-- The main `trim` contract: with enough fuel, trimming a live
non-root node succeeds and satisfies `TrimPost`. -/
theorem trim_spec : ∀ (fuel : ℕ) (ns : List dp_node) (m : DPMap) (live : Finset ℕ)
    (nid : ℕ) (G : Finset ℕ) (i p : ℕ) (nd : dp_node),
    Inv ns m live nid G → i ∈ live → i ≠ 0 →
    ns[i]? = some nd → nd.parent = some p → i + p + 2 ≤ fuel →
    ∃ ns' m' live', trim fuel ns m i = some (ns', m') ∧
      TrimPost ns m live nid G i nd ns' m' live' := by
  intro fuel
  induction fuel with
  | zero => intro ns m live nid G i p nd _ _ _ _ _ hf; exact absurd hf (by omega)
  | succ fuel ih =>
    intro ns m live nid G i p nd hI hi hi0 hnd hp hf
    have hilen : i < ns.length := hI.live_lt i hi
    have hpi : p < i := hI.parent_dec i nd hnd p hp
    have hplen : p < ns.length := by omega
    have hplive : p ∈ live := by
      rcases hI.parent_live i hi hi0 nd hnd with ⟨p', hp', hpl⟩
      have := Option.some.inj (hp.symm.trans hp')
      rw [this]; exact hpl
    have hpget : ∃ pn, ns[p]? = some pn := by
      rw [← Option.isSome_iff_exists]
      simp [List.getElem?_eq_getElem hplen]
    rcases hpget with ⟨pn, hpn⟩
    rw [trim_eq_body hnd hp hpn]
    by_cases h1 : pn.id = 0
    · -- case 1: the parent is the root, stop with the state unchanged
      have hp00 : p = 0 := by
        by_contra hp0
        exact hI.id_nonzero p hplive hp0 pn hpn h1
      rw [trim_body_root h1]
      refine ⟨ns, m, live, rfl, Finset.Subset.refl live, hI, rfl, ?_, ?_, ?_, ?_, ?_, ?_⟩
      · intro j _; exact ⟨rfl, Iff.rfl⟩
      · intro j; rfl
      · intro _
        refine ⟨hi, ?_, ?_⟩
        · intro nd' h
          rw [hnd] at h
          rw [(Option.some.inj h).symm]
        · intro f2 p' nd' hnd' hp' hf2
          obtain ⟨f2', rfl⟩ : ∃ f2', f2 = f2' + 1 := ⟨f2 - 1, by omega⟩
          rw [trim_eq_body hnd hp hpn, trim_body_root h1]
      · intro _ _
        right
        intro nd' h
        rw [hnd] at h
        rw [(Option.some.inj h).symm, hp, hp00]
      · intro j _ nd' _ _ _; left; rfl
      · intro j _ x y; rfl
    · have hp0 : p ≠ 0 := by
        intro he
        rw [he] at hpn
        rcases hI.root_node pn hpn with ⟨_, hid⟩
        exact h1 hid
      rcases hI.parent_live p hplive hp0 pn hpn with ⟨g, hpg, hglive⟩
      have hgp : g < p := hI.parent_dec p pn hpn g hpg
      by_cases h2 : nd.leaf = false ∧ nd.children = 0
      · -- case 2: dead node, erase its cells, recurse to the parent, detach
        rw [trim_body_dead h1 h2]
        have hI1 : Inv (ns.set p { pn with children := pn.children - 1 })
            (erase_cells m nd.modified_cells nd.id) (live.erase i) nid (insert i G) :=
          inv_erase_step hI hi hi0 hnd hp hpn hp0 h2.2
        have hlen1 : (ns.set p { pn with children := pn.children - 1 }).length = ns.length := by
          simp
        have hns1p : (ns.set p { pn with children := pn.children - 1 })[p]?
            = some { pn with children := pn.children - 1 } := List.getElem?_set_self hplen
        have hns1o : ∀ z : ℕ, z ≠ p →
            (ns.set p { pn with children := pn.children - 1 })[z]? = ns[z]? :=
          fun z hz => List.getElem?_set_ne (fun h => hz h.symm)
        have hpar1 : ∀ z, parentOf (ns.set p { pn with children := pn.children - 1 }) z
            = parentOf ns z := by
          intro z
          by_cases hz : z = p
          · rw [hz]
            unfold parentOf
            rw [hns1p, hpn]
          · unfold parentOf
            rw [hns1o z hz]
        have hplive1 : p ∈ live.erase i := Finset.mem_erase.mpr ⟨by omega, hplive⟩
        have hpn1par : ({ pn with children := pn.children - 1 } : dp_node).parent = some g := hpg
        rcases ih (ns.set p { pn with children := pn.children - 1 })
            (erase_cells m nd.modified_cells nd.id) (live.erase i) nid (insert i G)
            p g { pn with children := pn.children - 1 } hI1 hplive1 hp0 hns1p hpn1par (by omega)
          with ⟨ns2, m2, live2, htrim2, hsub2, hI2, hlen2, hframe2, hleafloc2, hsurv2,
            hdeadself2, hnewdead2, hlookup2⟩
        rw [htrim2]
        refine ⟨set_node ns2 i (fun nd2 => { nd2 with parent := none }), m2, live2, rfl, ?_⟩
        have hinl2 : i ∉ live2 := fun hmem => (Finset.mem_erase.mp (hsub2 hmem)).1 rfl
        have hI3 : Inv (set_node ns2 i (fun nd2 => { nd2 with parent := none })) m2 live2 nid G :=
          inv_detach_step hI2 hinl2
        have hlen3 : (set_node ns2 i (fun nd2 => { nd2 with parent := none })).length
            = ns.length := by
          rw [set_node_length, hlen2, hlen1]
        have hanc1 : ∀ w z : ℕ, IsAnc (ns.set p { pn with children := pn.children - 1 }) w z →
            IsAnc ns w z := fun w z hz => isAnc_congr (fun u => (hpar1 u).symm) hz
        have hip_anc : IsAnc ns i p := isAnc_parent hnd hp
        have hnotanc : ∀ j, ¬ IsAnc ns i j →
            ¬ IsAnc (ns.set p { pn with children := pn.children - 1 }) p j := by
          intro j hj hcontra
          exact hj (IsAnc.step hnd hp (hanc1 p j hcontra))
        have hnanci : ¬ IsAnc (ns.set p { pn with children := pn.children - 1 }) p i := by
          intro hc
          have := isAnc_le hI.parent_dec (hanc1 p i hc)
          omega
        have hns2i : ns2[i]? = some nd := by
          rw [(hframe2 i hnanci).1, hns1o i (by omega)]
          exact hnd
        have hleafloc1 : ∀ j : ℕ,
            (((ns.set p { pn with children := pn.children - 1 })[j]?).map
              (fun n : dp_node => (n.leaf, n.location)))
            = ((ns[j]?).map (fun n : dp_node => (n.leaf, n.location))) := by
          intro j
          by_cases hz : j = p
          · rw [hz, hns1p, hpn]
            rfl
          · rw [hns1o j hz]
        refine ⟨Finset.Subset.trans hsub2 (Finset.erase_subset i live), hI3, hlen3,
          ?_, ?_, ?_, ?_, ?_, ?_⟩
        · -- frame
          intro j hj
          have hji : j ≠ i := fun he => hj (by rw [he]; exact IsAnc.refl i)
          have hjp : j ≠ p := fun he => hj (by rw [he]; exact hip_anc)
          constructor
          · rw [set_node_get_other ns2 i j _ (fun h => hji h.symm)]
            rw [(hframe2 j (hnotanc j hj)).1]
            exact hns1o j hjp
          · rw [(hframe2 j (hnotanc j hj)).2]
            constructor
            · intro hm; exact (Finset.mem_erase.mp hm).2
            · intro hm; exact Finset.mem_erase.mpr ⟨hji, hm⟩
        · -- leaf and location preservation
          intro j
          by_cases hji : j = i
          · rw [hji, set_node_get_self, hns2i, hnd]
            rfl
          · rw [set_node_get_other ns2 i j _ (fun h => hji h.symm)]
            rw [hleafloc2 j, hleafloc1 j]
        · -- survival (vacuous: the node is dead)
          intro hx
          exact absurd h2 hx
        · -- dead entry: detached
          intro _ _
          left
          exact hinl2
        · -- new dead nodes are root children
          intro j hj nd' hnd' hleaf hch
          have hji : j ≠ i := fun he => hinl2 (he ▸ hj)
          rw [set_node_get_other ns2 i j _ (fun h => hji h.symm)] at hnd'
          rcases hnewdead2 j hj nd' hnd' hleaf hch with heq | hpar0
          · by_cases hjp : j = p
            · have hdpn : nd' = { pn with children := pn.children - 1 } := by
                rw [hjp] at hnd' heq
                rw [heq, hns1p] at hnd'
                exact (Option.some.inj hnd').symm
              rcases hdeadself2 (by rw [← hdpn]; exact hleaf) (by rw [← hdpn]; exact hch)
                with hout | hpar0'
              · rw [hjp] at hj
                exact absurd hj hout
              · right
                rw [hjp] at hnd'
                have := hpar0' nd' hnd'
                exact this
            · left
              rw [set_node_get_other ns2 i j _ (fun h => hji h.symm), heq, hns1o j hjp]
          · right
            exact hpar0
        · -- lookups preserved
          intro j hj x y
          rw [hlen3]
          rw [lookup_detach hI2 hinl2 x y ns.length j hj]
          have e1 := hlookup2 j hj x y
          rw [hlen2, hlen1] at e1
          rw [e1]
          have hj1 := hsub2 hj
          rcases Finset.mem_erase.mp hj1 with ⟨hji, hjl⟩
          exact lookup_erase hI hi hnd hp h2.2
            ⟨{ pn with children := pn.children - 1 }, hns1p, pn, hpn, rfl, rfl⟩
            hns1o (fun a b k => erase_cells_spec nd.id nd.modified_cells m a b k) x y
            ns.length j ⟨hjl, hji⟩
      · have hip : i ≠ p := by omega
        have hiold : parentOf ns i = some p := parentOf_eq_some.mpr ⟨nd, hnd, hp⟩
        have hpgPar : parentOf ns p = some g := parentOf_eq_some.mpr ⟨pn, hpn, hpg⟩
        by_cases h3 : pn.children = 1 ∧ pn.id ≠ 0
        · -- case 3: fold the only-child parent into the node and retry
          rw [trim_body_merge h1 h2 h3]
          have hidne : nd.id ≠ pn.id := hI.ids_distinct i hi p hplive hip nd hnd pn hpn
          have hnodup : nd.modified_cells.Nodup := hI.cells_nodup i hi nd hnd
          have hcc1 : childCount ns live p = 1 := by
            have := hI.counts p hplive pn hpn
            rw [h3.1] at this
            exact_mod_cast this.symm
          have honly : ∀ z ∈ live, parentOf ns z = some p → z = i := by
            intro z hz hzp
            rcases parentOf_eq_some.mp hzp with ⟨ndz, hndz, _⟩
            exact childCount_one_unique hcc1 hz (getElem?_some_lt hndz) hzp hi hilen hiold
          have hlen1 : ((ns.set p
              { pn with modified_cells := pn.modified_cells ++ nd.modified_cells }).set i
              { nd with modified_cells := pn.modified_cells ++ nd.modified_cells, id := pn.id, parent := pn.parent }).length = ns.length := by
            simp
          have hns1i : ((ns.set p
              { pn with modified_cells := pn.modified_cells ++ nd.modified_cells }).set i
              { nd with modified_cells := pn.modified_cells ++ nd.modified_cells, id := pn.id, parent := pn.parent })[i]?
              = some { nd with modified_cells := pn.modified_cells ++ nd.modified_cells, id := pn.id, parent := pn.parent } := by
            apply List.getElem?_set_self
            rw [List.length_set]
            exact hilen
          have hns1p : ((ns.set p
              { pn with modified_cells := pn.modified_cells ++ nd.modified_cells }).set i
              { nd with modified_cells := pn.modified_cells ++ nd.modified_cells, id := pn.id, parent := pn.parent })[p]?
              = some { pn with modified_cells := pn.modified_cells ++ nd.modified_cells } := by
            rw [List.getElem?_set_ne hip]
            exact List.getElem?_set_self hplen
          have hns1o : ∀ z : ℕ, z ≠ i → z ≠ p → ((ns.set p
              { pn with modified_cells := pn.modified_cells ++ nd.modified_cells }).set i
              { nd with modified_cells := pn.modified_cells ++ nd.modified_cells, id := pn.id, parent := pn.parent })[z]? = ns[z]? := by
            intro z hzi hzp
            rw [List.getElem?_set_ne (fun h => hzi h.symm), List.getElem?_set_ne (fun h => hzp h.symm)]
          have hm1 := rename_cells_spec nd.id pn.id hidne nd.modified_cells hnodup m
          have hI1 : Inv ((ns.set p
              { pn with modified_cells := pn.modified_cells ++ nd.modified_cells }).set i
              { nd with modified_cells := pn.modified_cells ++ nd.modified_cells, id := pn.id, parent := pn.parent })
              (rename_cells m nd.modified_cells nd.id pn.id) (live.erase p) nid G :=
            inv_merge_step hI hi hi0 hnd hp hpn hpg h3.1 h1 hlen1 hns1i rfl rfl rfl rfl rfl
              hns1p rfl rfl rfl hns1o hm1
          have hilive1 : i ∈ live.erase p := Finset.mem_erase.mpr ⟨hip, hi⟩
          have hn1par : ({ nd with modified_cells := pn.modified_cells ++ nd.modified_cells, id := pn.id, parent := pn.parent } : dp_node).parent = some g := hpg
          rcases ih ((ns.set p
              { pn with modified_cells := pn.modified_cells ++ nd.modified_cells }).set i
              { nd with modified_cells := pn.modified_cells ++ nd.modified_cells, id := pn.id, parent := pn.parent })
              (rename_cells m nd.modified_cells nd.id pn.id) (live.erase p) nid G i g
              { nd with modified_cells := pn.modified_cells ++ nd.modified_cells, id := pn.id, parent := pn.parent }
              hI1 hilive1 hi0 hns1i hn1par (by omega)
            with ⟨ns2, m2, live2, htrim2, hsub2, hI2, hlen2, hframe2, hleafloc2, hsurv2,
              hdeadself2, hnewdead2, hlookup2⟩
          refine ⟨ns2, m2, live2, htrim2, ?_⟩
          have hanc_tr : ∀ l j : ℕ, IsAnc ((ns.set p
              { pn with modified_cells := pn.modified_cells ++ nd.modified_cells }).set i
              { nd with modified_cells := pn.modified_cells ++ nd.modified_cells, id := pn.id, parent := pn.parent }) l j → l ∈ live.erase p →
              IsAnc ns l j ∧ j ∈ live.erase p := by
            intro l j h hl
            refine isAnc_merge hI.root_node hI.parent_live honly hi hiold hpgPar ?_ hns1o
              hglive (by omega) h hl
            intro nd1 h1'
            rw [hns1i] at h1'
            rw [← Option.some.inj h1']
            exact hpg
          have hleafloc1 : ∀ j : ℕ, ((((ns.set p
              { pn with modified_cells := pn.modified_cells ++ nd.modified_cells }).set i
              { nd with modified_cells := pn.modified_cells ++ nd.modified_cells, id := pn.id, parent := pn.parent })[j]?).map
                (fun n : dp_node => (n.leaf, n.location)))
              = ((ns[j]?).map (fun n : dp_node => (n.leaf, n.location))) := by
            intro j
            by_cases hji : j = i
            · rw [hji, hns1i, hnd]
              rfl
            · by_cases hjp : j = p
              · rw [hjp, hns1p, hpn]
                rfl
              · rw [hns1o j hji hjp]
          refine ⟨Finset.Subset.trans hsub2 (Finset.erase_subset p live), hI2,
            hlen2.trans hlen1, ?_, ?_, ?_, ?_, ?_, ?_⟩
          · -- frame
            intro j hj
            have hji : j ≠ i := fun he => hj (by rw [he]; exact IsAnc.refl i)
            have hjp : j ≠ p := fun he => hj (by rw [he]; exact isAnc_parent hnd hp)
            have hnanc1 : ¬ IsAnc ((ns.set p
                { pn with modified_cells := pn.modified_cells ++ nd.modified_cells }).set i
                { nd with modified_cells := pn.modified_cells ++ nd.modified_cells, id := pn.id, parent := pn.parent }) i j :=
              fun hc => hj (hanc_tr i j hc hilive1).1
            constructor
            · rw [(hframe2 j hnanc1).1]
              exact hns1o j hji hjp
            · rw [(hframe2 j hnanc1).2]
              constructor
              · intro hm; exact (Finset.mem_erase.mp hm).2
              · intro hm; exact Finset.mem_erase.mpr ⟨hjp, hm⟩
          · -- leaf and location preservation
            intro j
            rw [hleafloc2 j, hleafloc1 j]
          · -- survival
            intro hx
            have hx1 : ¬ (({ nd with modified_cells := pn.modified_cells ++ nd.modified_cells, id := pn.id, parent := pn.parent } : dp_node).leaf = false ∧
                ({ nd with modified_cells := pn.modified_cells ++ nd.modified_cells, id := pn.id, parent := pn.parent } : dp_node).children = 0) := hx
            obtain ⟨hi2, hch2, hsec2⟩ := hsurv2 hx1
            exact ⟨hi2, hch2, hsec2⟩
          · -- dead entry: vacuous
            intro hleaf hch
            exact absurd ⟨hleaf, hch⟩ h2
          · -- new dead nodes are root children
            intro j hj nd' hnd' hleaf hch
            rcases hnewdead2 j hj nd' hnd' hleaf hch with heq | hpar0
            · by_cases hji : j = i
              · have hdn : nd' = { nd with modified_cells := pn.modified_cells ++ nd.modified_cells, id := pn.id, parent := pn.parent } := by
                  rw [hji] at hnd' heq
                  rw [heq, hns1i] at hnd'
                  exact (Option.some.inj hnd').symm
                have : nd.leaf = false ∧ nd.children = 0 := by
                  constructor
                  · rw [← hleaf, hdn]
                  · rw [← hch, hdn]
                exact absurd this h2
              · have hjp : j ≠ p := fun he => (Finset.mem_erase.mp (hsub2 hj)).1 he
                left
                exact heq.trans (hns1o j hji hjp)
            · right
              exact hpar0
          · -- lookups preserved
            intro j hj x y
            have hj1 := hsub2 hj
            rcases Finset.mem_erase.mp hj1 with ⟨hjp, hjl⟩
            have hjlen : j < ns.length := hI.live_lt j hjl
            have e1 := hlookup2 j hj x y
            rw [hlen2, hlen1] at e1
            rw [hlen2.trans hlen1, e1]
            have e2 : dp_lookup ((ns.set p
                { pn with modified_cells := pn.modified_cells ++ nd.modified_cells }).set i
                { nd with modified_cells := pn.modified_cells ++ nd.modified_cells, id := pn.id, parent := pn.parent })
                (rename_cells m nd.modified_cells nd.id pn.id) x y ns.length j
                = dp_lookup ((ns.set p
                { pn with modified_cells := pn.modified_cells ++ nd.modified_cells }).set i
                { nd with modified_cells := pn.modified_cells ++ nd.modified_cells, id := pn.id, parent := pn.parent })
                (rename_cells m nd.modified_cells nd.id pn.id) x y (j + 1) j :=
              dp_lookup_fuel hI1.parent_dec ns.length (j + 1) j (by omega) (by omega)
            rw [e2]
            have e3 := lookup_merge hI hi hi0 hnd hp hpn hpg h3.1 hns1i rfl rfl hns1p rfl
              hns1o hm1 x y j hjl hjp
            rw [e3]
            exact dp_lookup_fuel hI.parent_dec (j + 1) ns.length j (by omega) (by omega)
        · -- case 4: walk up to the parent
          rw [trim_body_walk h1 h2 h3]
          rcases ih ns m live nid G p g pn hI hplive hp0 hpn hpg (by omega)
            with ⟨ns2, m2, live2, htrim2, hsub2, hI2, hlen2, hframe2, hleafloc2, hsurv2,
              hdeadself2, hnewdead2, hlookup2⟩
          refine ⟨ns2, m2, live2, htrim2, ?_⟩
          have hpnotdead : ¬ (pn.leaf = false ∧ pn.children = 0) := by
            intro hx
            have hcc := hI.counts p hplive pn hpn
            have hpos := childCount_pos hi hilen hiold
            rw [hx.2] at hcc
            omega
          obtain ⟨hp2live, hch2, hsec2⟩ := hsurv2 hpnotdead
          have hnanc : ¬ IsAnc ns p i := by
            intro hc
            have := isAnc_le hI.parent_dec hc
            omega
          have hframe_i := hframe2 i hnanc
          have hns2i : ns2[i]? = some nd := by rw [hframe_i.1]; exact hnd
          refine ⟨hsub2, hI2, hlen2, ?_, hleafloc2, ?_, ?_, hnewdead2, hlookup2⟩
          · intro j hj
            exact hframe2 j (fun hc => hj (IsAnc.step hnd hp hc))
          · intro _
            refine ⟨(hframe_i.2).mpr hi, ?_, ?_⟩
            · intro nd' h
              rw [hns2i] at h
              rw [(Option.some.inj h).symm]
            · intro f2 p' nd' hnd' hp' hf2
              have hnde : nd' = nd := by rw [hns2i] at hnd'; exact (Option.some.inj hnd').symm
              have hpe : p' = p := by
                rw [hnde] at hp'
                exact (Option.some.inj (hp.symm.trans hp')).symm
              rw [hpe] at hf2
              obtain ⟨f2', rfl⟩ : ∃ f2', f2 = f2' + 1 := ⟨f2 - 1, by omega⟩
              have hplen2 : p < ns2.length := by rw [hlen2]; omega
              have hpget2 : ∃ pn2, ns2[p]? = some pn2 := by
                rw [← Option.isSome_iff_exists]
                simp [List.getElem?_eq_getElem hplen2]
              rcases hpget2 with ⟨pn2, hpn2⟩
              have hch2' := hch2 pn2 hpn2
              have hpn2id : pn2.id ≠ 0 := hI2.id_nonzero p hp2live hp0 pn2 hpn2
              rcases hI2.parent_live p hp2live hp0 pn2 hpn2 with ⟨q, hq, hqlive⟩
              have hq_lt : q < p := hI2.parent_dec p pn2 hpn2 q hq
              rw [trim_eq_body hns2i hp hpn2, trim_body_walk hpn2id h2 ?_]
              · exact hsec2 f2' q pn2 hpn2 hq (by omega)
              · intro hx
                rw [hch2'] at hx
                exact h3 ⟨hx.1, h1⟩
          · intro hleaf hch
            exact absurd ⟨hleaf, hch⟩ h2

/-! ### Generic preservation through the sensor folds -/

theorem ray_loop_preserve {σ : Type _} (P : σ → Prop) (visit : σ → ℤ → ℤ → ℕ → σ × Bool)
    (x_inc y_inc : ℤ) (dt_dx dt_dy : TVal)
    (h : ∀ s x y n, P s → P (visit s x y n).1) :
    ∀ (n : ℕ) (x y : ℤ) (tv th : TVal) (s : σ), P s →
      P (ray_loop visit x_inc y_inc dt_dx dt_dy n x y tv th s) := by
  intro n
  induction n with
  | zero => intro x y tv th s hs; exact hs
  | succ n ih =>
    intro x y tv th s hs
    simp only [ray_loop]
    by_cases hr : (visit s x y n).2
    · simp only [hr, if_true]
      exact h s x y n hs
    · simp only [hr, if_false]
      by_cases htl : tlt tv th
      · simp only [htl, if_true]
        exact ih _ _ _ _ _ (h s x y n hs)
      · simp only [htl, if_false]
        exact ih _ _ _ _ _ (h s x y n hs)

theorem ray_trace_preserve {σ : Type _} (P : σ → Prop) (a b : location_t)
    (visit : σ → ℤ → ℤ → ℕ → σ × Bool)
    (h : ∀ s x y n, P s → P (visit s x y n).1) (s : σ) (hs : P s) :
    P (ray_trace a b visit s) := by
  unfold ray_trace
  exact ray_loop_preserve P visit _ _ _ _ h _ _ _ _ _ s hs

theorem beam_fold_preserve {α : Type _} (P : α → Prop) (m : beam_model_t)
    (f : ℕ → ℚ → α → α) (O : Oracle)
    (h : ∀ i rot a, P a → P (f i rot a)) :
    ∀ (fuel i : ℕ) (rot : ℚ) (a : α), P a →
      P (beam_fold m f O fuel i rot a) := by
  intro fuel
  induction fuel with
  | zero => intro i rot a ha; exact ha
  | succ fuel ih =>
    intro i rot a ha
    simp only [beam_fold]
    by_cases hi : i < m.size
    · simp only [hi, if_true]
      exact ih _ _ _ (h i rot a ha)
    · simp only [hi, if_false]
      exact ha

theorem beam_update_preserve {σ : Type _} (P : σ → Prop) (O : Oracle) (m : beam_model_t)
    (loc : location_t) (meas : ℕ → ℚ) (w : σ → Bool → ℤ → ℤ → σ)
    (h : ∀ s v x y, P s → P (w s v x y)) (s : σ) (hs : P s) :
    P (beam_update O m loc meas w s) := by
  unfold beam_update
  apply beam_fold_preserve P m _ O _ _ _ _ _ hs
  intro i rot a ha
  by_cases hm : meas i ≠ 0
  · rw [if_pos hm]
    apply ray_trace_preserve P _ _ _ _ a ha
    intro s2 x2 y2 n hs2
    by_cases h1 : 1 < n
    · rw [if_pos h1]
      exact h s2 false x2 y2 hs2
    · rw [if_neg h1]
      by_cases h0 : n = 0
      · rw [if_pos h0]
        exact h s2 true x2 y2 hs2
      · rw [if_neg h0]
        exact hs2
  · rw [if_neg hm]
    exact ha

theorem beam_fold_id {α : Type _} (m : beam_model_t) (O : Oracle) :
    ∀ (fuel i : ℕ) (rot : ℚ) (a : α),
      beam_fold m (fun _ _ s => s) O fuel i rot a = a := by
  intro fuel
  induction fuel with
  | zero => intro i rot a; rfl
  | succ fuel ih =>
    intro i rot a
    simp only [beam_fold]
    by_cases hi : i < m.size
    · simp only [hi, if_true]
      exact ih _ _ _
    · simp [hi]

theorem beam_fold_zero_action {σ : Type _} (O : Oracle) (m : beam_model_t)
    (loc : location_t) (meas : ℕ → ℚ) (hz : ∀ i, meas i = 0)
    (w : σ → Bool → ℤ → ℤ → σ) :
    ∀ (fuel i : ℕ) (rot : ℚ) (s : σ),
      beam_fold m
        (fun i rot s =>
          if meas i ≠ 0 then
            ray_trace loc (location_t.add O loc (meas i) rot)
              (fun s x y n =>
                if 1 < n then (w s false x y, false)
                else if n = 0 then (w s true x y, false)
                else (s, false)) s
          else s) O fuel i rot s = s := by
  intro fuel
  induction fuel with
  | zero => intro i rot s; rfl
  | succ fuel ih =>
    intro i rot s
    simp only [beam_fold]
    by_cases hi : i < m.size
    · simp only [hi, if_true]
      have hnz : ¬ meas i ≠ 0 := fun hc => hc (hz i)
      rw [if_neg hnz]
      exact ih _ _ _
    · simp [hi]

/-- With an all-zero scan, the sensor update makes no writer calls. -/
theorem beam_update_zero {σ : Type _} (O : Oracle) (m : beam_model_t)
    (loc : location_t) (meas : ℕ → ℚ) (hz : ∀ i, meas i = 0)
    (w : σ → Bool → ℤ → ℤ → σ) (s : σ) :
    beam_update O m loc meas w s = s := by
  unfold beam_update
  exact beam_fold_zero_action O m loc meas hz w _ _ _ s

/-! ### The first-writer-wins check along the ancestry relation -/

theorem dp_update_check_succ (ns : List dp_node) (m : DPMap) (x y : ℤ) (f k : ℕ) :
    dp_update_check ns m x y (f + 1) k =
      match ns[k]? with
      | none => false
      | some nd =>
        if (map_lookup_by_id m x y nd.id).isSome then true
        else
          match nd.parent with
          | none => false
          | some p => dp_update_check ns m x y f p := rfl

theorem dp_update_check_some {ns : List dp_node} {m : DPMap} {x y : ℤ} {f k : ℕ}
    {nd : dp_node} (h : ns[k]? = some nd) :
    dp_update_check ns m x y (f + 1) k =
      if (map_lookup_by_id m x y nd.id).isSome then true
      else
        match nd.parent with
        | none => false
        | some p => dp_update_check ns m x y f p := by
  rw [dp_update_check_succ, h]

/-- A failed first-writer-wins check means no ancestor holds an entry at
the cell (with fuel covering the chain). -/
theorem check_false_no_entry {ns : List dp_node} {m : DPMap} {x y : ℤ}
    (hdec : ∀ (j : ℕ) (nd : dp_node), ns[j]? = some nd → ∀ p, nd.parent = some p → p < j) :
    ∀ f i, dp_update_check ns m x y f i = false → i + 1 ≤ f →
      ∀ k, IsAnc ns i k → ¬ entry_at ns m x y k := by
  intro f
  induction f with
  | zero => intro i _ hf; exact absurd hf (by omega)
  | succ f ih =>
    intro i hchk _ k hanc
    cases hnd : ns[i]? with
    | none =>
      rcases hanc with _ | ⟨hnd', _, _⟩
      · rintro ⟨nd, hnd', _⟩
        rw [hnd] at hnd'
        cases hnd'
      · rw [hnd] at hnd'
        cases hnd'
    | some nd =>
      rw [dp_update_check_some hnd] at hchk
      by_cases hval : (map_lookup_by_id m x y nd.id).isSome
      · rw [if_pos hval] at hchk
        cases hchk
      · rw [if_neg hval] at hchk
        rcases hanc with _ | ⟨hnd', hp', hanc'⟩
        · rintro ⟨nd', hnd'', hs⟩
          rw [hnd] at hnd''
          rw [(Option.some.inj hnd'').symm] at hs
          exact hval hs
        · rw [hnd] at hnd'
          have he := (Option.some.inj hnd').symm
          rw [he] at hp'
          rw [hp'] at hchk
          have hlt := hdec i nd hnd _ hp'
          exact ih _ hchk (by omega) k hanc'

/-! ### Invariant preservation for leaf marking and map writes -/

/-- Rewriting one slot with a map that keeps the id, parent pointer,
child count and cell list preserves the invariant. -/
theorem inv_set_irrelevant {ns : List dp_node} {m : DPMap} {live : Finset ℕ} {nid : ℕ}
    {G : Finset ℕ} (hI : Inv ns m live nid G) (q : ℕ) (f : dp_node → dp_node)
    (hid : ∀ nd, (f nd).id = nd.id) (hpar : ∀ nd, (f nd).parent = nd.parent)
    (hch : ∀ nd, (f nd).children = nd.children)
    (hcells : ∀ nd, (f nd).modified_cells = nd.modified_cells) :
    Inv (set_node ns q f) m live nid G := by
  have hlen : (set_node ns q f).length = ns.length := set_node_length ns q f
  have hnode : ∀ (z : ℕ) (nd' : dp_node), (set_node ns q f)[z]? = some nd' →
      ∃ nd0 : dp_node, ns[z]? = some nd0 ∧ nd'.id = nd0.id ∧ nd'.parent = nd0.parent ∧
        nd'.children = nd0.children ∧ nd'.modified_cells = nd0.modified_cells := by
    intro z nd' h
    by_cases hz : z = q
    · rw [hz, set_node_get_self] at h
      cases h0 : ns[q]? with
      | none => rw [h0] at h; cases h
      | some nd0 =>
        rw [h0] at h
        have : nd' = f nd0 := (Option.some.inj h).symm
        rw [hz]
        exact ⟨nd0, h0, by rw [this, hid], by rw [this, hpar], by rw [this, hch],
          by rw [this, hcells]⟩
    · rw [set_node_get_other ns q z f (fun h2 => hz h2.symm)] at h
      exact ⟨nd', h, rfl, rfl, rfl, rfl⟩
  have hback : ∀ (z : ℕ) (nd0 : dp_node), ns[z]? = some nd0 →
      ∃ nd' : dp_node, (set_node ns q f)[z]? = some nd' ∧ nd'.id = nd0.id ∧
        nd'.parent = nd0.parent ∧ nd'.children = nd0.children ∧
        nd'.modified_cells = nd0.modified_cells := by
    intro z nd0 h
    by_cases hz : z = q
    · refine ⟨f nd0, ?_, hid nd0, hpar nd0, hch nd0, hcells nd0⟩
      rw [hz, set_node_get_self]
      rw [hz] at h
      rw [h]
      rfl
    · exact ⟨nd0, by rw [set_node_get_other ns q z f (fun h2 => hz h2.symm)]; exact h,
        rfl, rfl, rfl, rfl⟩
  have hparofs : ∀ z, parentOf (set_node ns q f) z = parentOf ns z := by
    intro z
    by_cases hz : z = q
    · unfold parentOf
      rw [hz, set_node_get_self]
      cases h0 : ns[q]? with
      | none => rfl
      | some nd0 => simp [hpar nd0]
    · unfold parentOf
      rw [set_node_get_other ns q z f (fun h2 => hz h2.symm)]
  refine ⟨?_, ?_, hI.root_live, ?_, ?_, ?_, ?_, ?_, ?_, ?_, ?_, ?_, ?_, ?_, ?_⟩
  · rw [hlen]; exact hI.root_lt
  · intro nd' h
    rcases hnode 0 nd' h with ⟨nd0, h0, hid0, hpar0, _, _⟩
    rcases hI.root_node nd0 h0 with ⟨ha, hb⟩
    exact ⟨by rw [hpar0, ha], by rw [hid0, hb]⟩
  · intro z hz
    rw [hlen]
    exact hI.live_lt z hz
  · intro z hz hz0 nd' h
    rcases hnode z nd' h with ⟨nd0, h0, _, hpar0, _, _⟩
    rcases hI.parent_live z hz hz0 nd0 h0 with ⟨p, hp, hpl⟩
    exact ⟨p, by rw [hpar0]; exact hp, hpl⟩
  · intro j nd' h p hp
    rcases hnode j nd' h with ⟨nd0, h0, _, hpar0, _, _⟩
    rw [hpar0] at hp
    exact hI.parent_dec j nd0 h0 p hp
  · intro z hz nd' h
    rcases hnode z nd' h with ⟨nd0, h0, _, _, hch0, _⟩
    rw [hch0]
    have hcc : childCount (set_node ns q f) live z = childCount ns live z :=
      childCount_congr hlen (fun w _ => hparofs w)
    rw [hcc]
    exact hI.counts z hz nd0 h0
  · intro z hz w hw hzw a ha b hb
    rcases hnode z a ha with ⟨a0, ha0, hida, _, _, _⟩
    rcases hnode w b hb with ⟨b0, hb0, hidb, _, _, _⟩
    rw [hida, hidb]
    exact hI.ids_distinct z hz w hw hzw a0 ha0 b0 hb0
  · intro z hz hz0 nd' h
    rcases hnode z nd' h with ⟨nd0, h0, hid0, _, _, _⟩
    rw [hid0]
    exact hI.id_nonzero z hz hz0 nd0 h0
  · intro z hz nd' h
    rcases hnode z nd' h with ⟨nd0, h0, hid0, _, _, _⟩
    rw [hid0]
    exact hI.ids_lt z hz nd0 h0
  · intro z hz1 hzG nd' h p hp
    rcases hnode z nd' h with ⟨nd0, h0, _, hpar0, hch0, _⟩
    rw [hpar0] at hp
    rw [hch0]
    exact hI.garbage_one z hz1 hzG nd0 h0 p hp
  · intro a b k hk
    rcases hI.owner a b k hk with ⟨j, hj, ndj, hndj, hidj, hmemj⟩
    rcases hback j ndj hndj with ⟨nd', h', hid', _, _, hcells'⟩
    exact ⟨j, hj, nd', h', by rw [hid']; exact hidj, by rw [hcells']; exact hmemj⟩
  · intro z hz nd' h c hc
    rcases hnode z nd' h with ⟨nd0, h0, hid0, _, _, hcells0⟩
    rw [hid0]
    rw [hcells0] at hc
    exact hI.cells_defined z hz nd0 h0 c hc
  · intro z hz nd' h
    rcases hnode z nd' h with ⟨nd0, h0, _, _, _, hcells0⟩
    rw [hcells0]
    exact hI.cells_nodup z hz nd0 h0
  · intro l hl a b j k hj hk hej hek
    have htr : ∀ w1 w2 : ℕ, IsAnc (set_node ns q f) w1 w2 → IsAnc ns w1 w2 :=
      fun w1 w2 hw => isAnc_congr (fun u => (hparofs u).symm) hw
    have hent : ∀ w : ℕ, entry_at (set_node ns q f) m a b w → entry_at ns m a b w := by
      rintro w ⟨ndw, hndw, hsw⟩
      rcases hnode w ndw hndw with ⟨nd0, h0, hid0, _, _, _⟩
      rw [hid0] at hsw
      exact ⟨nd0, h0, hsw⟩
    exact hI.uniq l hl a b j k (htr l j hj) (htr l k hk) (hent j hej) (hent k hek)

theorem slam_writer_eq (q : ℕ) (ns : List dp_node) (m : DPMap) (v : Bool) (x y : ℤ) :
    slam_writer q (ns, m) v x y =
      if dp_update_check ns m x y ns.length q then (ns, m)
      else
        match ns[q]? with
        | some nd => (add_cell ns q x y, map_update_by_id m v x y nd.id)
        | none => (ns, m) := by
  cases hchk : dp_update_check ns m x y ns.length q with
  | true => simp [slam_writer, dp_map_update, hchk]
  | false =>
    cases hq : ns[q]? with
    | none => simp [slam_writer, dp_map_update, hchk, hq]
    | some nd => simp [slam_writer, dp_map_update, hchk, hq]

/-- The interesting writer case: the first-writer-wins check failed, so
the write installs a fresh entry under the particle's id and records the
cell.  The invariant survives, the arena keeps its length, and every node
keeps its id, parent, child count, leaf flag and pose. -/
theorem inv_write_core {ns : List dp_node} {m : DPMap} {live : Finset ℕ} {nid : ℕ}
    (hI : Inv ns m live nid ∅) {q : ℕ} (hq : q ∈ live)
    (hch0 : childCount ns live q = 0) (v : Bool) (x y : ℤ) {nd : dp_node}
    (hndq : ns[q]? = some nd)
    (hchkf : dp_update_check ns m x y ns.length q = false) :
    Inv (add_cell ns q x y) (map_update_by_id m v x y nd.id) live nid ∅ ∧
    (add_cell ns q x y).length = ns.length ∧
    (∀ (j : ℕ) (nd0 : dp_node), ns[j]? = some nd0 →
      ∃ nd1 : dp_node, (add_cell ns q x y)[j]? = some nd1 ∧
        nd1.id = nd0.id ∧ nd1.parent = nd0.parent ∧ nd1.children = nd0.children ∧
        nd1.leaf = nd0.leaf ∧ nd1.location = nd0.location) := by
  have hdec := hI.parent_dec
  have hqlt : q < ns.length := hI.live_lt q hq
  have hnotent : ∀ k, IsAnc ns q k → ¬ entry_at ns m x y k :=
    fun k hk => check_false_no_entry hdec ns.length q hchkf (by omega) k hk
  have hqnone : m x y nd.id = none := by
    by_contra hne
    exact hnotent q (IsAnc.refl q) ⟨nd, hndq, Option.ne_none_iff_isSome.mp hne⟩
  have hlen : (add_cell ns q x y).length = ns.length := set_node_length ns q _
  have hgetq : (add_cell ns q x y)[q]?
      = some { nd with modified_cells := nd.modified_cells ++ [(x, y)] } := by
    show (set_node ns q _)[q]? = _
    rw [set_node_get_self, hndq]
    rfl
  have hgeto : ∀ j, j ≠ q → (add_cell ns q x y)[j]? = ns[j]? :=
    fun j hj => set_node_get_other ns q j _ (fun h => hj h.symm)
  have hparof : ∀ z, parentOf (add_cell ns q x y) z = parentOf ns z := by
    intro z
    by_cases hz : z = q
    · subst hz
      unfold parentOf
      rw [hgetq, hndq]
    · unfold parentOf
      rw [hgeto z hz]
  have hnode : ∀ (z : ℕ) (nd' : dp_node), (add_cell ns q x y)[z]? = some nd' →
      ∃ nd0 : dp_node, ns[z]? = some nd0 ∧ nd'.id = nd0.id ∧ nd'.parent = nd0.parent ∧
        nd'.children = nd0.children ∧ nd'.leaf = nd0.leaf ∧ nd'.location = nd0.location ∧
        (z ≠ q → nd'.modified_cells = nd0.modified_cells) ∧
        (z = q → nd0 = nd ∧ nd'.modified_cells = nd.modified_cells ++ [(x, y)]) := by
    intro z nd' h
    by_cases hz : z = q
    · subst hz
      rw [hgetq] at h
      have he := (Option.some.inj h).symm
      exact ⟨nd, hndq, by rw [he], by rw [he], by rw [he], by rw [he], by rw [he],
        fun hzq => absurd rfl hzq, fun _ => ⟨rfl, by rw [he]⟩⟩
    · rw [hgeto z hz] at h
      exact ⟨nd', h, rfl, rfl, rfl, rfl, rfl, fun _ => rfl, fun he => absurd he hz⟩
  have hback : ∀ (z : ℕ) (nd0 : dp_node), ns[z]? = some nd0 →
      ∃ nd1 : dp_node, (add_cell ns q x y)[z]? = some nd1 ∧ nd1.id = nd0.id ∧
        nd1.parent = nd0.parent ∧ nd1.children = nd0.children ∧
        nd1.leaf = nd0.leaf ∧ nd1.location = nd0.location ∧
        ∀ c ∈ nd0.modified_cells, c ∈ nd1.modified_cells := by
    intro z nd0 h
    by_cases hz : z = q
    · subst hz
      have he := Option.some.inj (h.symm.trans hndq)
      subst he
      exact ⟨_, hgetq, rfl, rfl, rfl, rfl, rfl,
        fun c hc => List.mem_append.mpr (Or.inl hc)⟩
    · exact ⟨nd0, by rw [hgeto z hz]; exact h, rfl, rfl, rfl, rfl, rfl, fun c hc => hc⟩
  have hm'key : map_update_by_id m v x y nd.id x y nd.id = some v := by
    rw [map_update_by_id_spec, if_pos ⟨rfl, rfl, rfl⟩]
  have hm'off : ∀ (a b : ℤ) (k : ℕ), ¬ (a = x ∧ b = y ∧ k = nd.id) →
      map_update_by_id m v x y nd.id a b k = m a b k := by
    intro a b k hk
    rw [map_update_by_id_spec, if_neg hk]
  have hmono : ∀ (a b : ℤ) (k : ℕ), (m a b k).isSome →
      (map_update_by_id m v x y nd.id a b k).isSome := by
    intro a b k hk
    by_cases hcond : a = x ∧ b = y ∧ k = nd.id
    · rw [map_update_by_id_spec, if_pos hcond]
      rfl
    · rw [hm'off a b k hcond]
      exact hk
  have hcc : ∀ z, childCount (add_cell ns q x y) live z = childCount ns live z :=
    fun z => childCount_congr hlen (fun w _ => hparof w)
  have hnochild : ∀ z ∈ live, ∀ nd2 : dp_node, ns[z]? = some nd2 →
      nd2.parent ≠ some q := by
    intro z hz nd2 h2 hp2
    exact childCount_zero_no_child hch0 z hz (hI.live_lt z hz)
      (parentOf_eq_some.mpr ⟨nd2, h2, hp2⟩)
  have havoid : ∀ {l w : ℕ}, IsAnc ns l w → l ∈ live → l ≠ q → w ≠ q :=
    fun hlw hl hlq => isAnc_ne_of_no_child hI.root_node hI.parent_live hnochild hlw hl hlq
  have hanc_to : ∀ {w1 w2 : ℕ}, IsAnc (add_cell ns q x y) w1 w2 → IsAnc ns w1 w2 :=
    fun h => isAnc_congr (fun u => (hparof u).symm) h
  refine ⟨⟨?_, ?_, hI.root_live, ?_, ?_, ?_, ?_, ?_, ?_, ?_, ?_, ?_, ?_, ?_, ?_⟩, hlen, ?_⟩
  · rw [hlen]
    exact hI.root_lt
  · intro nd' h
    rcases hnode 0 nd' h with ⟨nd0, h0, hid0, hpar0, _, _, _, _, _⟩
    rcases hI.root_node nd0 h0 with ⟨ha, hb⟩
    exact ⟨hpar0.trans ha, hid0.trans hb⟩
  · intro z hz
    rw [hlen]
    exact hI.live_lt z hz
  · intro z hz hz0 nd' h
    rcases hnode z nd' h with ⟨nd0, h0, _, hpar0, _, _, _, _, _⟩
    rcases hI.parent_live z hz hz0 nd0 h0 with ⟨p, hp, hpl⟩
    exact ⟨p, hpar0.trans hp, hpl⟩
  · intro j2 nd' h p hp
    rcases hnode j2 nd' h with ⟨nd0, h0, _, hpar0, _, _, _, _, _⟩
    rw [hpar0] at hp
    exact hI.parent_dec j2 nd0 h0 p hp
  · intro z hz nd' h
    rcases hnode z nd' h with ⟨nd0, h0, _, _, hchz, _, _, _, _⟩
    rw [hchz, hcc z]
    exact hI.counts z hz nd0 h0
  · intro z hz w hw hzw a2 ha b2 hb
    rcases hnode z a2 ha with ⟨a0, ha0, hida, _, _, _, _, _, _⟩
    rcases hnode w b2 hb with ⟨b0, hb0, hidb, _, _, _, _, _, _⟩
    rw [hida, hidb]
    exact hI.ids_distinct z hz w hw hzw a0 ha0 b0 hb0
  · intro z hz hz0 nd' h
    rcases hnode z nd' h with ⟨nd0, h0, hid0, _, _, _, _, _, _⟩
    rw [hid0]
    exact hI.id_nonzero z hz hz0 nd0 h0
  · intro z hz nd' h
    rcases hnode z nd' h with ⟨nd0, h0, hid0, _, _, _, _, _, _⟩
    rw [hid0]
    exact hI.ids_lt z hz nd0 h0
  · intro z hz1 hzG nd' h p hp
    rcases hnode z nd' h with ⟨nd0, h0, _, hpar0, hchz, _, _, _, _⟩
    rw [hpar0] at hp
    rw [hchz]
    exact hI.garbage_one z hz1 hzG nd0 h0 p hp
  · intro a b k hk
    by_cases hcond : a = x ∧ b = y ∧ k = nd.id
    · obtain ⟨rfl, rfl, rfl⟩ := hcond
      exact ⟨q, hq, _, hgetq, rfl, List.mem_append.mpr (Or.inr (List.mem_singleton.mpr rfl))⟩
    · rw [hm'off a b k hcond] at hk
      rcases hI.owner a b k hk with ⟨j, hj, ndj, hndj, hidj, hmemj⟩
      rcases hback j ndj hndj with ⟨nd1, h1, hid1, _, _, _, _, hsub1⟩
      exact ⟨j, hj, nd1, h1, hid1.trans hidj, hsub1 _ hmemj⟩
  · intro z hz nd' h c hc
    rcases hnode z nd' h with ⟨nd0, h0, hid0, _, _, _, _, hcne, hceq⟩
    by_cases hzq : z = q
    · rcases hceq hzq with ⟨he0, hcells⟩
      rw [hcells] at hc
      rw [hid0, he0]
      rcases List.mem_append.mp hc with hold | hnew
      · exact hmono _ _ _ (hI.cells_defined q hq nd hndq c hold)
      · have hceq2 : c = (x, y) := List.mem_singleton.mp hnew
        rw [hceq2]
        show (map_update_by_id m v x y nd.id x y nd.id).isSome
        rw [hm'key]
        rfl
    · rw [hid0]
      rw [hcne hzq] at hc
      exact hmono _ _ _ (hI.cells_defined z hz nd0 h0 c hc)
  · intro z hz nd' h
    rcases hnode z nd' h with ⟨nd0, h0, _, _, _, _, _, hcne, hceq⟩
    by_cases hzq : z = q
    · rcases hceq hzq with ⟨he0, hcells⟩
      rw [hcells]
      refine List.nodup_append.mpr ⟨hI.cells_nodup q hq nd hndq, List.nodup_singleton _, ?_⟩
      intro c hc1 hc2
      have hceq2 : c = (x, y) := List.mem_singleton.mp hc2
      rw [hceq2] at hc1
      have hdef : (m x y nd.id).isSome = true := hI.cells_defined q hq nd hndq (x, y) hc1
      rw [hqnone] at hdef
      simp at hdef
    · rw [hcne hzq]
      exact hI.cells_nodup z hz nd0 h0
  · intro l hl a b j k hj hk hej hek
    have hj' : IsAnc ns l j := hanc_to hj
    have hk' : IsAnc ns l k := hanc_to hk
    have hjl : j ∈ live := isAnc_live hI.root_node hI.parent_live hj' hl
    have hkl : k ∈ live := isAnc_live hI.root_node hI.parent_live hk' hl
    have hent : ∀ w ∈ live,
        entry_at (add_cell ns q x y) (map_update_by_id m v x y nd.id) a b w →
        (w = q ∧ a = x ∧ b = y) ∨ entry_at ns m a b w := by
      intro w hw hew
      rcases hew with ⟨ndw, hndw, hsw⟩
      rcases hnode w ndw hndw with ⟨nd0, h0, hid0, _, _, _, _, _, _⟩
      simp only [map_lookup_by_id] at hsw
      rw [hid0] at hsw
      by_cases hcond : a = x ∧ b = y ∧ nd0.id = nd.id
      · by_cases hwq : w = q
        · exact Or.inl ⟨hwq, hcond.1, hcond.2.1⟩
        · exact absurd hcond.2.2 (hI.ids_distinct w hw q hq hwq nd0 h0 nd hndq)
      · rw [hm'off a b nd0.id hcond] at hsw
        exact Or.inr ⟨nd0, h0, hsw⟩
    rcases hent j hjl hej with hje | hje
    · rcases hent k hkl hek with hke | hke
      · rw [hje.1, hke.1]
      · exfalso
        have hlq : l = q := by
          by_contra hne
          exact havoid hj' hl hne hje.1
        rw [hlq] at hk'
        apply hnotent k hk'
        rw [hje.2.1, hje.2.2] at hke
        exact hke
    · rcases hent k hkl hek with hke | hke
      · exfalso
        have hlq : l = q := by
          by_contra hne
          exact havoid hk' hl hne hke.1
        rw [hlq] at hj'
        apply hnotent j hj'
        rw [hke.2.1, hke.2.2] at hje
        exact hje
      · exact hI.uniq l hl a b j k hj' hk' hje hke
  · intro j nd0 h
    rcases hback j nd0 h with ⟨nd1, h1, hid1, hpar1, hch1, hlf1, hloc1, _⟩
    exact ⟨nd1, h1, hid1, hpar1, hch1, hlf1, hloc1⟩

/-- One writer call for a live, childless particle preserves the
invariant; the arena keeps its length and every node keeps its id,
parent, child count, leaf flag and pose. -/
theorem inv_write_step {ns : List dp_node} {m : DPMap} {live : Finset ℕ} {nid : ℕ}
    (hI : Inv ns m live nid ∅) {q : ℕ} (hq : q ∈ live)
    (hch0 : childCount ns live q = 0) (v : Bool) (x y : ℤ) :
    Inv (slam_writer q (ns, m) v x y).1 (slam_writer q (ns, m) v x y).2 live nid ∅ ∧
    (slam_writer q (ns, m) v x y).1.length = ns.length ∧
    (∀ (j : ℕ) (nd0 : dp_node), ns[j]? = some nd0 →
      ∃ nd1 : dp_node, (slam_writer q (ns, m) v x y).1[j]? = some nd1 ∧
        nd1.id = nd0.id ∧ nd1.parent = nd0.parent ∧ nd1.children = nd0.children ∧
        nd1.leaf = nd0.leaf ∧ nd1.location = nd0.location) := by
  rw [slam_writer_eq]
  cases hchk : dp_update_check ns m x y ns.length q with
  | true =>
    rw [if_pos rfl]
    exact ⟨hI, rfl, fun j nd0 h => ⟨nd0, h, rfl, rfl, rfl, rfl, rfl⟩⟩
  | false =>
    rw [if_neg Bool.false_ne_true]
    cases hndq : ns[q]? with
    | none => exact ⟨hI, rfl, fun j nd0 h => ⟨nd0, h, rfl, rfl, rfl, rfl, rfl⟩⟩
    | some nd => exact inv_write_core hI hq hch0 v x y hndq hchk

/-! ### Invariant preservation for node allocation -/

theorem alloc_node_length (ns : List dp_node) (id2 : ℕ) (loc : location_t) (ps : ℕ) :
    (alloc_node ns id2 loc (some ps)).length = ns.length + 1 := by
  unfold alloc_node
  simp [set_node_length]

theorem alloc_node_get_new (ns : List dp_node) (id2 : ℕ) (loc : location_t) (ps : ℕ) :
    (alloc_node ns id2 loc (some ps))[ns.length]?
      = some { id := id2, location := loc, parent := some ps, leaf := false,
               children := 0, modified_cells := [] } := by
  show ((set_node ns ps _) ++ [_])[ns.length]? = _
  rw [List.getElem?_append_right (le_of_eq (set_node_length ns ps _))]
  rw [set_node_length]
  simp

theorem alloc_node_get_old (ns : List dp_node) (id2 : ℕ) (loc : location_t) (ps j : ℕ)
    (hj : j < ns.length) (hne : j ≠ ps) :
    (alloc_node ns id2 loc (some ps))[j]? = ns[j]? := by
  show ((set_node ns ps _) ++ [_])[j]? = _
  rw [List.getElem?_append_left (by rw [set_node_length]; exact hj)]
  exact set_node_get_other ns ps j _ (fun h => hne h.symm)

theorem alloc_node_get_parent (ns : List dp_node) {ps : ℕ} {pn : dp_node}
    (hpn : ns[ps]? = some pn) (id2 : ℕ) (loc : location_t) :
    (alloc_node ns id2 loc (some ps))[ps]?
      = some { pn with leaf := false, children := pn.children + 1 } := by
  have hlt : ps < ns.length := getElem?_some_lt hpn
  show ((set_node ns ps _) ++ [_])[ps]? = _
  rw [List.getElem?_append_left (by rw [set_node_length]; exact hlt)]
  rw [set_node_get_self, hpn]
  rfl

theorem childCount_zero_of_ge {ns : List dp_node} {live : Finset ℕ}
    (hdec : ∀ (j : ℕ) (nd : dp_node), ns[j]? = some nd → ∀ p, nd.parent = some p → p < j)
    {z : ℕ} (hz : ns.length ≤ z) : childCount ns live z = 0 := by
  unfold childCount
  rw [Finset.card_eq_zero, Finset.filter_eq_empty_iff]
  rintro j hj ⟨_, hjp⟩
  rcases parentOf_eq_some.mp hjp with ⟨nd, hnd, hp⟩
  have h1 := hdec j nd hnd z hp
  have h2 := Finset.mem_range.mp hj
  omega

theorem childCount_alloc {ns : List dp_node} {live : Finset ℕ}
    (hdec : ∀ (j : ℕ) (nd : dp_node), ns[j]? = some nd → ∀ p, nd.parent = some p → p < j)
    {ps : ℕ} {pn : dp_node} (hpn : ns[ps]? = some pn) (id2 : ℕ) (loc : location_t) (z : ℕ) :
    childCount (alloc_node ns id2 loc (some ps)) (insert ns.length live) z
      = childCount ns live z + (if z = ps then 1 else 0) := by
  have hparof : ∀ j, j < ns.length →
      parentOf (alloc_node ns id2 loc (some ps)) j = parentOf ns j := by
    intro j hj
    by_cases hjp : j = ps
    · subst hjp
      unfold parentOf
      rw [alloc_node_get_parent ns hpn, hpn]
    · unfold parentOf
      rw [alloc_node_get_old ns id2 loc ps j hj hjp]
  have hparnew : parentOf (alloc_node ns id2 loc (some ps)) ns.length = some ps := by
    unfold parentOf
    rw [alloc_node_get_new]
  unfold childCount
  rw [alloc_node_length, Finset.range_succ, Finset.filter_insert]
  have hfe : (Finset.range ns.length).filter
        (fun j => j ∈ insert ns.length live ∧
          parentOf (alloc_node ns id2 loc (some ps)) j = some z)
      = (Finset.range ns.length).filter (fun j => j ∈ live ∧ parentOf ns j = some z) := by
    apply Finset.filter_congr
    intro j hj
    have hjlt := Finset.mem_range.mp hj
    rw [hparof j hjlt]
    have hmem : (j ∈ insert ns.length live) = (j ∈ live) := by
      apply propext
      constructor
      · intro h
        rcases Finset.mem_insert.mp h with h | h
        · omega
        · exact h
      · exact Finset.mem_insert_of_mem
    rw [hmem]
  rw [hfe]
  by_cases hz : z = ps
  · have hcond : ns.length ∈ insert ns.length live ∧
        parentOf (alloc_node ns id2 loc (some ps)) ns.length = some z :=
      ⟨Finset.mem_insert_self _ _, by rw [hparnew, hz]⟩
    rw [if_pos hcond, if_pos hz]
    rw [Finset.card_insert_of_not_mem]
    intro hmem
    have := Finset.mem_range.mp (Finset.mem_of_mem_filter _ hmem)
    omega
  · have hcond : ¬ (ns.length ∈ insert ns.length live ∧
        parentOf (alloc_node ns id2 loc (some ps)) ns.length = some z) := by
      rintro ⟨_, hp2⟩
      exact hz (Option.some.inj (hparnew.symm.trans hp2)).symm
    rw [if_neg hcond, if_neg hz]
    omega

/-- Attaching a fresh node to a live parent preserves the invariant with
the new slot added to the live set and the id counter advanced. -/
theorem inv_alloc_step {ns : List dp_node} {m : DPMap} {live : Finset ℕ} {nid : ℕ}
    (hI : Inv ns m live nid ∅) {ps : ℕ} (hps : ps ∈ live) (loc : location_t) :
    Inv (alloc_node ns nid loc (some ps)) m (insert ns.length live) (nid + 1) ∅ := by
  have hpslt : ps < ns.length := hI.live_lt ps hps
  have hpn0 : ns[ps]? = some ns[ps] := List.getElem?_eq_getElem hpslt
  set pn := ns[ps] with hpndef
  have hdec := hI.parent_dec
  have hnid0 : 0 < nid := by
    have h0 : ns[0]? = some ns[0] := List.getElem?_eq_getElem hI.root_lt
    have := hI.ids_lt 0 hI.root_live _ h0
    omega
  have hnode : ∀ (z : ℕ) (nd' : dp_node), (alloc_node ns nid loc (some ps))[z]? = some nd' →
      (z = ns.length ∧ nd' = { id := nid, location := loc, parent := some ps, leaf := false, children := 0, modified_cells := [] }) ∨
      (z < ns.length ∧ ∃ nd0 : dp_node, ns[z]? = some nd0 ∧ nd'.id = nd0.id ∧
        nd'.parent = nd0.parent ∧ nd'.modified_cells = nd0.modified_cells ∧
        nd'.location = nd0.location ∧
        ((z = ps ∧ nd'.children = nd0.children + 1 ∧ nd'.leaf = false) ∨
         (z ≠ ps ∧ nd'.children = nd0.children ∧ nd'.leaf = nd0.leaf))) := by
    intro z nd' h
    have hzlt : z < ns.length + 1 := by
      have := getElem?_some_lt h
      rw [alloc_node_length] at this
      exact this
    by_cases hzL : z = ns.length
    · subst hzL
      rw [alloc_node_get_new] at h
      exact Or.inl ⟨rfl, (Option.some.inj h).symm⟩
    · have hzlt2 : z < ns.length := by omega
      by_cases hzp : z = ps
      · subst hzp
        rw [alloc_node_get_parent ns hpn0] at h
        have he := (Option.some.inj h).symm
        refine Or.inr ⟨hzlt2, pn, hpn0, by rw [he], by rw [he], by rw [he], by rw [he],
          Or.inl ⟨rfl, by rw [he], by rw [he]⟩⟩
      · rw [alloc_node_get_old ns nid loc ps z hzlt2 hzp] at h
        exact Or.inr ⟨hzlt2, nd', h, rfl, rfl, rfl, rfl, Or.inr ⟨hzp, rfl, rfl⟩⟩
  have hback : ∀ (z : ℕ) (nd0 : dp_node), ns[z]? = some nd0 →
      ∃ nd1 : dp_node, (alloc_node ns nid loc (some ps))[z]? = some nd1 ∧
        nd1.id = nd0.id ∧ nd1.parent = nd0.parent ∧
        nd1.modified_cells = nd0.modified_cells ∧ nd1.location = nd0.location := by
    intro z nd0 h
    have hzlt : z < ns.length := getElem?_some_lt h
    by_cases hzp : z = ps
    · subst hzp
      have he := Option.some.inj (h.symm.trans hpn0)
      subst he
      exact ⟨_, alloc_node_get_parent ns hpn0 nid loc, rfl, rfl, rfl, rfl⟩
    · exact ⟨nd0, by rw [alloc_node_get_old ns nid loc ps z hzlt hzp]; exact h,
        rfl, rfl, rfl, rfl⟩
  have hanc_old : ∀ {l j : ℕ}, IsAnc (alloc_node ns nid loc (some ps)) l j →
      l < ns.length → IsAnc ns l j := by
    intro l j h
    induction h with
    | refl => intro _; exact IsAnc.refl _
    | @step a b p nd hnd hp hanc ih =>
      intro ha
      rcases hnode a nd hnd with ⟨haL, _⟩ | ⟨_, nd0, h0, _, hpar0, _, _, _⟩
      · omega
      · rw [hpar0] at hp
        have hplt := hI.parent_dec a nd0 h0 p hp
        exact IsAnc.step h0 hp (ih (by omega))
  have hanc_new : ∀ {j : ℕ}, IsAnc (alloc_node ns nid loc (some ps)) ns.length j →
      j = ns.length ∨ IsAnc (alloc_node ns nid loc (some ps)) ps j := by
    intro j h
    cases h with
    | refl => exact Or.inl rfl
    | @step _ _ p nd hnd hp hanc =>
      rw [alloc_node_get_new] at hnd
      have he := (Option.some.inj hnd).symm
      rw [he] at hp
      have hpp : p = ps := Option.some.inj hp.symm
      rw [hpp] at hanc
      exact Or.inr hanc
  have hent_to : ∀ (x y : ℤ) (w : ℕ), w < ns.length →
      entry_at (alloc_node ns nid loc (some ps)) m x y w → entry_at ns m x y w := by
    rintro x y w hw ⟨ndw, hndw, hsw⟩
    rcases hnode w ndw hndw with ⟨hwL, _⟩ | ⟨_, nd0, h0, hid0, _, _, _, _⟩
    · omega
    · rw [hid0] at hsw
      exact ⟨nd0, h0, hsw⟩
  have hent_new : ∀ (x y : ℤ),
      ¬ entry_at (alloc_node ns nid loc (some ps)) m x y ns.length := by
    rintro x y ⟨ndw, hndw, hsw⟩
    rw [alloc_node_get_new] at hndw
    have he := (Option.some.inj hndw).symm
    rw [he] at hsw
    rcases hI.owner x y nid hsw with ⟨j, hj, ndj, hndj, hidj, _⟩
    have := hI.ids_lt j hj ndj hndj
    omega
  refine ⟨?_, ?_, Finset.mem_insert_of_mem hI.root_live, ?_, ?_, ?_, ?_, ?_, ?_, ?_, ?_,
    ?_, ?_, ?_, ?_⟩
  · rw [alloc_node_length]
    omega
  · intro nd' h
    have h0L : (0 : ℕ) ≠ ns.length := by
      have := hI.root_lt
      omega
    rcases hnode 0 nd' h with ⟨haL, _⟩ | ⟨_, nd0, h0, hid0, hpar0, _, _, _⟩
    · exact absurd haL h0L
    · rcases hI.root_node nd0 h0 with ⟨ha, hb⟩
      exact ⟨hpar0.trans ha, hid0.trans hb⟩
  · intro i hi
    rw [alloc_node_length]
    rcases Finset.mem_insert.mp hi with h | h
    · omega
    · have := hI.live_lt i h
      omega
  · intro i hi hi0 nd' h
    rcases Finset.mem_insert.mp hi with hiL | hil
    · subst hiL
      rw [alloc_node_get_new] at h
      have he := (Option.some.inj h).symm
      exact ⟨ps, by rw [he], Finset.mem_insert_of_mem hps⟩
    · rcases hnode i nd' h with ⟨hiL, _⟩ | ⟨hilt, nd0, h0, _, hpar0, _, _, _⟩
      · have := hI.live_lt i hil
        omega
      · rcases hI.parent_live i hil hi0 nd0 h0 with ⟨p, hp, hpl⟩
        exact ⟨p, hpar0.trans hp, Finset.mem_insert_of_mem hpl⟩
  · intro j nd' h p hp
    rcases hnode j nd' h with ⟨hjL, he⟩ | ⟨_, nd0, h0, _, hpar0, _, _, _⟩
    · rw [he] at hp
      have hpp : p = ps := Option.some.inj hp.symm
      subst hjL
      omega
    · rw [hpar0] at hp
      exact hI.parent_dec j nd0 h0 p hp
  · intro i hi nd' h
    rw [childCount_alloc hdec hpn0]
    rcases Finset.mem_insert.mp hi with hiL | hil
    · subst hiL
      rw [alloc_node_get_new] at h
      have he := (Option.some.inj h).symm
      have hzero : childCount ns live ns.length = 0 := childCount_zero_of_ge hdec le_rfl
      have hne : ns.length ≠ ps := by omega
      rw [he, hzero, if_neg hne]
      rfl
    · rcases hnode i nd' h with ⟨hiL, _⟩ | ⟨hilt, nd0, h0, _, _, _, _, hch⟩
      · have := hI.live_lt i hil
        omega
      · have hcount := hI.counts i hil nd0 h0
        rcases hch with ⟨hip, hch1, _⟩ | ⟨hip, hch1, _⟩
        · rw [if_pos hip, hch1, hcount]
          push_cast
          ring
        · rw [if_neg hip, hch1, hcount]
          push_cast
          ring
  · intro i hi j hj hij a2 ha b2 hb
    rcases hnode i a2 ha with ⟨hiL, hea⟩ | ⟨hilt, a0, ha0, hida, _, _, _, _⟩ <;>
      rcases hnode j b2 hb with ⟨hjL, heb⟩ | ⟨hjlt, b0, hb0, hidb, _, _, _, _⟩
    · exact absurd (hiL.trans hjL.symm) hij
    · have hjl2 : j ∈ live := by
        rcases Finset.mem_insert.mp hj with h | h
        · omega
        · exact h
      have := hI.ids_lt j hjl2 b0 hb0
      rw [hea, hidb]
      show nid ≠ b0.id
      omega
    · have hil2 : i ∈ live := by
        rcases Finset.mem_insert.mp hi with h | h
        · omega
        · exact h
      have := hI.ids_lt i hil2 a0 ha0
      rw [heb, hida]
      show a0.id ≠ nid
      omega
    · have hil2 : i ∈ live := by
        rcases Finset.mem_insert.mp hi with h | h
        · omega
        · exact h
      have hjl2 : j ∈ live := by
        rcases Finset.mem_insert.mp hj with h | h
        · omega
        · exact h
      rw [hida, hidb]
      exact hI.ids_distinct i hil2 j hjl2 hij a0 ha0 b0 hb0
  · intro i hi hi0 nd' h
    rcases hnode i nd' h with ⟨hiL, he⟩ | ⟨hilt, nd0, h0, hid0, _, _, _, _⟩
    · rw [he]
      show nid ≠ 0
      omega
    · have hil2 : i ∈ live := by
        rcases Finset.mem_insert.mp hi with h2 | h2
        · omega
        · exact h2
      rw [hid0]
      exact hI.id_nonzero i hil2 hi0 nd0 h0
  · intro i hi nd' h
    rcases hnode i nd' h with ⟨hiL, he⟩ | ⟨hilt, nd0, h0, hid0, _, _, _, _⟩
    · rw [he]
      show nid < nid + 1
      omega
    · have hil2 : i ∈ live := by
        rcases Finset.mem_insert.mp hi with h2 | h2
        · omega
        · exact h2
      rw [hid0]
      have := hI.ids_lt i hil2 nd0 h0
      omega
  · intro i hi1 hiG nd' h p hp
    have hinl : i ∉ live := fun h2 => hi1 (Finset.mem_insert_of_mem h2)
    have hinL : i ≠ ns.length := fun h2 => hi1 (h2 ▸ Finset.mem_insert_self _ _)
    rcases hnode i nd' h with ⟨hiL, _⟩ | ⟨hilt, nd0, h0, _, hpar0, _, _, hch⟩
    · exact absurd hiL hinL
    · rw [hpar0] at hp
      rcases hch with ⟨hip, _, _⟩ | ⟨_, hch1, _⟩
      · exact absurd hps (hip ▸ hinl)
      · rw [hch1]
        exact hI.garbage_one i hinl hiG nd0 h0 p hp
  · intro x y k hk
    rcases hI.owner x y k hk with ⟨j, hj, ndj, hndj, hidj, hmemj⟩
    rcases hback j ndj hndj with ⟨nd1, h1, hid1, _, hcells1, _⟩
    exact ⟨j, Finset.mem_insert_of_mem hj, nd1, h1, hid1.trans hidj,
      by rw [hcells1]; exact hmemj⟩
  · intro i hi nd' h c hc
    rcases hnode i nd' h with ⟨hiL, he⟩ | ⟨hilt, nd0, h0, hid0, _, hcells0, _, _⟩
    · rw [he] at hc
      cases hc
    · have hil2 : i ∈ live := by
        rcases Finset.mem_insert.mp hi with h2 | h2
        · omega
        · exact h2
      rw [hid0]
      rw [hcells0] at hc
      exact hI.cells_defined i hil2 nd0 h0 c hc
  · intro i hi nd' h
    rcases hnode i nd' h with ⟨hiL, he⟩ | ⟨hilt, nd0, h0, _, _, hcells0, _, _⟩
    · rw [he]
      exact List.nodup_nil
    · have hil2 : i ∈ live := by
        rcases Finset.mem_insert.mp hi with h2 | h2
        · omega
        · exact h2
      rw [hcells0]
      exact hI.cells_nodup i hil2 nd0 h0
  · intro l hl x y j k hj hk hej hek
    have hjk_of_old : ∀ l2 ∈ live, ∀ j2 k2,
        IsAnc (alloc_node ns nid loc (some ps)) l2 j2 →
        IsAnc (alloc_node ns nid loc (some ps)) l2 k2 →
        entry_at (alloc_node ns nid loc (some ps)) m x y j2 →
        entry_at (alloc_node ns nid loc (some ps)) m x y k2 → j2 = k2 := by
      intro l2 hl2 j2 k2 hj2 hk2 hej2 hek2
      have hllt : l2 < ns.length := hI.live_lt l2 hl2
      have hj2' : IsAnc ns l2 j2 := hanc_old hj2 hllt
      have hk2' : IsAnc ns l2 k2 := hanc_old hk2 hllt
      have hjlt : j2 ≤ l2 := isAnc_le hI.parent_dec hj2'
      have hklt : k2 ≤ l2 := isAnc_le hI.parent_dec hk2'
      exact hI.uniq l2 hl2 x y j2 k2 hj2' hk2'
        (hent_to x y j2 (by omega) hej2) (hent_to x y k2 (by omega) hek2)
    rcases Finset.mem_insert.mp hl with hlL | hll
    · subst hlL
      rcases hanc_new hj with hjL | hj2
      · exact absurd (hjL ▸ hej) (hent_new x y)
      · rcases hanc_new hk with hkL | hk2
        · exact absurd (hkL ▸ hek) (hent_new x y)
        · exact hjk_of_old ps hps j k hj2 hk2 hej hek
    · exact hjk_of_old l hll j k hj hk hej hek

/-- The prediction loop: one fresh child per current particle.  The
invariant is preserved with the fresh slots added to the live set; the
emitted index list is fresh, duplicate-free, and its nodes are childless
unmarked non-leaves; old slots keep their id, parent, cells and pose, and
slots outside the processed list keep their child count and leaf flag. -/
theorem predict_fold_spec (O : Oracle) (cfg : slam_config) (control : control_t) :
    ∀ (ps : List ℕ) (ns : List dp_node) (m : DPMap) (live : Finset ℕ)
      (nid rng : ℕ) (out : List ℕ),
      Inv ns m live nid ∅ →
      (∀ q ∈ ps, q ∈ live) →
      ∃ (ns' : List dp_node) (nid' rng' : ℕ) (new2 : List ℕ) (live' : Finset ℕ),
        predict_fold O cfg control ps (ns, nid, rng, out) = (ns', nid', rng', out ++ new2) ∧
        Inv ns' m live' nid' ∅ ∧
        live ⊆ live' ∧
        (∀ i2 ∈ live', i2 ∈ live ∨ i2 ∈ new2) ∧
        ns'.length = ns.length + ps.length ∧
        new2.length = ps.length ∧
        new2.Nodup ∧
        (∀ q ∈ new2, q ∈ live' ∧ ns.length ≤ q ∧
          ∃ nd : dp_node, ns'[q]? = some nd ∧ nd.children = 0 ∧ nd.leaf = false ∧
            nd.modified_cells = [] ∧ ∃ p', nd.parent = some p') ∧
        (∀ (j : ℕ) (nd0 : dp_node), ns[j]? = some nd0 → ∃ nd1 : dp_node,
          ns'[j]? = some nd1 ∧ nd1.id = nd0.id ∧ nd1.parent = nd0.parent ∧
          nd1.modified_cells = nd0.modified_cells ∧ nd1.location = nd0.location ∧
          nd0.children ≤ nd1.children ∧ (nd1.leaf = nd0.leaf ∨ nd0.children < nd1.children) ∧
          (j ∉ ps → nd1.children = nd0.children ∧ nd1.leaf = nd0.leaf)) := by
  intro ps
  induction ps with
  | nil =>
    intro ns m live nid rng out hI _
    exact ⟨ns, nid, rng, [], live, by simp [predict_fold], hI, Finset.Subset.refl live,
      fun i2 hi2 => Or.inl hi2,
      by simp, rfl, List.nodup_nil, fun q hq => absurd hq (List.not_mem_nil q),
      fun j nd0 h => ⟨nd0, h, rfl, rfl, rfl, rfl, le_refl _, Or.inl rfl,
        fun _ => ⟨rfl, rfl⟩⟩⟩
  | cons pidx rest ih =>
    intro ns m live nid rng out hI hps
    have hpidx : pidx ∈ live := hps pidx (List.mem_cons_self pidx rest)
    have hrest : ∀ q ∈ rest, q ∈ insert ns.length live :=
      fun q hq => Finset.mem_insert_of_mem (hps q (List.mem_cons_of_mem pidx hq))
    have hrestlt : ∀ q ∈ rest, q < ns.length :=
      fun q hq => hI.live_lt q (hps q (List.mem_cons_of_mem pidx hq))
    have hLnotrest : ns.length ∉ rest := fun h => by
      have := hrestlt _ h
      omega
    set sloc := cfg.motion.sample O rng control ((ns.getD pidx default).location) with hsloc
    have hI2 : Inv (alloc_node ns nid sloc.1 (some pidx)) m (insert ns.length live)
        (nid + 1) ∅ := inv_alloc_step hI hpidx sloc.1
    rcases ih (alloc_node ns nid sloc.1 (some pidx)) m (insert ns.length live)
        (nid + 1) sloc.2 (out ++ [ns.length]) hI2 hrest with
      ⟨ns', nid', rng', new2, live', heq, hI', hsub, hchar, hlen, hnlen, hnodup, hnew, htr⟩
    refine ⟨ns', nid', rng', ns.length :: new2, live', ?_, hI', ?_, ?_, ?_, ?_, ?_, ?_, ?_⟩
    · show predict_fold O cfg control rest
        (alloc_node ns nid sloc.1 (some pidx), nid + 1, sloc.2, out ++ [ns.length])
        = (ns', nid', rng', out ++ ns.length :: new2)
      rw [heq]
      simp
    · exact (Finset.subset_insert _ _).trans hsub
    · intro i2 hi2
      rcases hchar i2 hi2 with h2 | h2
      · rcases Finset.mem_insert.mp h2 with h3 | h3
        · exact Or.inr (h3 ▸ List.mem_cons_self ns.length new2)
        · exact Or.inl h3
      · exact Or.inr (List.mem_cons_of_mem _ h2)
    · rw [hlen, alloc_node_length]
      simp only [List.length_cons]
      omega
    · simp only [List.length_cons, hnlen]
    · refine List.nodup_cons.mpr ⟨?_, hnodup⟩
      intro hmem
      rcases hnew _ hmem with ⟨_, hge, _⟩
      rw [alloc_node_length] at hge
      omega
    · intro q hq
      rcases List.mem_cons.mp hq with hqL | hq2
      · subst hqL
        refine ⟨hsub (Finset.mem_insert_self _ _), le_rfl, ?_⟩
        rcases htr ns.length _ (alloc_node_get_new ns nid sloc.1 pidx) with
          ⟨nd1, h1, _, hpar1, hcells1, _, _, _, hexact⟩
        rcases hexact hLnotrest with ⟨hch1, hlf1⟩
        exact ⟨nd1, h1, hch1, hlf1, hcells1, pidx, hpar1⟩
      · rcases hnew q hq2 with ⟨hql, hqge, nd, hnd, hch, hlf, hcells, hp⟩
        refine ⟨hql, ?_, nd, hnd, hch, hlf, hcells, hp⟩
        rw [alloc_node_length] at hqge
        omega
    · intro j nd0 h
      by_cases hjp : j = pidx
      · subst hjp
        have h2 := alloc_node_get_parent ns h nid sloc.1
        rcases htr j _ h2 with ⟨nd1, h1, hid1, hpar1, hcells1, hloc1, hmono, _, _⟩
        have hmono2 : nd0.children + 1 ≤ nd1.children := hmono
        refine ⟨nd1, h1, hid1, hpar1, hcells1, hloc1, by omega, Or.inr (by omega), ?_⟩
        intro hnotin
        exact absurd (List.mem_cons_self j rest) hnotin
      · have hjlt : j < ns.length := getElem?_some_lt h
        have h2 : (alloc_node ns nid sloc.1 (some pidx))[j]? = some nd0 := by
          rw [alloc_node_get_old ns nid sloc.1 pidx j hjlt hjp]
          exact h
        rcases htr j nd0 h2 with ⟨nd1, h1, hid1, hpar1, hcells1, hloc1, hmono, hor, hexact⟩
        refine ⟨nd1, h1, hid1, hpar1, hcells1, hloc1, hmono, hor, ?_⟩
        intro hnotin
        exact hexact (fun hmem => hnotin (List.mem_cons_of_mem pidx hmem))

/-! ### Leaf marking -/

theorem mark_leaves_cons (ns : List dp_node) (i : ℕ) (rest : List ℕ) :
    mark_leaves ns (i :: rest)
      = mark_leaves (set_node ns i (fun nd => { nd with leaf := true })) rest := rfl

theorem inv_mark_leaves {live : Finset ℕ} {nid : ℕ} :
    ∀ (idxs : List ℕ) {ns : List dp_node} {m : DPMap}, Inv ns m live nid ∅ →
      Inv (mark_leaves ns idxs) m live nid ∅ := by
  intro idxs
  induction idxs with
  | nil => intro ns m hI; exact hI
  | cons i rest ih =>
    intro ns m hI
    rw [mark_leaves_cons]
    exact ih (inv_set_irrelevant hI i _ (fun nd => rfl) (fun nd => rfl) (fun nd => rfl)
      (fun nd => rfl))

theorem mark_leaves_length : ∀ (idxs : List ℕ) (ns : List dp_node),
    (mark_leaves ns idxs).length = ns.length := by
  intro idxs
  induction idxs with
  | nil => intro ns; rfl
  | cons i rest ih =>
    intro ns
    rw [mark_leaves_cons, ih, set_node_length]

/-- Marking leaves changes at most the leaf flags, monotonically. -/
theorem mark_leaves_fields : ∀ (idxs : List ℕ) (ns : List dp_node) (j : ℕ) (nd0 : dp_node),
    ns[j]? = some nd0 → ∃ nd1 : dp_node, (mark_leaves ns idxs)[j]? = some nd1 ∧
      nd1.id = nd0.id ∧ nd1.parent = nd0.parent ∧ nd1.children = nd0.children ∧
      nd1.modified_cells = nd0.modified_cells ∧ nd1.location = nd0.location ∧
      (nd1.leaf = nd0.leaf ∨ nd1.leaf = true) := by
  intro idxs
  induction idxs with
  | nil => intro ns j nd0 h; exact ⟨nd0, h, rfl, rfl, rfl, rfl, rfl, Or.inl rfl⟩
  | cons i rest ih =>
    intro ns j nd0 h
    rw [mark_leaves_cons]
    by_cases hj : j = i
    · subst hj
      have h2 : (set_node ns j (fun nd => { nd with leaf := true }))[j]?
          = some { nd0 with leaf := true } := by
        rw [set_node_get_self, h]
        rfl
      rcases ih _ j _ h2 with ⟨nd1, h1, ha, hb, hc, hd, he, hf⟩
      refine ⟨nd1, h1, ha, hb, hc, hd, he, ?_⟩
      rcases hf with hf | hf
      · exact Or.inr hf
      · exact Or.inr hf
    · have h2 : (set_node ns i (fun nd => { nd with leaf := true }))[j]? = some nd0 := by
        rw [set_node_get_other ns i j _ (fun he => hj he.symm)]
        exact h
      exact ih _ j nd0 h2

theorem mark_leaves_not_mem : ∀ (idxs : List ℕ) (ns : List dp_node) (j : ℕ),
    j ∉ idxs → (mark_leaves ns idxs)[j]? = ns[j]? := by
  intro idxs
  induction idxs with
  | nil => intro ns j _; rfl
  | cons i rest ih =>
    intro ns j hj
    rw [mark_leaves_cons]
    rw [ih _ j (fun h => hj (List.mem_cons_of_mem i h))]
    exact set_node_get_other ns i j _ (fun h => hj (h ▸ List.mem_cons_self i rest))

theorem mark_leaves_marked : ∀ (idxs : List ℕ) (ns : List dp_node), ∀ j ∈ idxs,
    ∀ nd' : dp_node, (mark_leaves ns idxs)[j]? = some nd' → nd'.leaf = true := by
  intro idxs
  induction idxs with
  | nil => intro ns j hj; exact absurd hj (List.not_mem_nil j)
  | cons i rest ih =>
    intro ns j hj nd' h
    rw [mark_leaves_cons] at h
    by_cases hjr : j ∈ rest
    · exact ih _ j hjr nd' h
    · have hji : j = i := by
        rcases List.mem_cons.mp hj with h2 | h2
        · exact h2
        · exact absurd h2 hjr
      subst hji
      rw [mark_leaves_not_mem rest _ j hjr, set_node_get_self] at h
      cases h0 : ns[j]? with
      | none =>
        rw [h0] at h
        cases h
      | some nd0 =>
        rw [h0] at h
        have he := (Option.some.inj h).symm
        rw [he]

/-! ### The trim loops of the driver -/

/-- Trimming every listed node in order, on a state where the listed
nodes are live, non-root, childless and attached: the loop succeeds, the
invariant is preserved on a shrunken live set, leaf flags and poses are
untouched, every remaining live dead end is a child of the root, and
every live childless marked leaf survives with its slot childless and
marked. -/
theorem trim_list_spec :
    ∀ (rest : List ℕ) (ns : List dp_node) (m : DPMap) (live : Finset ℕ) (nid : ℕ),
      rest.Nodup →
      Inv ns m live nid ∅ →
      (∀ q ∈ rest, q ∈ live ∧ q ≠ 0 ∧
        ∃ nd : dp_node, ns[q]? = some nd ∧ nd.children = 0 ∧ ∃ pq, nd.parent = some pq) →
      (∀ i ∈ live, i ≠ 0 → ∀ nd : dp_node, ns[i]? = some nd → nd.leaf = false →
        nd.children = 0 → nd.parent = some 0 ∨ i ∈ rest) →
      ∀ fuel, 2 * ns.length + 2 ≤ fuel →
      ∃ (ns' : List dp_node) (m' : DPMap) (live' : Finset ℕ),
        trim_list fuel rest (ns, m) = some (ns', m') ∧
        live' ⊆ live ∧
        Inv ns' m' live' nid ∅ ∧
        ns'.length = ns.length ∧
        (∀ j : ℕ, ((ns'[j]?).map (fun n : dp_node => (n.leaf, n.location)))
          = ((ns[j]?).map (fun n : dp_node => (n.leaf, n.location)))) ∧
        (∀ i ∈ live', i ≠ 0 → ∀ nd : dp_node, ns'[i]? = some nd → nd.leaf = false →
          nd.children = 0 → nd.parent = some 0) ∧
        (∀ q ∈ live, q ≠ 0 →
          (∀ nd : dp_node, ns[q]? = some nd → nd.children = 0 ∧ nd.leaf = true) →
          q ∈ live' ∧
          ∀ nd' : dp_node, ns'[q]? = some nd' → nd'.children = 0 ∧ nd'.leaf = true) := by
  intro rest
  induction rest with
  | nil =>
    intro ns m live nid _ hI hrest hD fuel _
    refine ⟨ns, m, live, rfl, Finset.Subset.refl live, hI, rfl, fun j => rfl, ?_, ?_⟩
    · intro i hi hi0 nd h hlf hch
      rcases hD i hi hi0 nd h hlf hch with h2 | h2
      · exact h2
      · exact absurd h2 (List.not_mem_nil i)
    · intro q hq hq0 hprop
      exact ⟨hq, fun nd' h => hprop nd' h⟩
  | cons i rest2 ih =>
    intro ns m live nid hnodup hI hrest hD fuel hfuel
    rcases hrest i (List.mem_cons_self i rest2) with ⟨hil, hi0, nd, hnd, hch0, p', hp'⟩
    have hilt : i < ns.length := hI.live_lt i hil
    have hplt : p' < i := hI.parent_dec i nd hnd p' hp'
    have hfuel2 : i + p' + 2 ≤ fuel := by omega
    rcases trim_spec fuel ns m live nid ∅ i p' nd hI hil hi0 hnd hp' hfuel2 with
      ⟨ns1, m1, live1, htrim, hsub1, hI1, hlen1, hframe, hmap1, hsurv, hdead, hnewdead, _⟩
    have havoid : ∀ q ∈ live, q ≠ i →
        (∀ ndq : dp_node, ns[q]? = some ndq → ndq.children = 0) → ¬ IsAnc ns i q := by
      intro q hq hqi hq0 hanc
      have hqlt : q < ns.length := hI.live_lt q hq
      have hqnd : ns[q]? = some ns[q] := List.getElem?_eq_getElem hqlt
      have hc0 : childCount ns live q = 0 := by
        have hc := hI.counts q hq _ hqnd
        rw [hq0 _ hqnd] at hc
        exact_mod_cast hc.symm
      have hnochild : ∀ x ∈ live, ∀ ndx : dp_node, ns[x]? = some ndx →
          ndx.parent ≠ some q := by
        intro x hx ndx hx2 hpx
        exact childCount_zero_no_child hc0 x hx (hI.live_lt x hx)
          (parentOf_eq_some.mpr ⟨ndx, hx2, hpx⟩)
      exact (isAnc_ne_of_no_child hI.root_node hI.parent_live hnochild hanc hil
        (fun he => hqi he.symm)) rfl
    have hrest2 : ∀ q ∈ rest2, q ∈ live1 ∧ q ≠ 0 ∧
        ∃ ndq : dp_node, ns1[q]? = some ndq ∧ ndq.children = 0 ∧
          ∃ pq, ndq.parent = some pq := by
      intro q hq2
      rcases hrest q (List.mem_cons_of_mem i hq2) with ⟨hql, hq0, ndq, hndq, hqch, pq, hpq⟩
      have hqi : q ≠ i := fun he => (List.nodup_cons.mp hnodup).1 (he ▸ hq2)
      have hnoanc : ¬ IsAnc ns i q := by
        apply havoid q hql hqi
        intro ndq2 h2
        rw [hndq] at h2
        exact (Option.some.inj h2) ▸ hqch
      rcases hframe q hnoanc with ⟨hslot, hmem⟩
      exact ⟨hmem.mpr hql, hq0, ndq, by rw [hslot]; exact hndq, hqch, pq, hpq⟩
    have hD2 : ∀ i2 ∈ live1, i2 ≠ 0 → ∀ nd2 : dp_node, ns1[i2]? = some nd2 →
        nd2.leaf = false → nd2.children = 0 → nd2.parent = some 0 ∨ i2 ∈ rest2 := by
      intro i2 hi2 hi20 nd2 hnd2 hlf2 hch2
      rcases hnewdead i2 hi2 nd2 hnd2 hlf2 hch2 with hsame | hpar0
      · have hi2l : i2 ∈ live := hsub1 hi2
        have hnd2ns : ns[i2]? = some nd2 := by
          rw [← hsame]
          exact hnd2
        rcases hD i2 hi2l hi20 nd2 hnd2ns hlf2 hch2 with h2 | h2
        · exact Or.inl h2
        · rcases List.mem_cons.mp h2 with h3 | h3
          · have hnd2i : ns[i]? = some nd2 := by
              rw [← h3]
              exact hnd2ns
            have he : nd2 = nd := Option.some.inj (hnd2i.symm.trans hnd)
            rcases hdead (he ▸ hlf2) (he ▸ hch2) with hout | hpar
            · exact absurd (h3 ▸ hi2) hout
            · refine Or.inl (hpar nd2 ?_)
              rw [← h3]
              exact hnd2
          · exact Or.inr h3
      · exact Or.inl hpar0
    rcases ih ns1 m1 live1 nid (List.nodup_cons.mp hnodup).2 hI1 hrest2 hD2 fuel
        (by rw [hlen1]; exact hfuel) with
      ⟨ns', m', live', heq, hsub', hI', hlen', hmap', hD', hsurv'⟩
    refine ⟨ns', m', live', ?_, hsub'.trans hsub1, hI', hlen'.trans hlen1, ?_, hD', ?_⟩
    · show (match trim fuel ns m i with
        | none => none
        | some s2 => trim_list fuel rest2 s2) = some (ns', m')
      rw [htrim]
      exact heq
    · intro j
      rw [hmap' j, hmap1 j]
    · intro q hq hq0 hprop
      by_cases hqi : q = i
      · subst hqi
        rcases hprop nd hnd with ⟨hch00, hlf00⟩
        have hnotdead : ¬ (nd.leaf = false ∧ nd.children = 0) := by
          rintro ⟨h1, _⟩
          rw [hlf00] at h1
          cases h1
        rcases hsurv hnotdead with ⟨hilive1, hchpres, _⟩
        have h2 := hmap1 q
        rw [hnd] at h2
        simp only [Option.map_some'] at h2
        rcases Option.map_eq_some'.mp h2 with ⟨nd1, h3, h4⟩
        have hlf1 : nd1.leaf = nd.leaf := congrArg Prod.fst h4
        have hprop1 : ∀ nd2 : dp_node, ns1[q]? = some nd2 →
            nd2.children = 0 ∧ nd2.leaf = true := by
          intro nd2 h5
          constructor
          · exact (hchpres nd2 h5).trans hch00
          · have he2 : nd2 = nd1 := Option.some.inj (h5.symm.trans h3)
            rw [he2, hlf1, hlf00]
        exact hsurv' q hilive1 hq0 hprop1
      · have hnoanc : ¬ IsAnc ns i q := havoid q hq hqi (fun ndq h2 => (hprop ndq h2).1)
        rcases hframe q hnoanc with ⟨hslot, hmem⟩
        have hprop1 : ∀ nd2 : dp_node, ns1[q]? = some nd2 →
            nd2.children = 0 ∧ nd2.leaf = true := by
          intro nd2 h2
          apply hprop
          rw [← hslot]
          exact h2
        exact hsurv' q (hmem.mpr hq) hq0 hprop1

theorem option_map_loc_of_pair {o1 o2 : Option dp_node}
    (h : o1.map (fun n : dp_node => (n.leaf, n.location))
      = o2.map (fun n : dp_node => (n.leaf, n.location))) :
    o1.map (fun n : dp_node => n.location) = o2.map (fun n : dp_node => n.location) := by
  cases o1 with
  | none =>
    cases o2 with
    | none => rfl
    | some b => simp at h
  | some a =>
    cases o2 with
    | none => simp at h
    | some b =>
      simp only [Option.map_some'] at h ⊢
      have h2 := (Prod.mk.injEq _ _ _ _).mp (Option.some.inj h)
      rw [h2.2]

/-- The non-resampling loop: mark each listed node as a leaf and trim it.
Same contract as `trim_list_spec` except that only poses are untouched,
and every listed node survives childless and marked. -/
theorem mark_trim_list_spec :
    ∀ (rest : List ℕ) (ns : List dp_node) (m : DPMap) (live : Finset ℕ) (nid : ℕ),
      rest.Nodup →
      Inv ns m live nid ∅ →
      (∀ q ∈ rest, q ∈ live ∧ q ≠ 0 ∧
        ∃ nd : dp_node, ns[q]? = some nd ∧ nd.children = 0 ∧ ∃ pq, nd.parent = some pq) →
      (∀ i ∈ live, i ≠ 0 → ∀ nd : dp_node, ns[i]? = some nd → nd.leaf = false →
        nd.children = 0 → nd.parent = some 0 ∨ i ∈ rest) →
      ∀ fuel, 2 * ns.length + 2 ≤ fuel →
      ∃ (ns' : List dp_node) (m' : DPMap) (live' : Finset ℕ),
        mark_trim_list fuel rest (ns, m) = some (ns', m') ∧
        live' ⊆ live ∧
        Inv ns' m' live' nid ∅ ∧
        ns'.length = ns.length ∧
        (∀ j : ℕ, ((ns'[j]?).map (fun n : dp_node => n.location))
          = ((ns[j]?).map (fun n : dp_node => n.location))) ∧
        (∀ i ∈ live', i ≠ 0 → ∀ nd : dp_node, ns'[i]? = some nd → nd.leaf = false →
          nd.children = 0 → nd.parent = some 0) ∧
        (∀ q ∈ live, q ≠ 0 →
          (∀ nd : dp_node, ns[q]? = some nd → nd.children = 0 ∧ nd.leaf = true) →
          q ∈ live' ∧
          ∀ nd' : dp_node, ns'[q]? = some nd' → nd'.children = 0 ∧ nd'.leaf = true) ∧
        (∀ q ∈ rest, q ∈ live' ∧
          ∀ nd' : dp_node, ns'[q]? = some nd' → nd'.children = 0 ∧ nd'.leaf = true) ∧
        (∀ j ∈ live', ∀ x y : ℤ,
          dp_lookup ns' m' x y ns'.length j = dp_lookup ns m x y ns.length j) := by
  intro rest
  induction rest with
  | nil =>
    intro ns m live nid _ hI hrest hD fuel _
    refine ⟨ns, m, live, rfl, Finset.Subset.refl live, hI, rfl, fun j => rfl, ?_, ?_, ?_,
      fun j _ x y => rfl⟩
    · intro i hi hi0 nd h hlf hch
      rcases hD i hi hi0 nd h hlf hch with h2 | h2
      · exact h2
      · exact absurd h2 (List.not_mem_nil i)
    · intro q hq hq0 hprop
      exact ⟨hq, fun nd' h => hprop nd' h⟩
    · intro q hq
      exact absurd hq (List.not_mem_nil q)
  | cons i rest2 ih =>
    intro ns m live nid hnodup hI hrest hD fuel hfuel
    rcases hrest i (List.mem_cons_self i rest2) with ⟨hil, hi0, nd, hnd, hch0, p', hp'⟩
    have hilt : i < ns.length := hI.live_lt i hil
    have hplt : p' < i := hI.parent_dec i nd hnd p' hp'
    have hfuel2 : i + p' + 2 ≤ fuel := by omega
    set nsm := set_node ns i (fun nd2 => { nd2 with leaf := true }) with hnsm
    have hnsmlen : nsm.length = ns.length := set_node_length ns i _
    have hndm : nsm[i]? = some { nd with leaf := true } := by
      rw [hnsm, set_node_get_self, hnd]
      rfl
    have hother : ∀ j, j ≠ i → nsm[j]? = ns[j]? :=
      fun j hj => set_node_get_other ns i j _ (fun h => hj h.symm)
    have hparof : ∀ j, parentOf nsm j = parentOf ns j := by
      intro j
      by_cases hj : j = i
      · subst hj
        unfold parentOf
        rw [hndm, hnd]
      · unfold parentOf
        rw [hother j hj]
    have hIm : Inv nsm m live nid ∅ :=
      inv_set_irrelevant hI i _ (fun nd2 => rfl) (fun nd2 => rfl) (fun nd2 => rfl)
        (fun nd2 => rfl)
    have hpm : ({ nd with leaf := true } : dp_node).parent = some p' := hp'
    rcases trim_spec fuel nsm m live nid ∅ i p' { nd with leaf := true } hIm hil hi0
        hndm hpm (by omega) with
      ⟨ns1, m1, live1, htrim, hsub1, hI1, hlen1, hframe, hmap1, hsurv, _, hnewdead, hlk1⟩
    have havoid : ∀ q ∈ live, q ≠ i →
        (∀ ndq : dp_node, ns[q]? = some ndq → ndq.children = 0) → ¬ IsAnc nsm i q := by
      intro q hq hqi hq0 hancm
      have hanc : IsAnc ns i q := isAnc_congr (fun u => (hparof u).symm) hancm
      have hqlt : q < ns.length := hI.live_lt q hq
      have hqnd : ns[q]? = some ns[q] := List.getElem?_eq_getElem hqlt
      have hc0 : childCount ns live q = 0 := by
        have hc := hI.counts q hq _ hqnd
        rw [hq0 _ hqnd] at hc
        exact_mod_cast hc.symm
      have hnochild : ∀ x ∈ live, ∀ ndx : dp_node, ns[x]? = some ndx →
          ndx.parent ≠ some q := by
        intro x hx ndx hx2 hpx
        exact childCount_zero_no_child hc0 x hx (hI.live_lt x hx)
          (parentOf_eq_some.mpr ⟨ndx, hx2, hpx⟩)
      exact (isAnc_ne_of_no_child hI.root_node hI.parent_live hnochild hanc hil
        (fun he => hqi he.symm)) rfl
    have hrest2 : ∀ q ∈ rest2, q ∈ live1 ∧ q ≠ 0 ∧
        ∃ ndq : dp_node, ns1[q]? = some ndq ∧ ndq.children = 0 ∧
          ∃ pq, ndq.parent = some pq := by
      intro q hq2
      rcases hrest q (List.mem_cons_of_mem i hq2) with ⟨hql, hq0, ndq, hndq, hqch, pq, hpq⟩
      have hqi : q ≠ i := fun he => (List.nodup_cons.mp hnodup).1 (he ▸ hq2)
      have hnoanc : ¬ IsAnc nsm i q := by
        apply havoid q hql hqi
        intro ndq2 h2
        rw [hndq] at h2
        exact (Option.some.inj h2) ▸ hqch
      rcases hframe q hnoanc with ⟨hslot, hmem⟩
      refine ⟨hmem.mpr hql, hq0, ndq, ?_, hqch, pq, hpq⟩
      rw [hslot, hother q hqi]
      exact hndq
    have hD2 : ∀ i2 ∈ live1, i2 ≠ 0 → ∀ nd2 : dp_node, ns1[i2]? = some nd2 →
        nd2.leaf = false → nd2.children = 0 → nd2.parent = some 0 ∨ i2 ∈ rest2 := by
      intro i2 hi2 hi20 nd2 hnd2 hlf2 hch2
      rcases hnewdead i2 hi2 nd2 hnd2 hlf2 hch2 with hsame | hpar0
      · have hi2l : i2 ∈ live := hsub1 hi2
        have hnd2m : nsm[i2]? = some nd2 := by
          rw [← hsame]
          exact hnd2
        by_cases hi2i : i2 = i
        · exfalso
          rw [hi2i] at hnd2m
          rw [hndm] at hnd2m
          have he := (Option.some.inj hnd2m).symm
          rw [he] at hlf2
          cases hlf2
        · have hnd2ns : ns[i2]? = some nd2 := by
            rw [← hother i2 hi2i]
            exact hnd2m
          rcases hD i2 hi2l hi20 nd2 hnd2ns hlf2 hch2 with h2 | h2
          · exact Or.inl h2
          · rcases List.mem_cons.mp h2 with h3 | h3
            · exact absurd h3 hi2i
            · exact Or.inr h3
      · exact Or.inl hpar0
    rcases ih ns1 m1 live1 nid (List.nodup_cons.mp hnodup).2 hI1 hrest2 hD2 fuel
        (by rw [hlen1, hnsmlen]; exact hfuel) with
      ⟨ns', m', live', heq, hsub', hI', hlen', hmap', hD', hsurv', hmemb', hlk'⟩
    have hlocmark : ∀ j : ℕ, ((nsm[j]?).map (fun n : dp_node => n.location))
        = ((ns[j]?).map (fun n : dp_node => n.location)) := by
      intro j
      by_cases hj : j = i
      · subst hj
        rw [hnsm, set_node_get_self]
        cases h : ns[j]? with
        | none => rfl
        | some nd2 => rfl
      · rw [hother j hj]
    have hsurvhead : i ∈ live1 ∧
        ∀ nd2 : dp_node, ns1[i]? = some nd2 → nd2.children = 0 ∧ nd2.leaf = true := by
      have hnotdead : ¬ (({ nd with leaf := true } : dp_node).leaf = false ∧
          ({ nd with leaf := true } : dp_node).children = 0) := by
        rintro ⟨h1, _⟩
        cases h1
      rcases hsurv hnotdead with ⟨hilive1, hchpres, _⟩
      refine ⟨hilive1, ?_⟩
      intro nd2 h5
      have h2 := hmap1 i
      rw [hndm] at h2
      simp only [Option.map_some'] at h2
      rcases Option.map_eq_some'.mp h2 with ⟨nd1, h3, h4⟩
      have hlf1 : nd1.leaf = true := congrArg Prod.fst h4
      constructor
      · exact (hchpres nd2 h5).trans hch0
      · have he2 : nd2 = nd1 := Option.some.inj (h5.symm.trans h3)
        rw [he2, hlf1]
    have hlkmark : ∀ (x y : ℤ) (f j : ℕ),
        dp_lookup nsm m x y f j = dp_lookup ns m x y f j := by
      intro x y f j
      refine dp_lookup_sim (fun _ => True) ?_ f j trivial
      intro k _
      by_cases hk : k = i
      · subst hk
        cases h2 : ns[k]? with
        | none =>
          refine Or.inl ⟨rfl, ?_⟩
          rw [hnsm, set_node_get_self, h2]
          rfl
        | some nd2 =>
          refine Or.inr ⟨nd2, { nd2 with leaf := true }, rfl, ?_, rfl, rfl,
            fun p _ => trivial⟩
          rw [hnsm, set_node_get_self, h2]
          rfl
      · cases h2 : ns[k]? with
        | none => exact Or.inl ⟨rfl, by rw [hother k hk]; exact h2⟩
        | some nd2 =>
          exact Or.inr ⟨nd2, nd2, rfl, by rw [hother k hk]; exact h2, rfl, rfl,
            fun p _ => trivial⟩
    refine ⟨ns', m', live', ?_, hsub'.trans hsub1, hI', (hlen'.trans hlen1).trans hnsmlen,
      ?_, hD', ?_, ?_, ?_⟩
    · show (match trim fuel nsm m i with
        | none => none
        | some s2 => mark_trim_list fuel rest2 s2) = some (ns', m')
      rw [htrim]
      exact heq
    · intro j
      rw [hmap' j, option_map_loc_of_pair (hmap1 j), hlocmark j]
    · intro q hq hq0 hprop
      by_cases hqi : q = i
      · subst hqi
        exact hsurv' q hsurvhead.1 hq0 hsurvhead.2
      · have hnoanc : ¬ IsAnc nsm i q := havoid q hq hqi (fun ndq h2 => (hprop ndq h2).1)
        rcases hframe q hnoanc with ⟨hslot, hmem⟩
        have hprop1 : ∀ nd2 : dp_node, ns1[q]? = some nd2 →
            nd2.children = 0 ∧ nd2.leaf = true := by
          intro nd2 h2
          apply hprop
          rw [← hother q hqi, ← hslot]
          exact h2
        exact hsurv' q (hmem.mpr hq) hq0 hprop1
    · intro q hq
      rcases List.mem_cons.mp hq with hqi | hq2
      · subst hqi
        exact hsurv' q hsurvhead.1 hi0 hsurvhead.2
      · exact hmemb' q hq2
    · intro j hj x y
      have hj1 : j ∈ live1 := hsub' hj
      rw [hlk' j hj x y, hlk1 j hj1 x y, hlkmark x y nsm.length j, hnsmlen]

/-! ### Range of the systematic resampling walk -/

theorem foldl_add_eq (l : List ℚ) : ∀ a : ℚ, l.foldl (· + ·) a = a + l.sum := by
  induction l with
  | nil => intro a; simp
  | cons x t ih =>
    intro a
    rw [List.foldl_cons, ih, List.sum_cons]
    ring

theorem sum_map_div (l : List ℚ) (s : ℚ) : (l.map (fun w => w / s)).sum = l.sum / s := by
  induction l with
  | nil => simp
  | cons x t ih =>
    rw [List.map_cons, List.sum_cons, ih, List.sum_cons, add_div]

theorem sum_map_const (l : List ℚ) (n : ℚ) : (l.map (fun _ => n)).sum = l.length * n := by
  induction l with
  | nil => simp
  | cons x t ih =>
    rw [List.map_cons, List.sum_cons, ih, List.length_cons]
    push_cast
    ring

/-- The weights leaving `particle_filter_t.weight` always sum to one
(either normalized by their sum or reset to the uniform weight). -/
theorem filter_weight_sum {α : Type _} (n threshold : ℚ) (wm : α → ℚ) (ps : List α)
    (ws : List ℚ) (hn : ((ws.zip ps).length : ℚ) * n = 1) :
    (filter_weight n threshold wm ps ws).sum = 1 := by
  simp only [filter_weight]
  set w1 := (ws.zip ps).map (fun wp => if threshold < wp.1 then wp.1 * wm wp.2 else 0)
    with hw1
  by_cases hs : 1 / 10 ^ 10 < w1.foldl (· + ·) 0
  · rw [if_pos hs, sum_map_div]
    rw [foldl_add_eq, zero_add] at hs ⊢
    have hpos : (0 : ℚ) < w1.sum := lt_trans (by norm_num) hs
    exact div_self (ne_of_gt hpos)
  · rw [if_neg hs, sum_map_const]
    rw [hw1, List.length_map]
    exact hn

theorem filter_weight_length {α : Type _} (n threshold : ℚ) (wm : α → ℚ) (ps : List α)
    (ws : List ℚ) : (filter_weight n threshold wm ps ws).length = (ws.zip ps).length := by
  simp only [filter_weight]
  by_cases hs : 1 / 10 ^ 10 < ((ws.zip ps).map
      (fun wp => if threshold < wp.1 then wp.1 * wm wp.2 else 0)).foldl (· + ·) 0
  · rw [if_pos hs, List.length_map, List.length_map]
  · rw [if_neg hs, List.length_map, List.length_map]

theorem take_sum_succ (ws : List ℚ) (k : ℕ) (hk : k < ws.length) :
    (ws.take (k + 1)).sum = (ws.take k).sum + ws.getD k 0 := by
  have h1 : ws[k]? = some ws[k] := List.getElem?_eq_getElem hk
  have h2 : ws.getD k 0 = ws[k] := by
    rw [List.getD_eq_getElem?_getD, h1]
    rfl
  rw [List.take_succ, List.sum_append, h1, h2]
  simp

/-- The `while(u > c)` walk stays inside the weight array as long as the
target `u` is below the total weight, and its running sum is always the
prefix sum at its index. -/
theorem resample_walk_range (ws : List ℚ) (u : ℚ) (hu : u < ws.sum) :
    ∀ (fuel i : ℕ) (c : ℚ), c = (ws.take (i + 1)).sum → i < ws.length →
      ws.length ≤ fuel + i + 1 →
      (resample_walk ws u fuel c i).1 < ws.length ∧
      (resample_walk ws u fuel c i).2
        = (ws.take ((resample_walk ws u fuel c i).1 + 1)).sum := by
  intro fuel
  induction fuel with
  | zero =>
    intro i c hc hi _
    exact ⟨hi, hc⟩
  | succ fuel ih =>
    intro i c hc hi hflen
    simp only [resample_walk]
    by_cases hcu : c < u
    · rw [if_pos hcu]
      have hi1 : i + 1 < ws.length := by
        rcases Nat.lt_or_ge (i + 1) ws.length with h | h
        · exact h
        · exfalso
          have he : i + 1 = ws.length := by omega
          rw [he, List.take_length] at hc
          rw [hc] at hcu
          exact absurd (lt_trans hcu hu) (lt_irrefl _)
      exact ih (i + 1) (c + ws.getD (i + 1) 0)
        (by rw [hc, (take_sum_succ ws (i + 1) hi1).symm]) hi1 (by omega)
    · rw [if_neg hcu]
      exact ⟨hi, hc⟩

/-- Every particle emitted by `resample` is one of the input particles,
provided the uniform draw is in `[0, 1)` and the weights sum to the
total the step targets stay below. -/
theorem resample_go_mem {α : Type _} [Inhabited α] (n : ℚ) (ws : List ℚ) (ps : List α)
    (r : ℚ) (hlen : ps.length = ws.length) :
    ∀ (rem m i : ℕ) (c : ℚ) (out : List α),
      c = (ws.take (i + 1)).sum → i < ws.length →
      (∀ m2 : ℕ, m2 < m + rem → r + (m2 : ℚ) * n < ws.sum) →
      ∀ z ∈ resample_go n ws ps r rem m i c out, z ∈ out ∨ z ∈ ps := by
  intro rem
  induction rem with
  | zero =>
    intro m i c out _ _ _ z hz
    exact Or.inl hz
  | succ rem ih =>
    intro m i c out hc hi hu z hz
    simp only [resample_go] at hz
    have hum : r + (m : ℚ) * n < ws.sum := hu m (by omega)
    have hw := resample_walk_range ws (r + (m : ℚ) * n) hum ws.length i c hc hi (by omega)
    have hu2 : ∀ m2 : ℕ, m2 < (m + 1) + rem → r + (m2 : ℚ) * n < ws.sum := by
      intro m2 hm2
      exact hu m2 (by omega)
    rcases ih (m + 1) _ _ _ hw.2 hw.1 hu2 z hz with h | h
    · rcases List.mem_append.mp h with h2 | h2
      · exact Or.inl h2
      · have hzeq := List.mem_singleton.mp h2
        have hlt : (resample_walk ws (r + (m : ℚ) * n) ws.length c i).1 < ps.length := by
          rw [hlen]
          exact hw.1
        have hget : ps.getD (resample_walk ws (r + (m : ℚ) * n) ws.length c i).1 default
            = ps[(resample_walk ws (r + (m : ℚ) * n) ws.length c i).1] := by
          rw [List.getD_eq_getElem?_getD, List.getElem?_eq_getElem hlt]
          rfl
        rw [hzeq, hget]
        exact Or.inr (List.getElem_mem hlt)
    · exact Or.inr h

theorem filter_resample_mem {α : Type _} [Inhabited α] (size : ℕ) (n : ℚ) (ws : List ℚ)
    (ps : List α) (rand : ℚ) (hsum : ws.sum = 1) (hlen : ps.length = ws.length)
    (hlen0 : 0 < ws.length) (hn : 0 < n) (hr0 : 0 ≤ rand) (hr1 : rand < 1)
    (hsz : ((size : ℚ)) * n ≤ 1) :
    ∀ z ∈ filter_resample size n ws ps rand, z ∈ ps := by
  intro z hz
  have hc0 : ws.getD 0 0 = (ws.take (0 + 1)).sum := by
    cases ws with
    | nil => simp at hlen0
    | cons a t => simp
  have hu : ∀ m2 : ℕ, m2 < 0 + size → rand * n + (m2 : ℚ) * n < ws.sum := by
    intro m2 hm2
    rw [hsum]
    have h1 : rand * n < n := by
      have h2 := mul_lt_mul_of_pos_right hr1 hn
      rw [one_mul] at h2
      exact h2
    have h2 : ((m2 : ℚ) + 1) * n ≤ (size : ℚ) * n := by
      apply mul_le_mul_of_nonneg_right _ (le_of_lt hn)
      exact_mod_cast Nat.succ_le_of_lt (by omega)
    calc rand * n + (m2 : ℚ) * n < n + (m2 : ℚ) * n := by linarith
      _ = ((m2 : ℚ) + 1) * n := by ring
      _ ≤ (size : ℚ) * n := h2
      _ ≤ 1 := hsz
  rcases resample_go_mem n ws ps (rand * n) hlen size 0 0 (ws.getD 0 0) [] hc0 hlen0 hu
      z hz with h | h
  · exact absurd h (List.not_mem_nil z)
  · exact h

theorem resample_go_length {α : Type _} [Inhabited α] (n : ℚ) (ws : List ℚ) (ps : List α)
    (r : ℚ) : ∀ (rem m i : ℕ) (c : ℚ) (out : List α),
      (resample_go n ws ps r rem m i c out).length = out.length + rem := by
  intro rem
  induction rem with
  | zero => intro m i c out; rfl
  | succ rem ih =>
    intro m i c out
    simp only [resample_go]
    rw [ih]
    simp only [List.length_append, List.length_singleton]
    omega

theorem filter_resample_length {α : Type _} [Inhabited α] (size : ℕ) (n : ℚ)
    (ws : List ℚ) (ps : List α) (rand : ℚ) :
    (filter_resample size n ws ps rand).length = size := by
  show (resample_go n ws ps (rand * n) size 0 0 (ws.getD 0 0) []).length = size
  rw [resample_go_length]
  simp

/-- One particle's sensor write pass preserves the invariant and every
node's id, parent, child count, leaf flag and pose, relative to the arena
at the start of the write phase. -/
theorem write_beam_step (O : Oracle) (sensor : beam_model_t) (scan : ℕ → ℚ)
    (loc : location_t) {ns0 : List dp_node} {live : Finset ℕ} {nid : ℕ} {q : ℕ}
    (hq : q ∈ live) {nd0 : dp_node} (hq0 : ns0[q]? = some nd0) (hch00 : nd0.children = 0)
    (s : List dp_node × DPMap)
    (hW : Inv s.1 s.2 live nid ∅ ∧ s.1.length = ns0.length ∧
      (∀ (j : ℕ) (ndj : dp_node), ns0[j]? = some ndj →
        ∃ nd1 : dp_node, s.1[j]? = some nd1 ∧ nd1.id = ndj.id ∧ nd1.parent = ndj.parent ∧
          nd1.children = ndj.children ∧ nd1.leaf = ndj.leaf ∧
          nd1.location = ndj.location)) :
    Inv (beam_update O sensor loc scan (slam_writer q) s).1
      (beam_update O sensor loc scan (slam_writer q) s).2 live nid ∅ ∧
    (beam_update O sensor loc scan (slam_writer q) s).1.length = ns0.length ∧
    (∀ (j : ℕ) (ndj : dp_node), ns0[j]? = some ndj →
      ∃ nd1 : dp_node, (beam_update O sensor loc scan (slam_writer q) s).1[j]? = some nd1 ∧
        nd1.id = ndj.id ∧ nd1.parent = ndj.parent ∧ nd1.children = ndj.children ∧
        nd1.leaf = ndj.leaf ∧ nd1.location = ndj.location) := by
  refine beam_update_preserve (fun s3 : List dp_node × DPMap =>
    Inv s3.1 s3.2 live nid ∅ ∧ s3.1.length = ns0.length ∧
    (∀ (j : ℕ) (ndj : dp_node), ns0[j]? = some ndj →
      ∃ nd1 : dp_node, s3.1[j]? = some nd1 ∧ nd1.id = ndj.id ∧ nd1.parent = ndj.parent ∧
        nd1.children = ndj.children ∧ nd1.leaf = ndj.leaf ∧ nd1.location = ndj.location))
    O sensor loc scan (slam_writer q) ?_ s hW
  rintro ⟨ns3, m3⟩ v x y ⟨hI3, hlen3, htr3⟩
  rcases htr3 q nd0 hq0 with ⟨nd1, h1, _, _, hch1, _, _⟩
  have hcc0 : childCount ns3 live q = 0 := by
    have hc := hI3.counts q hq nd1 h1
    rw [hch1, hch00] at hc
    exact_mod_cast hc.symm
  obtain ⟨hI4, hlen4, htr4⟩ := inv_write_step hI3 hq hcc0 v x y
  refine ⟨hI4, hlen4.trans hlen3, ?_⟩
  intro j ndj hj
  rcases htr3 j ndj hj with ⟨nda, ha, hida, hpara, hcha, hlfa, hloca⟩
  rcases htr4 j nda ha with ⟨ndb, hb, hidb, hparb, hchb, hlfb, hlocb⟩
  exact ⟨ndb, hb, hidb.trans hida, hparb.trans hpara, hchb.trans hcha,
    hlfb.trans hlfa, hlocb.trans hloca⟩

/-- The whole write phase over a list of live childless particles. -/
theorem write_fold_spec (O : Oracle) (sensor : beam_model_t) (scan : ℕ → ℚ)
    {ns0 : List dp_node} {live : Finset ℕ} {nid : ℕ} :
    ∀ (ps : List ℕ) (s : List dp_node × DPMap),
      (∀ q ∈ ps, q ∈ live ∧ ∃ ndq : dp_node, ns0[q]? = some ndq ∧ ndq.children = 0) →
      (Inv s.1 s.2 live nid ∅ ∧ s.1.length = ns0.length ∧
        (∀ (j : ℕ) (ndj : dp_node), ns0[j]? = some ndj →
          ∃ nd1 : dp_node, s.1[j]? = some nd1 ∧ nd1.id = ndj.id ∧
            nd1.parent = ndj.parent ∧ nd1.children = ndj.children ∧
            nd1.leaf = ndj.leaf ∧ nd1.location = ndj.location)) →
      Inv (write_fold O sensor scan ps s).1 (write_fold O sensor scan ps s).2 live nid ∅ ∧
      (write_fold O sensor scan ps s).1.length = ns0.length ∧
      (∀ (j : ℕ) (ndj : dp_node), ns0[j]? = some ndj →
        ∃ nd1 : dp_node, (write_fold O sensor scan ps s).1[j]? = some nd1 ∧
          nd1.id = ndj.id ∧ nd1.parent = ndj.parent ∧ nd1.children = ndj.children ∧
          nd1.leaf = ndj.leaf ∧ nd1.location = ndj.location) := by
  intro ps
  induction ps with
  | nil => intro s _ hW; exact hW
  | cons q rest ih =>
    intro s hps hW
    rcases hps q (List.mem_cons_self q rest) with ⟨hq, nd0, hq0, hch00⟩
    simp only [write_fold]
    exact ih _ (fun q2 h2 => hps q2 (List.mem_cons_of_mem q h2))
      (write_beam_step O sensor scan _ hq hq0 hch00 s hW)

/-! ### The constructed initial state -/

theorem init_particles_spec :
    ∀ (k : ℕ) (ns : List dp_node) (ps : List ℕ) (nid : ℕ) (live : Finset ℕ),
      Inv ns (fun _ _ _ => none) live nid ∅ →
      (∀ i ∈ live, i ≠ 0 → ∀ nd : dp_node, ns[i]? = some nd →
        nd.parent = some 0 ∧ nd.children = 0 ∧ nd.leaf = false) →
      (∀ p ∈ ps, p ∈ live ∧ p ≠ 0) →
      ∃ live' : Finset ℕ,
        Inv (init_particles k (ns, ps, nid)).1 (fun _ _ _ => none) live'
          (init_particles k (ns, ps, nid)).2.2 ∅ ∧
        (∀ i ∈ live', i ≠ 0 → ∀ nd : dp_node,
          (init_particles k (ns, ps, nid)).1[i]? = some nd →
          nd.parent = some 0 ∧ nd.children = 0 ∧ nd.leaf = false) ∧
        (∀ p ∈ (init_particles k (ns, ps, nid)).2.1, p ∈ live' ∧ p ≠ 0) ∧
        (init_particles k (ns, ps, nid)).2.1.length = ps.length + k := by
  intro k
  induction k with
  | zero =>
    intro ns ps nid live hI hroot hps
    exact ⟨live, hI, hroot, hps, rfl⟩
  | succ k ih =>
    intro ns ps nid live hI hroot hps
    have hI2 : Inv (alloc_node ns nid ⟨0, 0, 0⟩ (some 0)) (fun _ _ _ => none)
        (insert ns.length live) (nid + 1) ∅ := inv_alloc_step hI hI.root_live ⟨0, 0, 0⟩
    have hroot2 : ∀ i ∈ insert ns.length live, i ≠ 0 → ∀ nd : dp_node,
        (alloc_node ns nid ⟨0, 0, 0⟩ (some 0))[i]? = some nd →
        nd.parent = some 0 ∧ nd.children = 0 ∧ nd.leaf = false := by
      intro i hi hi0 nd h
      rcases Finset.mem_insert.mp hi with hiL | hil
      · rw [hiL, alloc_node_get_new] at h
        have he := (Option.some.inj h).symm
        exact ⟨by rw [he], by rw [he], by rw [he]⟩
      · have hilt : i < ns.length := hI.live_lt i hil
        rw [alloc_node_get_old ns nid ⟨0, 0, 0⟩ 0 i hilt hi0] at h
        exact hroot i hil hi0 nd h
    have hps2 : ∀ p ∈ ps ++ [ns.length], p ∈ insert ns.length live ∧ p ≠ 0 := by
      intro p hp
      rcases List.mem_append.mp hp with hp2 | hp2
      · exact ⟨Finset.mem_insert_of_mem (hps p hp2).1, (hps p hp2).2⟩
      · rw [List.mem_singleton.mp hp2]
        refine ⟨Finset.mem_insert_self _ _, ?_⟩
        have := hI.root_lt
        omega
    rcases ih (alloc_node ns nid ⟨0, 0, 0⟩ (some 0)) (ps ++ [ns.length]) (nid + 1)
        (insert ns.length live) hI2 hroot2 hps2 with ⟨live', h1, h2, h3, h4⟩
    refine ⟨live', h1, h2, h3, ?_⟩
    show (init_particles k (alloc_node ns nid ⟨0, 0, 0⟩ (some 0), ps ++ [ns.length],
      nid + 1)).2.1.length = ps.length + (k + 1)
    rw [h4, List.length_append, List.length_singleton]
    omega

/-- The freshly constructed estimator satisfies the reachable-state
invariant, with the configured number of particles and weights. -/
theorem slam_init_inv (cfg : slam_config) (sensor0 : beam_model_t) :
    SlamInv (slam_init cfg sensor0) ∧
    (slam_init cfg sensor0).particles.length = cfg.size ∧
    (slam_init cfg sensor0).weights.length = cfg.size := by
  have hroot0 : (alloc_node [] 0 ⟨0, 0, 0⟩ none) = [{ id := 0, location := ⟨0, 0, 0⟩, parent := none, leaf := false, children := 0, modified_cells := [] }] := rfl
  have hI0 : Inv (alloc_node [] 0 ⟨0, 0, 0⟩ none) (fun _ _ _ => none) {0} 1 ∅ := by
    rw [hroot0]
    refine ⟨?_, ?_, ?_, ?_, ?_, ?_, ?_, ?_, ?_, ?_, ?_, ?_, ?_, ?_, ?_⟩
    · simp
    · intro nd h
      have he := (Option.some.inj h).symm
      exact ⟨by rw [he]; rfl, by rw [he]; rfl⟩
    · simp
    · intro i hi
      rw [Finset.mem_singleton.mp hi]
      simp
    · intro i hi hi0 nd h
      exact absurd (Finset.mem_singleton.mp hi) hi0
    · intro j nd h p hp
      have hjlt : j < 1 := by
        have := getElem?_some_lt h
        simpa using this
      have hj0 : j = 0 := by omega
      rw [hj0] at h
      have he := (Option.some.inj h).symm
      rw [he] at hp
      cases hp
    · intro i hi nd h
      rw [Finset.mem_singleton.mp hi] at h
      have he := (Option.some.inj h).symm
      have hcc : childCount [({ id := 0, location := ⟨0, 0, 0⟩, parent := none, leaf := false, children := 0, modified_cells := [] } : dp_node)] {0} 0 = 0 := by
        unfold childCount
        rw [Finset.card_eq_zero, Finset.filter_eq_empty_iff]
        rintro j hj ⟨_, hjp⟩
        have hj0 : j = 0 := by
          have := Finset.mem_range.mp hj
          simpa using this
        rw [hj0] at hjp
        rcases parentOf_eq_some.mp hjp with ⟨nd2, hnd2, hp2⟩
        have he2 := (Option.some.inj hnd2).symm
        rw [he2] at hp2
        cases hp2
      rw [Finset.mem_singleton.mp hi, hcc, he]
      rfl
    · intro i hi j hj hij a ha b hb
      rw [Finset.mem_singleton.mp hi, Finset.mem_singleton.mp hj] at hij
      exact absurd rfl hij
    · intro i hi hi0 nd h
      exact absurd (Finset.mem_singleton.mp hi) hi0
    · intro i hi nd h
      rw [Finset.mem_singleton.mp hi] at h
      have he := (Option.some.inj h).symm
      rw [he]
      exact Nat.zero_lt_one
    · intro i hi1 hiG nd h p hp
      have hilt : i < 1 := by
        have := getElem?_some_lt h
        simpa using this
      have hi0 : i = 0 := by omega
      exact absurd (show i ∈ ({0} : Finset ℕ) by
        rw [hi0]; exact Finset.mem_singleton_self 0) hi1
    · intro x y k hk
      simp at hk
    · intro i hi nd h c hc
      rw [Finset.mem_singleton.mp hi] at h
      have he := (Option.some.inj h).symm
      rw [he] at hc
      cases hc
    · intro i hi nd h
      rw [Finset.mem_singleton.mp hi] at h
      have he := (Option.some.inj h).symm
      rw [he]
      exact List.nodup_nil
    · intro l hl x y j k hj hk hej hek
      rcases hej with ⟨ndj, _, hsj⟩
      simp [map_lookup_by_id] at hsj
  have hroot1 : ∀ i ∈ ({0} : Finset ℕ), i ≠ 0 → ∀ nd : dp_node,
      (alloc_node [] 0 ⟨0, 0, 0⟩ none)[i]? = some nd →
      nd.parent = some 0 ∧ nd.children = 0 ∧ nd.leaf = false := by
    intro i hi hi0 nd h
    exact absurd (Finset.mem_singleton.mp hi) hi0
  have hps1 : ∀ p ∈ ([] : List ℕ), p ∈ ({0} : Finset ℕ) ∧ p ≠ 0 :=
    fun p hp => absurd hp (List.not_mem_nil p)
  rcases init_particles_spec cfg.size (alloc_node [] 0 ⟨0, 0, 0⟩ none) [] 1 {0}
      hI0 hroot1 hps1 with ⟨live', h1, h2, h3, h4⟩
  refine ⟨⟨live', h1, h3, ?_, ?_⟩, ?_, ?_⟩
  · intro p hp nd h
    rcases h3 p hp with ⟨hpl, hp0⟩
    rcases h2 p hpl hp0 nd h with ⟨hpar, hch, _⟩
    exact ⟨hch, Or.inr hpar⟩
  · intro i hi hi0 nd h _ _
    exact (h2 i hi hi0 nd h).1
  · show (init_particles cfg.size _).2.1.length = cfg.size
    rw [h4]
    simp
  · show (List.replicate cfg.size cfg.n).length = cfg.size
    exact List.length_replicate cfg.size cfg.n

/-- One `dp_slam_t.update` step preserves the reachable-state invariant,
provided the platform's uniform draws lie in `[0, 1)`. -/
theorem supdate_inv {O : Oracle} (hO : ∀ k : ℕ, 0 ≤ O.rand k ∧ O.rand k < 1)
    {cfg : slam_config} {control : control_t} {scan : ℕ → ℚ} {st st' : slam_state}
    (hS : SlamInv st) (hlenp : st.particles.length = cfg.size)
    (hlenw : st.weights.length = cfg.size)
    (h : supdate O cfg control scan st = some st') :
    SlamInv st' ∧ st'.particles.length = cfg.size ∧ st'.weights.length = cfg.size := by
  obtain ⟨live, hI, hpl, hpfacts, hDead⟩ := hS
  rcases predict_fold_spec O cfg control st.particles st.nodes st.smap live st.next_id
      st.rng [] hI (fun q hq => (hpl q hq).1) with
    ⟨ns1, nid1, rng1, new1, live1, heq1, hI1, hsub1, hchar1, hlen1, hnew1len, hnodup1,
      hnewf, htr1⟩
  have heq1' : predict_fold O cfg control st.particles (st.nodes, st.next_id, st.rng, [])
      = (ns1, nid1, rng1, new1) := by
    rw [heq1]
    simp
  have hnew0 : ∀ q ∈ new1, q ≠ 0 := by
    intro q hq
    rcases hnewf q hq with ⟨_, hge, _⟩
    have := hI.root_lt
    omega
  have holddead : ∀ i2 ∈ live, ∀ ndY : dp_node, ns1[i2]? = some ndY →
      ndY.leaf = false → ndY.children = 0 → i2 ≠ 0 → ndY.parent = some 0 := by
    intro i2 hold ndY hndY hlfY hchY hi20
    have hi2lt0 : i2 < st.nodes.length := hI.live_lt i2 hold
    have hnd0 : st.nodes[i2]? = some st.nodes[i2] := List.getElem?_eq_getElem hi2lt0
    rcases htr1 i2 _ hnd0 with ⟨ndZ, hZ, _, hZpar, _, _, hZmono, hZor, _⟩
    have hZeq : ndZ = ndY := Option.some.inj (hZ.symm.trans hndY)
    rw [hZeq] at hZpar hZmono hZor
    have hc := hI.counts i2 hold _ hnd0
    have hch0' : (st.nodes[i2]).children = 0 := by
      rw [hchY] at hZmono
      have h3 : (0 : ℤ) ≤ (st.nodes[i2]).children := by
        rw [hc]
        exact_mod_cast Nat.zero_le _
      omega
    have hlf0' : (st.nodes[i2]).leaf = false := by
      rcases hZor with h2 | h2
      · rw [← h2]
        exact hlfY
      · rw [hch0', hchY] at h2
        exact absurd h2 (lt_irrefl 0)
    have hpar0 := hDead i2 hold hi20 _ hnd0 hlf0' hch0'
    rw [hZpar]
    exact hpar0
  have hzip : (st.weights.zip new1).length = cfg.size := by
    rw [List.length_zip, hlenw, hnew1len, hlenp]
    exact Nat.min_self cfg.size
  simp only [supdate] at h
  rw [heq1'] at h
  dsimp only at h
  split at h
  next hress =>
    split at h
    next htl => cases h
    next s2 htl =>
      have hnpmem : ∀ z ∈ (filter_resample cfg.size cfg.n (filter_weight cfg.n cfg.threshold (fun pidx => beam_prob O st.sensor (ns1.getD pidx default).location scan (fun x y => dp_lookup ns1 st.smap x y ns1.length pidx)) new1 st.weights) new1 (O.rand rng1)), z ∈ new1 := by
        by_cases hsz0 : cfg.size = 0
        · intro z hz
          have hnil : (filter_resample cfg.size cfg.n (filter_weight cfg.n cfg.threshold (fun pidx => beam_prob O st.sensor (ns1.getD pidx default).location scan (fun x y => dp_lookup ns1 st.smap x y ns1.length pidx)) new1 st.weights) new1 (O.rand rng1)) = [] := by
            apply List.eq_nil_of_length_eq_zero
            rw [filter_resample_length, hsz0]
          rw [hnil] at hz
          cases hz
        · have hszpos : (0 : ℚ) < (cfg.size : ℚ) := by
            exact_mod_cast Nat.pos_of_ne_zero hsz0
          have hcast : ((cfg.size : ℚ)) ≠ 0 := ne_of_gt hszpos
          have hn1 : ((st.weights.zip new1).length : ℚ) * cfg.n = 1 := by
            rw [hzip]
            show (cfg.size : ℚ) * (1 / (cfg.size : ℚ)) = 1
            rw [one_div]
            exact mul_inv_cancel₀ hcast
          have hw1len : ((filter_weight cfg.n cfg.threshold (fun pidx => beam_prob O st.sensor (ns1.getD pidx default).location scan (fun x y => dp_lookup ns1 st.smap x y ns1.length pidx)) new1 st.weights)).length = cfg.size :=
            (filter_weight_length cfg.n cfg.threshold (fun pidx => beam_prob O st.sensor (ns1.getD pidx default).location scan (fun x y => dp_lookup ns1 st.smap x y ns1.length pidx)) new1 st.weights).trans hzip
          exact filter_resample_mem cfg.size cfg.n (filter_weight cfg.n cfg.threshold (fun pidx => beam_prob O st.sensor (ns1.getD pidx default).location scan (fun x y => dp_lookup ns1 st.smap x y ns1.length pidx)) new1 st.weights) new1 (O.rand rng1)
            (filter_weight_sum cfg.n cfg.threshold (fun pidx => beam_prob O st.sensor (ns1.getD pidx default).location scan (fun x y => dp_lookup ns1 st.smap x y ns1.length pidx)) new1 st.weights hn1)
            (by rw [hw1len, hnew1len, hlenp])
            (by rw [hw1len]; exact Nat.pos_of_ne_zero hsz0)
            (by show (0 : ℚ) < 1 / (cfg.size : ℚ); exact one_div_pos.mpr hszpos)
            (hO rng1).1 (hO rng1).2
            (by show (cfg.size : ℚ) * (1 / (cfg.size : ℚ)) ≤ 1
                rw [one_div, mul_inv_cancel₀ hcast])
      have hI2 : Inv (mark_leaves ns1 (filter_resample cfg.size cfg.n (filter_weight cfg.n cfg.threshold (fun pidx => beam_prob O st.sensor (ns1.getD pidx default).location scan (fun x y => dp_lookup ns1 st.smap x y ns1.length pidx)) new1 st.weights) new1 (O.rand rng1))) st.smap live1 nid1 ∅ :=
        inv_mark_leaves (filter_resample cfg.size cfg.n (filter_weight cfg.n cfg.threshold (fun pidx => beam_prob O st.sensor (ns1.getD pidx default).location scan (fun x y => dp_lookup ns1 st.smap x y ns1.length pidx)) new1 st.weights) new1 (O.rand rng1)) hI1
      have hprop2 : ∀ q ∈ (filter_resample cfg.size cfg.n (filter_weight cfg.n cfg.threshold (fun pidx => beam_prob O st.sensor (ns1.getD pidx default).location scan (fun x y => dp_lookup ns1 st.smap x y ns1.length pidx)) new1 st.weights) new1 (O.rand rng1)), ∀ ndq : dp_node,
          (mark_leaves ns1 (filter_resample cfg.size cfg.n (filter_weight cfg.n cfg.threshold (fun pidx => beam_prob O st.sensor (ns1.getD pidx default).location scan (fun x y => dp_lookup ns1 st.smap x y ns1.length pidx)) new1 st.weights) new1 (O.rand rng1)))[q]? = some ndq → ndq.children = 0 ∧ ndq.leaf = true := by
        intro q hq ndq hndq
        refine ⟨?_, mark_leaves_marked _ ns1 q hq ndq hndq⟩
        rcases hnewf q (hnpmem q hq) with ⟨_, _, ndq1, hndq1, hchq1, _, _, _⟩
        rcases mark_leaves_fields (filter_resample cfg.size cfg.n (filter_weight cfg.n cfg.threshold (fun pidx => beam_prob O st.sensor (ns1.getD pidx default).location scan (fun x y => dp_lookup ns1 st.smap x y ns1.length pidx)) new1 st.weights) new1 (O.rand rng1)) ns1 q ndq1 hndq1 with
          ⟨ndX, hX, _, _, hXch, _, _, _⟩
        have hXeq : ndX = ndq := Option.some.inj (hX.symm.trans hndq)
        rw [← hXeq, hXch, hchq1]
      have hrest2 : ∀ q ∈ new1, q ∈ live1 ∧ q ≠ 0 ∧
          ∃ nd : dp_node, (mark_leaves ns1 (filter_resample cfg.size cfg.n (filter_weight cfg.n cfg.threshold (fun pidx => beam_prob O st.sensor (ns1.getD pidx default).location scan (fun x y => dp_lookup ns1 st.smap x y ns1.length pidx)) new1 st.weights) new1 (O.rand rng1)))[q]? = some nd ∧ nd.children = 0 ∧
            ∃ pq, nd.parent = some pq := by
        intro q hq
        rcases hnewf q hq with ⟨hql, _, ndq1, hndq1, hchq1, _, _, pq, hpq⟩
        rcases mark_leaves_fields (filter_resample cfg.size cfg.n (filter_weight cfg.n cfg.threshold (fun pidx => beam_prob O st.sensor (ns1.getD pidx default).location scan (fun x y => dp_lookup ns1 st.smap x y ns1.length pidx)) new1 st.weights) new1 (O.rand rng1)) ns1 q ndq1 hndq1 with
          ⟨ndX, hX, _, hXpar, hXch, _, _, _⟩
        exact ⟨hql, hnew0 q hq, ndX, hX, by rw [hXch, hchq1], pq, by rw [hXpar, hpq]⟩
      have hD2 : ∀ i2 ∈ live1, i2 ≠ 0 → ∀ nd2 : dp_node,
          (mark_leaves ns1 (filter_resample cfg.size cfg.n (filter_weight cfg.n cfg.threshold (fun pidx => beam_prob O st.sensor (ns1.getD pidx default).location scan (fun x y => dp_lookup ns1 st.smap x y ns1.length pidx)) new1 st.weights) new1 (O.rand rng1)))[i2]? = some nd2 → nd2.leaf = false →
          nd2.children = 0 → nd2.parent = some 0 ∨ i2 ∈ new1 := by
        intro i2 hi2 hi20 nd2 hnd2 hlf2 hch2
        have hi2lt : i2 < ns1.length := by
          have h2 := getElem?_some_lt hnd2
          rw [mark_leaves_length] at h2
          exact h2
        have hnd1 : ns1[i2]? = some ns1[i2] := List.getElem?_eq_getElem hi2lt
        rcases mark_leaves_fields (filter_resample cfg.size cfg.n (filter_weight cfg.n cfg.threshold (fun pidx => beam_prob O st.sensor (ns1.getD pidx default).location scan (fun x y => dp_lookup ns1 st.smap x y ns1.length pidx)) new1 st.weights) new1 (O.rand rng1)) ns1 i2 _ hnd1 with
          ⟨ndX, hX, _, hXpar, hXch, _, _, hXlf⟩
        have hXeq : ndX = nd2 := Option.some.inj (hX.symm.trans hnd2)
        rw [hXeq] at hXpar hXch hXlf
        have hlfY : (ns1[i2]).leaf = false := by
          rcases hXlf with h2 | h2
          · rw [← h2]
            exact hlf2
          · rw [h2] at hlf2
            cases hlf2
        have hchY : (ns1[i2]).children = 0 := by
          rw [← hXch]
          exact hch2
        rcases hchar1 i2 hi2 with hold | hnewm
        · refine Or.inl ?_
          rw [hXpar]
          exact holddead i2 hold _ hnd1 hlfY hchY hi20
        · exact Or.inr hnewm
      rcases trim_list_spec new1 (mark_leaves ns1 (filter_resample cfg.size cfg.n (filter_weight cfg.n cfg.threshold (fun pidx => beam_prob O st.sensor (ns1.getD pidx default).location scan (fun x y => dp_lookup ns1 st.smap x y ns1.length pidx)) new1 st.weights) new1 (O.rand rng1))) st.smap live1 nid1 hnodup1 hI2
          hrest2 hD2 (2 * ns1.length + 2)
          (by rw [mark_leaves_length]) with
        ⟨ns3, m3, live3, htleq, hsub3, hI3, hlen3, hmap3, hD3, hsurv3⟩
      have hs2 : s2 = (ns3, m3) := Option.some.inj (htl.symm.trans htleq)
      subst hs2
      have hps4 : ∀ q ∈ (filter_resample cfg.size cfg.n (filter_weight cfg.n cfg.threshold (fun pidx => beam_prob O st.sensor (ns1.getD pidx default).location scan (fun x y => dp_lookup ns1 st.smap x y ns1.length pidx)) new1 st.weights) new1 (O.rand rng1)), q ∈ live3 ∧
          ∃ ndq : dp_node, ns3[q]? = some ndq ∧ ndq.children = 0 := by
        intro q hq
        have hq1 : q ∈ new1 := hnpmem q hq
        rcases hsurv3 q (hnewf q hq1).1 (hnew0 q hq1) (hprop2 q hq) with ⟨hql3, hprops3⟩
        have hqlt3 : q < ns3.length := hI3.live_lt q hql3
        have hq3 : ns3[q]? = some ns3[q] := List.getElem?_eq_getElem hqlt3
        exact ⟨hql3, ns3[q], hq3, (hprops3 _ hq3).1⟩
      rcases write_fold_spec O st.sensor scan (filter_resample cfg.size cfg.n (filter_weight cfg.n cfg.threshold (fun pidx => beam_prob O st.sensor (ns1.getD pidx default).location scan (fun x y => dp_lookup ns1 st.smap x y ns1.length pidx)) new1 st.weights) new1 (O.rand rng1)) (ns3, m3) hps4
          ⟨hI3, rfl, fun j ndj hj => ⟨ndj, hj, rfl, rfl, rfl, rfl, rfl⟩⟩ with
        ⟨hI4, hlen4, htr4⟩
      have hpart3 : ∀ p ∈ (filter_resample cfg.size cfg.n (filter_weight cfg.n cfg.threshold (fun pidx => beam_prob O st.sensor (ns1.getD pidx default).location scan (fun x y => dp_lookup ns1 st.smap x y ns1.length pidx)) new1 st.weights) new1 (O.rand rng1)), ∀ nd : dp_node,
          (write_fold O st.sensor scan (filter_resample cfg.size cfg.n (filter_weight cfg.n cfg.threshold (fun pidx => beam_prob O st.sensor (ns1.getD pidx default).location scan (fun x y => dp_lookup ns1 st.smap x y ns1.length pidx)) new1 st.weights) new1 (O.rand rng1)) (ns3, m3)).1[p]? = some nd →
          nd.children = 0 ∧ (nd.leaf = true ∨ nd.parent = some 0) := by
        intro p hp nd hnd
        have hq1 := hnpmem p hp
        rcases hsurv3 p (hnewf p hq1).1 (hnew0 p hq1) (hprop2 p hp) with ⟨hpl3, hprops3⟩
        have hplt3 : p < ns3.length := hI3.live_lt p hpl3
        have hp3 : ns3[p]? = some ns3[p] := List.getElem?_eq_getElem hplt3
        rcases htr4 p _ hp3 with ⟨nd1, h1, _, _, hch1, hlf1, _⟩
        have hnd1eq : nd = nd1 := Option.some.inj (hnd.symm.trans h1)
        rcases hprops3 _ hp3 with ⟨hch3, hlf3⟩
        rw [hnd1eq]
        exact ⟨hch1.trans hch3, Or.inl (hlf1.trans hlf3)⟩
      have hdead4 : ∀ i ∈ live3, i ≠ 0 → ∀ nd : dp_node,
          (write_fold O st.sensor scan (filter_resample cfg.size cfg.n (filter_weight cfg.n cfg.threshold (fun pidx => beam_prob O st.sensor (ns1.getD pidx default).location scan (fun x y => dp_lookup ns1 st.smap x y ns1.length pidx)) new1 st.weights) new1 (O.rand rng1)) (ns3, m3)).1[i]? = some nd →
          nd.leaf = false → nd.children = 0 → nd.parent = some 0 := by
        intro i hi hi0 nd hnd hlf hch
        have hilt : i < ns3.length := hI3.live_lt i hi
        have hi3 : ns3[i]? = some ns3[i] := List.getElem?_eq_getElem hilt
        rcases htr4 i _ hi3 with ⟨nd1, h1, _, hpar1, hch1, hlf1, _⟩
        have hndeq : nd = nd1 := Option.some.inj (hnd.symm.trans h1)
        rw [hndeq] at hlf hch ⊢
        rw [hpar1]
        exact hD3 i hi hi0 _ hi3 (by rw [← hlf1]; exact hlf) (by rw [← hch1]; exact hch)
      have hst' := (Option.some.inj h).symm
      rw [hst']
      refine ⟨⟨live3, hI4, ?_, hpart3, hdead4⟩, ?_, ?_⟩
      · intro p hp
        exact ⟨(hps4 p hp).1, hnew0 p (hnpmem p hp)⟩
      · show ((filter_resample cfg.size cfg.n (filter_weight cfg.n cfg.threshold (fun pidx => beam_prob O st.sensor (ns1.getD pidx default).location scan (fun x y => dp_lookup ns1 st.smap x y ns1.length pidx)) new1 st.weights) new1 (O.rand rng1))).length = cfg.size
        exact filter_resample_length cfg.size cfg.n (filter_weight cfg.n cfg.threshold (fun pidx => beam_prob O st.sensor (ns1.getD pidx default).location scan (fun x y => dp_lookup ns1 st.smap x y ns1.length pidx)) new1 st.weights) new1 (O.rand rng1)
      · show (List.replicate cfg.size cfg.n).length = cfg.size
        exact List.length_replicate _ _
  next hress =>
    split at h
    next hmtl => cases h
    next s2 hmtl =>
      have hrest2 : ∀ q ∈ new1, q ∈ live1 ∧ q ≠ 0 ∧
          ∃ nd : dp_node, ns1[q]? = some nd ∧ nd.children = 0 ∧
            ∃ pq, nd.parent = some pq := by
        intro q hq
        rcases hnewf q hq with ⟨hql, _, ndq1, hndq1, hchq1, _, _, pq, hpq⟩
        exact ⟨hql, hnew0 q hq, ndq1, hndq1, hchq1, pq, hpq⟩
      have hD2 : ∀ i2 ∈ live1, i2 ≠ 0 → ∀ nd2 : dp_node, ns1[i2]? = some nd2 →
          nd2.leaf = false → nd2.children = 0 → nd2.parent = some 0 ∨ i2 ∈ new1 := by
        intro i2 hi2 hi20 nd2 hnd2 hlf2 hch2
        rcases hchar1 i2 hi2 with hold | hnewm
        · exact Or.inl (holddead i2 hold nd2 hnd2 hlf2 hch2 hi20)
        · exact Or.inr hnewm
      rcases mark_trim_list_spec new1 ns1 st.smap live1 nid1 hnodup1 hI1 hrest2 hD2
          (2 * ns1.length + 2) le_rfl with
        ⟨ns3, m3, live3, hmtleq, hsub3, hI3, hlen3, hmap3, hD3, hsurv3, hmemb3, _⟩
      have hs2 : s2 = (ns3, m3) := Option.some.inj (hmtl.symm.trans hmtleq)
      subst hs2
      have hps4 : ∀ q ∈ new1, q ∈ live3 ∧
          ∃ ndq : dp_node, ns3[q]? = some ndq ∧ ndq.children = 0 := by
        intro q hq
        rcases hmemb3 q hq with ⟨hql3, hprops3⟩
        have hqlt3 : q < ns3.length := hI3.live_lt q hql3
        have hq3 : ns3[q]? = some ns3[q] := List.getElem?_eq_getElem hqlt3
        exact ⟨hql3, ns3[q], hq3, (hprops3 _ hq3).1⟩
      rcases write_fold_spec O st.sensor scan new1 (ns3, m3) hps4
          ⟨hI3, rfl, fun j ndj hj => ⟨ndj, hj, rfl, rfl, rfl, rfl, rfl⟩⟩ with
        ⟨hI4, hlen4, htr4⟩
      have hpart3 : ∀ p ∈ new1, ∀ nd : dp_node,
          (write_fold O st.sensor scan new1 (ns3, m3)).1[p]? = some nd →
          nd.children = 0 ∧ (nd.leaf = true ∨ nd.parent = some 0) := by
        intro p hp nd hnd
        rcases hmemb3 p hp with ⟨hpl3, hprops3⟩
        have hplt3 : p < ns3.length := hI3.live_lt p hpl3
        have hp3 : ns3[p]? = some ns3[p] := List.getElem?_eq_getElem hplt3
        rcases htr4 p _ hp3 with ⟨nd1, h1, _, _, hch1, hlf1, _⟩
        have hnd1eq : nd = nd1 := Option.some.inj (hnd.symm.trans h1)
        rcases hprops3 _ hp3 with ⟨hch3, hlf3⟩
        rw [hnd1eq]
        exact ⟨hch1.trans hch3, Or.inl (hlf1.trans hlf3)⟩
      have hdead4 : ∀ i ∈ live3, i ≠ 0 → ∀ nd : dp_node,
          (write_fold O st.sensor scan new1 (ns3, m3)).1[i]? = some nd →
          nd.leaf = false → nd.children = 0 → nd.parent = some 0 := by
        intro i hi hi0 nd hnd hlf hch
        have hilt : i < ns3.length := hI3.live_lt i hi
        have hi3 : ns3[i]? = some ns3[i] := List.getElem?_eq_getElem hilt
        rcases htr4 i _ hi3 with ⟨nd1, h1, _, hpar1, hch1, hlf1, _⟩
        have hndeq : nd = nd1 := Option.some.inj (hnd.symm.trans h1)
        rw [hndeq] at hlf hch ⊢
        rw [hpar1]
        exact hD3 i hi hi0 _ hi3 (by rw [← hlf1]; exact hlf) (by rw [← hch1]; exact hch)
      have hst' := (Option.some.inj h).symm
      rw [hst']
      refine ⟨⟨live3, hI4, ?_, hpart3, hdead4⟩, ?_, ?_⟩
      · intro p hp
        exact ⟨(hps4 p hp).1, hnew0 p hp⟩
      · show new1.length = cfg.size
        rw [hnew1len, hlenp]
      · show ((filter_weight cfg.n cfg.threshold (fun pidx => beam_prob O st.sensor (ns1.getD pidx default).location scan (fun x y => dp_lookup ns1 st.smap x y ns1.length pidx)) new1 st.weights)).length = cfg.size
        exact (filter_weight_length cfg.n cfg.threshold (fun pidx => beam_prob O st.sensor (ns1.getD pidx default).location scan (fun x y => dp_lookup ns1 st.smap x y ns1.length pidx)) new1 st.weights).trans hzip

/-- Every reachable estimator state satisfies the invariant, under the
platform contract that the uniform draws lie in `[0, 1)`. -/
theorem slam_reach_inv {O : Oracle} (hO : ∀ k : ℕ, 0 ≤ O.rand k ∧ O.rand k < 1)
    {cfg : slam_config} {st : slam_state} (h : slam_reach O cfg st) :
    SlamInv st ∧ st.particles.length = cfg.size ∧ st.weights.length = cfg.size := by
  induction h with
  | init sensor0 _ => exact slam_init_inv cfg sensor0
  | step st2 control scan st' _ hup ih =>
    exact supdate_inv hO ih.1 ih.2.1 ih.2.2 hup

/-- With an all-zero scan the whole write phase is the identity. -/
theorem write_fold_zero (O : Oracle) (sensor : beam_model_t) (scan : ℕ → ℚ)
    (hz : ∀ i, scan i = 0) :
    ∀ (ps : List ℕ) (s : List dp_node × DPMap), write_fold O sensor scan ps s = s := by
  intro ps
  induction ps with
  | nil => intro s; rfl
  | cons q rest ih =>
    intro s
    show write_fold O sensor scan rest
      (beam_update O sensor ((s.1.getD q default).location) scan (slam_writer q) s) = s
    rw [beam_update_zero O sensor _ scan hz (slam_writer q) s, ih s]

/-- The prediction loop under a still control: no randomness is consumed
and the fresh node of the `i`-th particle is attached to the `i`-th old
particle, carrying its exact pose; parents and poses of existing slots
are untouched. -/
theorem predict_fold_still_pairs (O : Oracle) (cfg : slam_config) {control : control_t}
    (hstill : control.still = true) :
    ∀ (ps : List ℕ) (ns : List dp_node) (nid rng : ℕ) (out : List ℕ),
      (∀ q ∈ ps, q < ns.length) →
      (predict_fold O cfg control ps (ns, nid, rng, out)).2.2.1 = rng ∧
      (∃ tail : List ℕ,
        (predict_fold O cfg control ps (ns, nid, rng, out)).2.2.2 = out ++ tail) ∧
      (∀ (j : ℕ) (nd0 : dp_node), ns[j]? = some nd0 →
        ∃ nd1 : dp_node,
          (predict_fold O cfg control ps (ns, nid, rng, out)).1[j]? = some nd1 ∧
          nd1.parent = nd0.parent ∧ nd1.location = nd0.location) ∧
      (∀ i2 : ℕ, i2 < ps.length →
        ∃ ndn : dp_node,
          (predict_fold O cfg control ps (ns, nid, rng, out)).1[
            ((predict_fold O cfg control ps (ns, nid, rng, out)).2.2.2).getD
              (out.length + i2) 0]? = some ndn ∧
          ndn.parent = some (ps.getD i2 0) ∧
          ndn.location = (ns.getD (ps.getD i2 0) default).location) := by
  intro ps
  induction ps with
  | nil =>
    intro ns nid rng out _
    exact ⟨rfl, ⟨[], by simp [predict_fold]⟩, fun j nd0 h => ⟨nd0, h, rfl, rfl⟩,
      fun i2 h => absurd h (Nat.not_lt_zero i2)⟩
  | cons pidx rest ih =>
    intro ns nid rng out hps
    have hpidxlt : pidx < ns.length := hps pidx (List.mem_cons_self pidx rest)
    have hs : cfg.motion.sample O rng control ((ns.getD pidx default).location)
        = ((ns.getD pidx default).location, rng) := by
      simp [motion_model_t.sample, hstill]
    have hstep : predict_fold O cfg control (pidx :: rest) (ns, nid, rng, out)
        = predict_fold O cfg control rest
          (alloc_node ns nid ((ns.getD pidx default).location) (some pidx), nid + 1, rng,
            out ++ [ns.length]) := by
      show predict_fold O cfg control rest
        (alloc_node ns nid
            (cfg.motion.sample O rng control ((ns.getD pidx default).location)).1
            (some pidx), nid + 1,
          (cfg.motion.sample O rng control ((ns.getD pidx default).location)).2,
          out ++ [ns.length]) = _
      rw [hs]
    have hrestlt : ∀ q ∈ rest,
        q < (alloc_node ns nid ((ns.getD pidx default).location) (some pidx)).length := by
      intro q hq
      rw [alloc_node_length]
      have := hps q (List.mem_cons_of_mem pidx hq)
      omega
    rcases ih (alloc_node ns nid ((ns.getD pidx default).location) (some pidx)) (nid + 1)
        rng (out ++ [ns.length]) hrestlt with ⟨hrng, ⟨tail2, htail2⟩, hpres, hpairs⟩
    have hloc2 : ∀ q : ℕ, q < ns.length →
        ((alloc_node ns nid ((ns.getD pidx default).location) (some pidx)).getD q
          default).location = (ns.getD q default).location := by
      intro q hq
      have h1 : ns[q]? = some ns[q] := List.getElem?_eq_getElem hq
      have hgd : ns.getD q default = ns[q] := by
        rw [List.getD_eq_getElem?_getD, h1]
        rfl
      by_cases hqp : q = pidx
      · subst hqp
        have h2 := alloc_node_get_parent ns h1 nid ((ns.getD q default).location)
        have hgd2 : (alloc_node ns nid ((ns.getD q default).location) (some q)).getD q
            default = { ns[q] with leaf := false, children := (ns[q]).children + 1 } := by
          rw [List.getD_eq_getElem?_getD, h2]
          rfl
        rw [hgd2, hgd]
      · have h2 : (alloc_node ns nid ((ns.getD pidx default).location) (some pidx))[q]?
            = some ns[q] := by
          rw [alloc_node_get_old ns nid _ pidx q hq hqp]
          exact h1
        rw [List.getD_eq_getElem?_getD, h2, hgd]
        rfl
    rw [hstep]
    refine ⟨hrng, ⟨ns.length :: tail2, by rw [htail2]; simp⟩, ?_, ?_⟩
    · intro j nd0 h
      have hjlt : j < ns.length := getElem?_some_lt h
      by_cases hjp : j = pidx
      · subst hjp
        have h2 := alloc_node_get_parent ns h nid ((ns.getD j default).location)
        rcases hpres j _ h2 with ⟨nd1, h3, hpar3, hloc3⟩
        exact ⟨nd1, h3, hpar3, hloc3⟩
      · have h2 : (alloc_node ns nid ((ns.getD pidx default).location) (some pidx))[j]?
            = some nd0 := by
          rw [alloc_node_get_old ns nid _ pidx j hjlt hjp]
          exact h
        exact hpres j nd0 h2
    · intro i2 hi2
      cases i2 with
      | zero =>
        rcases hpres ns.length _
            (alloc_node_get_new ns nid ((ns.getD pidx default).location) pidx) with
          ⟨nd1, h3, hpar3, hloc3⟩
        refine ⟨nd1, ?_, hpar3, hloc3⟩
        have hidx : ((predict_fold O cfg control rest
            (alloc_node ns nid ((ns.getD pidx default).location) (some pidx), nid + 1, rng,
              out ++ [ns.length])).2.2.2).getD (out.length + 0) 0 = ns.length := by
          rw [htail2]
          have h4 : (out ++ (ns.length :: tail2)).getD (out.length + 0) 0 = ns.length := by
            rw [List.getD_eq_getElem?_getD]
            rw [List.getElem?_append_right (by omega)]
            simp
          rw [← List.singleton_append, ← List.append_assoc] at h4
          exact h4
        rw [hidx]
        exact h3
      | succ j =>
        have hjlt : j < rest.length := by
          have h4 := hi2
          simp only [List.length_cons] at h4
          omega
        rcases hpairs j hjlt with ⟨ndn, h3, hpar3, hloc3⟩
        refine ⟨ndn, ?_, ?_, ?_⟩
        · have hidx : (out ++ [ns.length]).length + j = out.length + (j + 1) := by
            simp only [List.length_append, List.length_singleton]
            omega
          rw [← hidx]
          exact h3
        · rw [hpar3]
          rfl
        · rw [hloc3]
          have hq : rest.getD j 0 ∈ rest := by
            have h5 : rest.getD j 0 = rest[j] := by
              rw [List.getD_eq_getElem?_getD, List.getElem?_eq_getElem hjlt]
              rfl
            rw [h5]
            exact List.getElem_mem hjlt
          have hqlt : rest.getD j 0 < ns.length := hps _ (List.mem_cons_of_mem pidx hq)
          rw [hloc2 _ hqlt]
          rfl

/-! ### Ancestor-chain observations -/

theorem ancestor_chain_succ (ns : List dp_node) (fuel i : ℕ) :
    ancestor_chain ns (fuel + 1) i =
      i :: (match ns[i]? with
        | none => []
        | some nd =>
          match nd.parent with
          | none => []
          | some p => ancestor_chain ns fuel p) := rfl

theorem ancestor_chain_none {ns : List dp_node} {fuel i : ℕ} (h : ns[i]? = none) :
    ancestor_chain ns (fuel + 1) i = [i] := by
  rw [ancestor_chain_succ, h]

theorem ancestor_chain_some {ns : List dp_node} {fuel i : ℕ} {nd : dp_node}
    (h : ns[i]? = some nd) :
    ancestor_chain ns (fuel + 1) i =
      i :: (match nd.parent with
        | none => []
        | some p => ancestor_chain ns fuel p) := by
  rw [ancestor_chain_succ, h]

theorem ancestor_chain_rootnode {ns : List dp_node} {fuel i : ℕ} {nd : dp_node}
    (h : ns[i]? = some nd) (hp : nd.parent = none) :
    ancestor_chain ns (fuel + 1) i = [i] := by
  rw [ancestor_chain_some h, hp]

theorem ancestor_chain_step {ns : List dp_node} {fuel i p : ℕ} {nd : dp_node}
    (h : ns[i]? = some nd) (hp : nd.parent = some p) :
    ancestor_chain ns (fuel + 1) i = i :: ancestor_chain ns fuel p := by
  rw [ancestor_chain_some h, hp]

theorem ancestor_chain_mem_le {ns : List dp_node}
    (hdec : ∀ (j : ℕ) (nd : dp_node), ns[j]? = some nd → ∀ p, nd.parent = some p → p < j) :
    ∀ (fuel i j : ℕ), j ∈ ancestor_chain ns fuel i → j ≤ i := by
  intro fuel
  induction fuel with
  | zero => intro i j hj; exact absurd hj (List.not_mem_nil j)
  | succ fuel ih =>
    intro i j hj
    cases hnd : ns[i]? with
    | none =>
      rw [ancestor_chain_none hnd] at hj
      rw [List.mem_singleton.mp hj]
    | some nd =>
      cases hp : nd.parent with
      | none =>
        rw [ancestor_chain_rootnode hnd hp] at hj
        rw [List.mem_singleton.mp hj]
      | some p =>
        rw [ancestor_chain_step hnd hp] at hj
        rcases List.mem_cons.mp hj with h2 | h2
        · omega
        · have h3 := ih p j h2
          have h4 := hdec i nd hnd p hp
          omega

/-- Every member of the ancestor chain is an ancestor in the `IsAnc`
sense. -/
theorem ancestor_chain_anc {ns : List dp_node} :
    ∀ (fuel i j : ℕ), j ∈ ancestor_chain ns fuel i → IsAnc ns i j := by
  intro fuel
  induction fuel with
  | zero => intro i j hj; exact absurd hj (List.not_mem_nil j)
  | succ fuel ih =>
    intro i j hj
    cases hnd : ns[i]? with
    | none =>
      rw [ancestor_chain_none hnd] at hj
      rw [List.mem_singleton.mp hj]
      exact IsAnc.refl i
    | some nd =>
      cases hp : nd.parent with
      | none =>
        rw [ancestor_chain_rootnode hnd hp] at hj
        rw [List.mem_singleton.mp hj]
        exact IsAnc.refl i
      | some p =>
        rw [ancestor_chain_step hnd hp] at hj
        rcases List.mem_cons.mp hj with h2 | h2
        · rw [h2]
          exact IsAnc.refl i
        · exact IsAnc.step hnd hp (ih p j h2)

theorem ancestor_chain_pairwise {ns : List dp_node}
    (hdec : ∀ (j : ℕ) (nd : dp_node), ns[j]? = some nd → ∀ p, nd.parent = some p → p < j) :
    ∀ (fuel i : ℕ), List.Pairwise (fun a b => b < a) (ancestor_chain ns fuel i) := by
  intro fuel
  induction fuel with
  | zero => intro i; exact List.Pairwise.nil
  | succ fuel ih =>
    intro i
    cases hnd : ns[i]? with
    | none =>
      rw [ancestor_chain_none hnd]
      exact List.pairwise_singleton _ _
    | some nd =>
      cases hp : nd.parent with
      | none =>
        rw [ancestor_chain_rootnode hnd hp]
        exact List.pairwise_singleton _ _
      | some p =>
        rw [ancestor_chain_step hnd hp]
        refine List.pairwise_cons.mpr ⟨?_, ih p⟩
        intro b hb
        have h3 := ancestor_chain_mem_le hdec fuel p b hb
        have h4 := hdec i nd hnd p hp
        omega

theorem length_le_one_of_nodup_allequal {l : List ℕ} (hnd : l.Nodup)
    (hall : ∀ a ∈ l, ∀ b ∈ l, a = b) : l.length ≤ 1 := by
  cases l with
  | nil => simp
  | cons a t =>
    cases t with
    | nil => simp
    | cons b t2 =>
      exfalso
      have hab : a = b := hall a (List.mem_cons_self a _) b
        (List.mem_cons_of_mem a (List.mem_cons_self b t2))
      have h2 := List.nodup_cons.mp hnd
      apply h2.1
      rw [hab]
      exact List.mem_cons_self b t2

theorem entry_of_chain_pred {ns : List dp_node} {m : DPMap} {x y : ℤ} {j : ℕ}
    (h : (match ns[j]? with
      | some nd => (map_lookup_by_id m x y nd.id).isSome
      | none => false) = true) : entry_at ns m x y j := by
  cases h2 : ns[j]? with
  | none =>
    rw [h2] at h
    simp at h
  | some nd =>
    rw [h2] at h
    exact ⟨nd, h2, h⟩

/-- C1: on every reachable state of the estimator (under the platform
contract that `Math.random()` returns values in `[0, 1)`), along the
root-to-leaf ancestry path of every current particle, at most one node
owns a defined map entry at any cell: the first-writer-wins check of
`dp_map_t.update` and the rename/erase bookkeeping of `trim` preserve
chain uniqueness. -/
theorem C1_chain_entry_at_most_one {O : Oracle} {cfg : slam_config} {st : slam_state}
    (hO : ∀ k : ℕ, 0 ≤ O.rand k ∧ O.rand k < 1) (hreach : slam_reach O cfg st)
    {p : ℕ} (hp : p ∈ st.particles) (x y : ℤ) :
    chain_entry_count st.nodes st.smap x y
      (ancestor_chain st.nodes st.nodes.length p) ≤ 1 := by
  obtain ⟨⟨live, hI, hpl, _, _⟩, _, _⟩ := slam_reach_inv hO hreach
  have hplive : p ∈ live := (hpl p hp).1
  have hdec := hI.parent_dec
  show ((ancestor_chain st.nodes st.nodes.length p).filter
    (fun j => match st.nodes[j]? with
      | some nd => (map_lookup_by_id st.smap x y nd.id).isSome
      | none => false)).length ≤ 1
  apply length_le_one_of_nodup_allequal
  · exact List.Nodup.filter _
      ((ancestor_chain_pairwise hdec _ _).imp (fun h => ne_of_gt h))
  · intro a ha b hb
    have hac := List.mem_filter.mp ha
    have hbc := List.mem_filter.mp hb
    exact hI.uniq p hplive x y a b
      (ancestor_chain_anc _ _ _ hac.1) (ancestor_chain_anc _ _ _ hbc.1)
      (entry_of_chain_pred hac.2) (entry_of_chain_pred hbc.2)

/-- Witness for C1 at the freshly constructed two-particle estimator. -/
theorem C1_chain_entry_at_most_one_witness :
    (∀ k : ℕ, 0 ≤ zero_oracle.rand k ∧ zero_oracle.rand k < 1) ∧
    1 ∈ (slam_init c5_cfg unit_sensor).particles ∧
    chain_entry_count (slam_init c5_cfg unit_sensor).nodes
      (slam_init c5_cfg unit_sensor).smap 0 0
      (ancestor_chain (slam_init c5_cfg unit_sensor).nodes
        (slam_init c5_cfg unit_sensor).nodes.length 1) ≤ 1 :=
  ⟨fun k => ⟨le_refl 0, zero_lt_one⟩, by decide,
    @C1_chain_entry_at_most_one zero_oracle c5_cfg (slam_init c5_cfg unit_sensor)
      (fun k => ⟨le_refl 0, zero_lt_one⟩) (slam_reach.init unit_sensor rfl) 1
      (by decide) 0 0⟩

/-- C5 (amended): on every reachable state, every attached non-root node
with `children == 0` and `leaf == false` is a direct child of the root:
`trim` stops at the root's children, so dead children of the root are
never pruned, and they are the only dead ends the tree retains. -/
theorem C5_attached_dead_ends_are_root_children {O : Oracle} {cfg : slam_config}
    {st : slam_state} (hO : ∀ k : ℕ, 0 ≤ O.rand k ∧ O.rand k < 1)
    (hreach : slam_reach O cfg st) {i : ℕ} (hi0 : i ≠ 0)
    (hatt : attached st.nodes i) {nd : dp_node} (hnd : st.nodes[i]? = some nd)
    (hlf : nd.leaf = false) (hch : nd.children = 0) : nd.parent = some 0 := by
  obtain ⟨⟨live, hI, _, _, hDead⟩, _, _⟩ := slam_reach_inv hO hreach
  have hpar : ∃ p, nd.parent = some p := by
    unfold attached at hatt
    cases hf : st.nodes.length with
    | zero =>
      rw [hf] at hatt
      simp [ancestor_chain] at hatt
    | succ f =>
      rw [hf] at hatt
      cases hp : nd.parent with
      | some p => exact ⟨p, rfl⟩
      | none =>
        rw [ancestor_chain_rootnode hnd hp] at hatt
        simp at hatt
        exact absurd hatt hi0
  rcases hpar with ⟨p, hp⟩
  by_cases hil : i ∈ live
  · exact hDead i hil hi0 nd hnd hlf hch
  · have h2 := hI.garbage_one i hil (Finset.not_mem_empty i) nd hnd p hp
    rw [hch] at h2
    exact absurd h2 (by decide)

/-- Witness for C5: the first particle of the freshly constructed
estimator is attached, childless, unmarked and indeed a root child. -/
theorem C5_attached_dead_ends_are_root_children_witness :
    (1 : ℕ) ≠ 0 ∧
    attached (slam_init c5_cfg unit_sensor).nodes 1 ∧
    (slam_init c5_cfg unit_sensor).nodes[1]?
      = some { id := 1, location := ⟨0, 0, 0⟩, parent := some 0, leaf := false, children := 0, modified_cells := [] } ∧
    ({ id := 1, location := ⟨0, 0, 0⟩, parent := some 0, leaf := false, children := 0, modified_cells := [] } : dp_node).parent = some 0 :=
  ⟨by decide, by decide, by decide,
    @C5_attached_dead_ends_are_root_children zero_oracle c5_cfg
      (slam_init c5_cfg unit_sensor) (fun k => ⟨le_refl 0, zero_lt_one⟩)
      (slam_reach.init unit_sensor rfl) 1 (by decide) (by decide)
      { id := 1, location := ⟨0, 0, 0⟩, parent := some 0, leaf := false, children := 0, modified_cells := [] }
      (by decide) rfl rfl⟩

/-- C9 (amended): on every reachable state, `trim` with the driver's
fuel succeeds on every current particle, and a second call on the result
returns the result unchanged — idempotence holds at the nodes the driver
actually trims, while the untrimmed root itself would crash (see the
counterexample). -/
theorem C9_trim_idempotent_on_particles {O : Oracle} {cfg : slam_config}
    {st : slam_state} (hO : ∀ k : ℕ, 0 ≤ O.rand k ∧ O.rand k < 1)
    (hreach : slam_reach O cfg st) {p : ℕ} (hp : p ∈ st.particles) :
    ∃ r : List dp_node × DPMap,
      trim (2 * st.nodes.length + 2) st.nodes st.smap p = some r ∧
      trim (2 * st.nodes.length + 2) r.1 r.2 p = some r := by
  obtain ⟨⟨live, hI, hpl, hpfacts, _⟩, _, _⟩ := slam_reach_inv hO hreach
  obtain ⟨hplive, hp0⟩ := hpl p hp
  have hplt : p < st.nodes.length := hI.live_lt p hplive
  have hnd : st.nodes[p]? = some st.nodes[p] := List.getElem?_eq_getElem hplt
  obtain ⟨hch, hor⟩ := hpfacts p hp _ hnd
  rcases hI.parent_live p hplive hp0 _ hnd with ⟨pp, hpp, _⟩
  have hpplt : pp < p := hI.parent_dec p _ hnd pp hpp
  rcases hor with hleaf | hproot
  · rcases trim_spec (2 * st.nodes.length + 2) st.nodes st.smap live st.next_id ∅ p pp
        (st.nodes[p]) hI hplive hp0 hnd hpp (by omega) with
      ⟨ns', m', live', htrim, _, hI', hlen', _, _, hsurv, _, _, _⟩
    have hnotdead : ¬ ((st.nodes[p]).leaf = false ∧ (st.nodes[p]).children = 0) := by
      rintro ⟨h1, _⟩
      rw [hleaf] at h1
      cases h1
    rcases hsurv hnotdead with ⟨hpl', _, hidem⟩
    have hplt' : p < ns'.length := hI'.live_lt p hpl'
    have hnd' : ns'[p]? = some ns'[p] := List.getElem?_eq_getElem hplt'
    rcases hI'.parent_live p hpl' hp0 _ hnd' with ⟨pp', hpp', _⟩
    have hpplt' : pp' < p := hI'.parent_dec p _ hnd' pp' hpp'
    exact ⟨(ns', m'), htrim, hidem (2 * st.nodes.length + 2) pp' _ hnd' hpp' (by omega)⟩
  · have hroot : st.nodes[0]? = some st.nodes[0] := List.getElem?_eq_getElem hI.root_lt
    have hrootid : (st.nodes[0]).id = 0 := (hI.root_node _ hroot).2
    have heval : trim (2 * st.nodes.length + 1 + 1) st.nodes st.smap p
        = some (st.nodes, st.smap) := by
      rw [trim_eq_body hnd hproot hroot]
      exact trim_body_root hrootid
    exact ⟨(st.nodes, st.smap), heval, heval⟩

/-- Witness for C9 at the freshly constructed two-particle estimator. -/
theorem C9_trim_idempotent_on_particles_witness :
    1 ∈ (slam_init c5_cfg unit_sensor).particles ∧
    ∃ r : List dp_node × DPMap,
      trim (2 * (slam_init c5_cfg unit_sensor).nodes.length + 2)
        (slam_init c5_cfg unit_sensor).nodes (slam_init c5_cfg unit_sensor).smap 1
        = some r ∧
      trim (2 * (slam_init c5_cfg unit_sensor).nodes.length + 2) r.1 r.2 1 = some r :=
  ⟨by decide,
    @C9_trim_idempotent_on_particles zero_oracle c5_cfg (slam_init c5_cfg unit_sensor)
      (fun k => ⟨le_refl 0, zero_lt_one⟩) (slam_reach.init unit_sensor rfl) 1
      (by decide)⟩

/-- C7 (amended): if the control is still, every scan entry is zero and
the effective-sample-size test does not trigger a resample, then the
update succeeds, keeps the particle count, keeps every particle's pose
slot for slot, and every particle's map reads are unchanged: the fresh
node of the `i`-th particle reads exactly what the `i`-th old particle
read at every cell (trim may still rename ids and erase garbage, so the
raw store is only preserved up to these lookups). -/
theorem C7_still_zero_scan_frame {O : Oracle} {cfg : slam_config} {st : slam_state}
    (hO : ∀ k : ℕ, 0 ≤ O.rand k ∧ O.rand k < 1) (hreach : slam_reach O cfg st)
    {control : control_t} (hstill : control.still = true) {scan : ℕ → ℚ}
    (hscan : ∀ i, scan i = 0)
    (hnores : ¬ supdate_resamples O cfg control scan st) :
    ∃ st' : slam_state, supdate O cfg control scan st = some st' ∧
      st'.particles.length = st.particles.length ∧
      particle_poses st' = particle_poses st ∧
      (∀ (i2 : ℕ) (x y : ℤ),
        dp_lookup st'.nodes st'.smap x y st'.nodes.length (st'.particles.getD i2 0)
          = dp_lookup st.nodes st.smap x y st.nodes.length
              (st.particles.getD i2 0)) := by
  obtain ⟨⟨live, hI, hpl, hpfacts, hDead⟩, hplen, hwlen⟩ := slam_reach_inv hO hreach
  rcases predict_fold_spec O cfg control st.particles st.nodes st.smap live st.next_id
      st.rng [] hI (fun q hq => (hpl q hq).1) with
    ⟨ns1, nid1, rng1, new1, live1, heq1, hI1, hsub1, hchar1, hlen1, hnew1len, hnodup1,
      hnewf, htr1⟩
  have heq1' : predict_fold O cfg control st.particles (st.nodes, st.next_id, st.rng, [])
      = (ns1, nid1, rng1, new1) := by
    rw [heq1]
    simp
  have hstillpack := predict_fold_still_pairs O cfg hstill st.particles st.nodes
      st.next_id st.rng [] (fun q hq => hI.live_lt q (hpl q hq).1)
  rw [heq1'] at hstillpack
  dsimp only at hstillpack
  simp only [List.length_nil, Nat.zero_add] at hstillpack
  obtain ⟨_, _, _, hpairs1⟩ := hstillpack
  have hnew0 : ∀ q ∈ new1, q ≠ 0 := by
    intro q hq
    rcases hnewf q hq with ⟨_, hge, _⟩
    have := hI.root_lt
    omega
  have holddead : ∀ i2 ∈ live, ∀ ndY : dp_node, ns1[i2]? = some ndY →
      ndY.leaf = false → ndY.children = 0 → i2 ≠ 0 → ndY.parent = some 0 := by
    intro i2 hold ndY hndY hlfY hchY hi20
    have hi2lt0 : i2 < st.nodes.length := hI.live_lt i2 hold
    have hnd0 : st.nodes[i2]? = some st.nodes[i2] := List.getElem?_eq_getElem hi2lt0
    rcases htr1 i2 _ hnd0 with ⟨ndZ, hZ, _, hZpar, _, _, hZmono, hZor, _⟩
    have hZeq : ndZ = ndY := Option.some.inj (hZ.symm.trans hndY)
    rw [hZeq] at hZpar hZmono hZor
    have hc := hI.counts i2 hold _ hnd0
    have hch0' : (st.nodes[i2]).children = 0 := by
      rw [hchY] at hZmono
      have h3 : (0 : ℤ) ≤ (st.nodes[i2]).children := by
        rw [hc]
        exact_mod_cast Nat.zero_le _
      omega
    have hlf0' : (st.nodes[i2]).leaf = false := by
      rcases hZor with h2 | h2
      · rw [← h2]
        exact hlfY
      · rw [hch0', hchY] at h2
        exact absurd h2 (lt_irrefl 0)
    have hpar0 := hDead i2 hold hi20 _ hnd0 hlf0' hch0'
    rw [hZpar]
    exact hpar0
  have hrest2 : ∀ q ∈ new1, q ∈ live1 ∧ q ≠ 0 ∧
      ∃ nd : dp_node, ns1[q]? = some nd ∧ nd.children = 0 ∧
        ∃ pq, nd.parent = some pq := by
    intro q hq
    rcases hnewf q hq with ⟨hql, _, ndq1, hndq1, hchq1, _, _, pq, hpq⟩
    exact ⟨hql, hnew0 q hq, ndq1, hndq1, hchq1, pq, hpq⟩
  have hD2 : ∀ i2 ∈ live1, i2 ≠ 0 → ∀ nd2 : dp_node, ns1[i2]? = some nd2 →
      nd2.leaf = false → nd2.children = 0 → nd2.parent = some 0 ∨ i2 ∈ new1 := by
    intro i2 hi2 hi20 nd2 hnd2 hlf2 hch2
    rcases hchar1 i2 hi2 with hold | hnewm
    · exact Or.inl (holddead i2 hold nd2 hnd2 hlf2 hch2 hi20)
    · exact Or.inr hnewm
  rcases mark_trim_list_spec new1 ns1 st.smap live1 nid1 hnodup1 hI1 hrest2 hD2
      (2 * ns1.length + 2) le_rfl with
    ⟨ns3, m3, live3, hmtleq, hsub3, hI3, hlen3, hmap3, hD3, hsurv3, hmemb3, hlk3⟩
  have hcond : ¬ (filter_ess (filter_weight cfg.n cfg.threshold (fun pidx => beam_prob O st.sensor (ns1.getD pidx default).location scan (fun x y => dp_lookup ns1 st.smap x y ns1.length pidx)) new1 st.weights) < cfg.resample_size) := by
    intro hc
    apply hnores
    show supdate_resamples O cfg control scan st
    simp only [supdate_resamples]
    rw [heq1']
    dsimp only
    exact hc
  refine ⟨({ nodes := ns3, smap := m3, weights := (filter_weight cfg.n cfg.threshold (fun pidx => beam_prob O st.sensor (ns1.getD pidx default).location scan (fun x y => dp_lookup ns1 st.smap x y ns1.length pidx)) new1 st.weights), particles := new1, next_id := nid1, sensor := st.sensor.increment, rng := rng1 } : slam_state), ?_, ?_, ?_, ?_⟩
  · simp only [supdate]
    rw [heq1']
    dsimp only
    rw [if_neg hcond]
    rw [hmtleq]
    show some ({ nodes := (write_fold O st.sensor scan new1 (ns3, m3)).1, smap := (write_fold O st.sensor scan new1 (ns3, m3)).2, weights := (filter_weight cfg.n cfg.threshold (fun pidx => beam_prob O st.sensor (ns1.getD pidx default).location scan (fun x y => dp_lookup ns1 st.smap x y ns1.length pidx)) new1 st.weights), particles := new1, next_id := nid1, sensor := st.sensor.increment, rng := rng1 } : slam_state) = _
    rw [write_fold_zero O st.sensor scan hscan new1 (ns3, m3)]
  · show new1.length = st.particles.length
    exact hnew1len
  · show new1.map (fun i => (ns3.getD i default).location)
      = st.particles.map (fun i => (st.nodes.getD i default).location)
    apply List.ext_getElem?
    intro n
    rw [List.getElem?_map, List.getElem?_map]
    by_cases hn : n < st.particles.length
    · have hn1 : n < new1.length := by
        rw [hnew1len]
        exact hn
      rw [List.getElem?_eq_getElem hn1, List.getElem?_eq_getElem hn]
      simp only [Option.map_some']
      congr 1
      have hgd1 : new1[n] = new1.getD n 0 := by
        rw [List.getD_eq_getElem?_getD, List.getElem?_eq_getElem hn1]
        rfl
      have hgd0 : st.particles[n] = st.particles.getD n 0 := by
        rw [List.getD_eq_getElem?_getD, List.getElem?_eq_getElem hn]
        rfl
      rw [hgd1, hgd0]
      rcases hpairs1 n hn with ⟨ndn, hndn, _, hloc⟩
      have h3 := hmap3 (new1.getD n 0)
      rw [hndn] at h3
      simp only [Option.map_some'] at h3
      rcases Option.map_eq_some'.mp h3 with ⟨nd3, h4, h5⟩
      have hgd3 : ns3.getD (new1.getD n 0) default = nd3 := by
        rw [List.getD_eq_getElem?_getD, h4]
        rfl
      rw [hgd3, h5, hloc]
    · have hn1 : ¬ n < new1.length := by
        rw [hnew1len]
        exact hn
      rw [List.getElem?_eq_none (by omega), List.getElem?_eq_none (by omega)]
      rfl
  · intro i2 x y
    show dp_lookup ns3 m3 x y ns3.length (new1.getD i2 0)
      = dp_lookup st.nodes st.smap x y st.nodes.length (st.particles.getD i2 0)
    have hdec0 := hI.parent_dec
    have hL : 0 < st.nodes.length := hI.root_lt
    have hlen1' : ns1.length = st.nodes.length + st.particles.length := hlen1
    have hsim : ∀ (f k : ℕ), k < st.nodes.length →
        dp_lookup ns1 st.smap x y f k = dp_lookup st.nodes st.smap x y f k := by
      intro f k hk
      refine dp_lookup_sim (fun k => k < st.nodes.length) ?_ f k hk
      intro k2 hk2
      have h1 : st.nodes[k2]? = some st.nodes[k2] := List.getElem?_eq_getElem hk2
      rcases htr1 k2 _ h1 with ⟨nd1, h2, hid2, hpar2, _, _, _, _, _⟩
      refine Or.inr ⟨st.nodes[k2], nd1, h1, h2, ?_, hpar2, ?_⟩
      · show map_lookup_by_id st.smap x y nd1.id
          = map_lookup_by_id st.smap x y (st.nodes[k2]).id
        rw [hid2]
      · intro p hp
        have := hdec0 k2 _ h1 p hp
        omega
    by_cases hi2 : i2 < st.particles.length
    · have hi2n : i2 < new1.length := by
        rw [hnew1len]
        exact hi2
      have hq : new1.getD i2 0 ∈ new1 := by
        have h5 : new1.getD i2 0 = new1[i2] := by
          rw [List.getD_eq_getElem?_getD, List.getElem?_eq_getElem hi2n]
          rfl
        rw [h5]
        exact List.getElem_mem hi2n
      rcases hmemb3 _ hq with ⟨hql3, _⟩
      rw [hlk3 _ hql3 x y]
      rcases hpairs1 i2 hi2 with ⟨ndn, hndn, hpar, _⟩
      rcases hnewf _ hq with ⟨hql1, _, ndq, hndq, _, _, hcellsq, _⟩
      have hnd_eq : ndq = ndn := Option.some.inj (hndq.symm.trans hndn)
      have hvalnone : map_lookup_by_id st.smap x y ndn.id = none := by
        cases hsv : st.smap x y ndn.id with
        | none => exact hsv
        | some b =>
          exfalso
          have hisSome : (st.smap x y ndn.id).isSome = true := by
            rw [hsv]
            rfl
          rcases hI1.owner x y ndn.id hisSome with ⟨jj, hjj, ndjj, hndjj, hidjj, hmemjj⟩
          by_cases hjq : jj = new1.getD i2 0
          · rw [hjq] at hndjj
            have he2 : ndjj = ndn := Option.some.inj (hndjj.symm.trans hndn)
            rw [he2, ← hnd_eq, hcellsq] at hmemjj
            cases hmemjj
          · exact hI1.ids_distinct jj hjj _ hql1 hjq ndjj hndjj ndn hndn hidjj
      obtain ⟨f1, hf1⟩ : ∃ f1, ns1.length = f1 + 1 := ⟨ns1.length - 1, by omega⟩
      rw [hf1, dp_lookup_step hndn hvalnone hpar]
      have hplt : st.particles.getD i2 0 < st.nodes.length := by
        have h5 : st.particles.getD i2 0 = st.particles[i2] := by
          rw [List.getD_eq_getElem?_getD, List.getElem?_eq_getElem hi2]
          rfl
        rw [h5]
        exact hI.live_lt _ (hpl _ (List.getElem_mem hi2)).1
      rw [hsim f1 _ hplt]
      exact dp_lookup_fuel hdec0 f1 st.nodes.length _ (by omega) (by omega)
    · have hi2n : ¬ i2 < new1.length := by
        rw [hnew1len]
        exact hi2
      have hgd1 : new1.getD i2 0 = 0 := by
        rw [List.getD_eq_getElem?_getD, List.getElem?_eq_none (by omega)]
        rfl
      have hgd0 : st.particles.getD i2 0 = 0 := by
        rw [List.getD_eq_getElem?_getD, List.getElem?_eq_none (by omega)]
        rfl
      rw [hgd1, hgd0, hlk3 0 hI3.root_live x y, hsim ns1.length 0 hI.root_lt]
      exact dp_lookup_fuel hdec0 ns1.length st.nodes.length 0 (by omega) (by omega)

unseal Rat.add Rat.mul Rat.sub Rat.inv in
/-- Witness for C7 at the freshly constructed two-particle estimator with
resampling disabled (`frac = 0`). -/
theorem C7_still_zero_scan_frame_witness :
    still_control.still = true ∧
    (∀ i : ℕ, (fun _ : ℕ => (0 : ℚ)) i = 0) ∧
    ¬ supdate_resamples zero_oracle c7b_cfg still_control (fun _ => 0)
      (slam_init c7b_cfg unit_sensor) ∧
    (∃ st' : slam_state,
      supdate zero_oracle c7b_cfg still_control (fun _ => 0)
        (slam_init c7b_cfg unit_sensor) = some st' ∧
      st'.particles.length = (slam_init c7b_cfg unit_sensor).particles.length ∧
      particle_poses st' = particle_poses (slam_init c7b_cfg unit_sensor) ∧
      (∀ (i2 : ℕ) (x y : ℤ),
        dp_lookup st'.nodes st'.smap x y st'.nodes.length (st'.particles.getD i2 0)
          = dp_lookup (slam_init c7b_cfg unit_sensor).nodes
              (slam_init c7b_cfg unit_sensor).smap x y
              (slam_init c7b_cfg unit_sensor).nodes.length
              ((slam_init c7b_cfg unit_sensor).particles.getD i2 0))) :=
  ⟨by decide, fun i => rfl, by simp only [supdate_resamples]; decide,
    @C7_still_zero_scan_frame zero_oracle c7b_cfg (slam_init c7b_cfg unit_sensor)
      (fun k => ⟨le_refl 0, zero_lt_one⟩) (slam_reach.init unit_sensor rfl)
      still_control (by decide) (fun _ => 0) (fun i => rfl)
      (by simp only [supdate_resamples]; decide)⟩

/-- The ancestry walk of `dp_map_t.update` reports `true` exactly when
some node along the ancestry chain owns a defined entry at `(x, y)`. -/
theorem dp_update_check_iff (ns : List dp_node) (m : DPMap) (x y : ℤ) :
    ∀ (fuel i : ℕ),
      dp_update_check ns m x y fuel i = true ↔
        ∃ j ∈ ancestor_chain ns fuel i, ∃ nd, ns[j]? = some nd ∧
          (map_lookup_by_id m x y nd.id).isSome := by
  intro fuel
  induction fuel with
  | zero => intro i; simp [dp_update_check, ancestor_chain]
  | succ fuel ih =>
    intro i
    cases hnd : ns[i]? with
    | none => simp [dp_update_check, ancestor_chain, hnd]
    | some nd =>
      cases hp : nd.parent with
      | none =>
        simp [dp_update_check, ancestor_chain, hnd, hp]
      | some p =>
        simp only [dp_update_check, ancestor_chain, hnd, hp, List.mem_cons,
          Bool.if_true_left, Bool.or_eq_true, Bool.decide_eq_true, ih p]
        constructor
        · intro h
          rcases h with h | ⟨j, hj, a, ha, hsa⟩
          · exact ⟨i, Or.inl rfl, nd, hnd, h⟩
          · exact ⟨j, Or.inr hj, a, ha, hsa⟩
        · rintro ⟨j, hj, a, ha, hsa⟩
          rcases hj with rfl | hj
          · rw [hnd] at ha
            cases ha
            exact Or.inl hsa
          · exact Or.inr ⟨j, hj, a, ha, hsa⟩

/-- C4: `dp_map_t.update(v, cx, cy, node)` is first-writer-wins along the
ancestry: it returns `false` and leaves the map unchanged when the node
or any of its ancestors already owns an entry at `(cx, cy)`, and
otherwise installs the value keyed by the node's id and returns `true`. -/
theorem C4_update_first_writer_wins (ns : List dp_node) (m : DPMap) (value : Bool)
    (x y : ℤ) (i : ℕ) (nd : dp_node) (hnd : ns[i]? = some nd) :
    ((∃ j ∈ ancestor_chain ns ns.length i, ∃ a, ns[j]? = some a ∧
        (map_lookup_by_id m x y a.id).isSome) →
      dp_map_update ns m value x y i = (m, false)) ∧
    ((∀ j ∈ ancestor_chain ns ns.length i, ∀ a, ns[j]? = some a →
        map_lookup_by_id m x y a.id = none) →
      dp_map_update ns m value x y i = (map_update_by_id m value x y nd.id, true)) := by
  constructor
  · intro h
    have hc : dp_update_check ns m x y ns.length i = true :=
      (dp_update_check_iff ns m x y ns.length i).mpr h
    simp [dp_map_update, hc]
  · intro h
    have hc : dp_update_check ns m x y ns.length i = false := by
      rw [Bool.eq_false_iff]
      intro hcon
      rcases (dp_update_check_iff ns m x y ns.length i).mp hcon with ⟨j, hj, a, ha, hsa⟩
      rw [h j hj a ha] at hsa
      simp at hsa
    simp [dp_map_update, hc, hnd]

/-- Witness for C4: the spec's concrete scenario.  Root has child `A`
(id 1) with child `B` (id 2); `update(occupied, 2, 3, A)` installs, the
subsequent `update(free, 2, 3, B)` returns false leaving the map
unchanged, and `lookup(2, 3, B)` still reports occupied. -/
theorem C4_update_first_writer_wins_witness :
    dp_map_update
      [⟨0, ⟨0,0,0⟩, none, false, 1, []⟩, ⟨1, ⟨0,0,0⟩, some 0, false, 1, []⟩,
       ⟨2, ⟨0,0,0⟩, some 1, true, 0, []⟩]
      (dp_map_update
        [⟨0, ⟨0,0,0⟩, none, false, 1, []⟩, ⟨1, ⟨0,0,0⟩, some 0, false, 1, []⟩,
         ⟨2, ⟨0,0,0⟩, some 1, true, 0, []⟩]
        (fun _ _ _ => none) true 2 3 1).1 false 2 3 2 =
      ((dp_map_update
        [⟨0, ⟨0,0,0⟩, none, false, 1, []⟩, ⟨1, ⟨0,0,0⟩, some 0, false, 1, []⟩,
         ⟨2, ⟨0,0,0⟩, some 1, true, 0, []⟩]
        (fun _ _ _ => none) true 2 3 1).1, false) ∧
    dp_lookup
      [⟨0, ⟨0,0,0⟩, none, false, 1, []⟩, ⟨1, ⟨0,0,0⟩, some 0, false, 1, []⟩,
       ⟨2, ⟨0,0,0⟩, some 1, true, 0, []⟩]
      (dp_map_update
        [⟨0, ⟨0,0,0⟩, none, false, 1, []⟩, ⟨1, ⟨0,0,0⟩, some 0, false, 1, []⟩,
         ⟨2, ⟨0,0,0⟩, some 1, true, 0, []⟩]
        (fun _ _ _ => none) true 2 3 1).1 2 3 3 2 = true := by
  refine ⟨(C4_update_first_writer_wins _ _ false 2 3 2 ⟨2, ⟨0,0,0⟩, some 1, true, 0, []⟩ rfl).1
    ⟨1, by decide, ⟨1, ⟨0,0,0⟩, some 0, false, 1, []⟩, rfl, by decide⟩, by decide⟩

/-- C10: once a filter weight is zero, `weight` keeps it zero (zero is
not above the non-negative threshold, so the slot is zeroed again and
normalization maps it to zero), unless the weight sum falls to the
underflow floor, in which case every weight is reset to `n`. -/
theorem C10_zero_weight_stays_zero {α : Type} (n threshold : ℚ) (wm : α → ℚ)
    (ps : List α) (ws : List ℚ) (i : ℕ)
    (ht : 0 ≤ threshold) (hz : ws.getD i 1 = 0) (hi : i < ws.length)
    (hlen : ws.length ≤ ps.length) :
    (filter_weight n threshold wm ps ws).getD i 1 = 0 ∨
      filter_weight n threshold wm ps ws = List.replicate ws.length n := by
  have hzip : (ws.zip ps).length = ws.length := by
    rw [List.length_zip]
    exact Nat.min_eq_left hlen
  have hw1len : ((ws.zip ps).map
      (fun wp => if threshold < wp.1 then wp.1 * wm wp.2 else 0)).length = ws.length := by
    rw [List.length_map, hzip]
  have hw1 : ((ws.zip ps).map
      (fun wp => if threshold < wp.1 then wp.1 * wm wp.2 else 0)).getD i 1 = 0 := by
    have hiz : i < (ws.zip ps).length := by rw [hzip]; exact hi
    rw [List.getD_eq_getElem _ _ (by rw [hw1len]; exact hi)]
    rw [List.getElem_map]
    have : (ws.zip ps)[i].1 = ws.getD i 1 := by
      rw [List.getElem_zip, List.getD_eq_getElem _ _ hi]
    rw [this, hz]
    have : ¬ threshold < 0 := not_lt.mpr ht
    simp [this]
  unfold filter_weight
  by_cases hsum : 1 / 10 ^ 10 <
      (((ws.zip ps).map (fun wp => if threshold < wp.1 then wp.1 * wm wp.2 else 0)).foldl
        (· + ·) 0)
  · left
    simp only [hsum, if_true]
    rw [List.getD_eq_getElem _ _ (by rw [List.length_map, hw1len]; exact hi),
      List.getElem_map]
    rw [List.getD_eq_getElem _ _ (by rw [hw1len]; exact hi)] at hw1
    rw [hw1]
    exact zero_div _
  · right
    simp only [hsum, if_false]
    rw [List.map_const', hw1len]

/-- With uniform weights `n` and an offset `u = r + m·n` with
`0 < r < n`, the cumulative walk of `resample` stops exactly at index
`m`, leaving the cumulative sum at `(m+1)·n`. -/
theorem resample_walk_uniform (size : ℕ) (n r : ℚ) (hn : 0 < n) (hr0 : 0 < r)
    (hr1 : r < n) :
    ∀ (fuel i m : ℕ), i ≤ m → m < size → m - i < fuel →
      resample_walk (List.replicate size n) (r + m * n) fuel (((i : ℚ) + 1) * n) i =
        (m, ((m : ℚ) + 1) * n) := by
  intro fuel
  induction fuel with
  | zero => intro i m _ _ h; omega
  | succ fuel ih =>
    intro i m him hm hfuel
    rcases Nat.lt_or_ge i m with hlt | hge
    · have hcu : ((i : ℚ) + 1) * n < r + m * n := by
        have h1 : ((i : ℚ) + 1) ≤ (m : ℚ) := by
          have : (i : ℚ) + 1 = ((i + 1 : ℕ) : ℚ) := by push_cast; ring
          rw [this]
          exact_mod_cast hlt
        nlinarith
      have hget : (List.replicate size n).getD (i + 1) 0 = n := by
        rw [List.getD_eq_getElem _ _ (by simp; omega)]
        simp
      simp only [resample_walk, hcu, if_true, hget]
      have harr : ((i : ℚ) + 1) * n + n = ((i : ℚ) + 1 + 1) * n := by ring
      rw [harr]
      have := ih (i + 1) m hlt hm (by omega)
      simpa using this
    · have hie : i = m := le_antisymm him hge
      subst hie
      have hcu : ¬ ((i : ℚ) + 1) * n < r + i * n := by nlinarith
      simp only [resample_walk, hcu, if_false]

/-- With uniform weights and `0 < r < n`, every iteration `m` of the
resampling loop emits `particles[m]`. -/
theorem resample_go_uniform {α : Type} [Inhabited α] (size : ℕ) (n r : ℚ)
    (ps : List α) (hps : ps.length = size) (hn : 0 < n) (hr0 : 0 < r) (hr1 : r < n) :
    ∀ (rem m i : ℕ) (out : List α), m + rem = size → i ≤ m →
      resample_go n (List.replicate size n) ps r rem m i (((i : ℚ) + 1) * n) out =
        out ++ ps.drop m := by
  intro rem
  induction rem with
  | zero =>
    intro m i out hm _
    have : m = size := by omega
    subst this
    rw [← hps, List.drop_length, List.append_nil]
    rfl
  | succ rem ih =>
    intro m i out hm hi
    have hmlt : m < size := by omega
    simp only [resample_go, List.length_replicate]
    rw [resample_walk_uniform size n r hn hr0 hr1 size i m hi hmlt (by omega)]
    have hcast : ((m : ℚ) + 1) * n = (((m + 1 : ℕ) : ℚ) + 1 - 1) * n := by push_cast; ring
    have hrec := ih (m + 1) m (out ++ [ps.getD m default]) (by omega) (by omega)
    rw [hrec]
    have hmp : m < ps.length := by omega
    rw [List.getD_eq_getElem _ _ hmp, List.drop_eq_getElem_cons hmp]
    simp

/-- C6 (amended): systematic resampling with uniform weights `n = 1/size`
and a strictly positive draw `r = rand · n ∈ (0, n)` returns exactly the
input particle list (hence the same multiset).  With `rand = 0` the code
instead duplicates particle 0 and drops the last particle (see the
counterexample). -/
theorem C6_resample_uniform_identity {α : Type} [Inhabited α] (size : ℕ) (ps : List α)
    (rand : ℚ) (hps : ps.length = size) (h0 : 0 < size) (hr0 : 0 < rand)
    (hr1 : rand < 1) :
    filter_resample size (1 / (size : ℚ)) (List.replicate size (1 / (size : ℚ))) ps rand
      = ps := by
  have hn : 0 < 1 / (size : ℚ) := by
    apply div_pos one_pos
    exact_mod_cast h0
  have hr0n : 0 < rand * (1 / (size : ℚ)) := mul_pos hr0 hn
  have hr1n : rand * (1 / (size : ℚ)) < 1 / (size : ℚ) := by
    nlinarith
  unfold filter_resample
  have hget0 : (List.replicate size (1 / (size : ℚ))).getD 0 0 = 1 / (size : ℚ) := by
    rw [List.getD_eq_getElem _ _ (by simpa using h0)]
    simp
  have hc0 : (List.replicate size (1 / (size : ℚ))).getD 0 0 =
      (((0 : ℕ) : ℚ) + 1) * (1 / (size : ℚ)) := by
    rw [hget0]; push_cast; ring
  rw [hc0, resample_go_uniform size (1 / (size : ℚ)) (rand * (1 / (size : ℚ))) ps hps hn
    hr0n hr1n size 0 0 [] (by omega) (by omega)]
  simp

/-- Witness for C6's amended statement: two particles, uniform weights,
draw `rand = 1/3`. -/
theorem C6_resample_uniform_identity_witness :
    filter_resample 2 (1 / ((2 : ℕ) : ℚ)) (List.replicate 2 (1 / ((2 : ℕ) : ℚ)))
      [10, 20] (1/3) = [10, 20] :=
  C6_resample_uniform_identity 2 [10, 20] (1/3) rfl (by norm_num) (by norm_num)
    (by norm_num)

unseal Rat.add Rat.mul Rat.sub Rat.inv in
/-- C6 counterexample: the draw `r = Math.random() · n` lies in `[0, n)`
and `rand = 0` (hence `r = 0`) is possible; there the walk stops at index
0 for both of the first two offsets, so particle 0 is emitted twice and
the last particle is dropped: the output multiset differs from the input
(the count of particle `20` drops from 1 to 0). -/
theorem C6_counterexample_zero_draw :
    filter_resample 2 (1 / ((2 : ℕ) : ℚ)) (List.replicate 2 (1 / ((2 : ℕ) : ℚ)))
        [10, 20] 0 = [10, 10] ∧
      (filter_resample 2 (1 / ((2 : ℕ) : ℚ)) (List.replicate 2 (1 / ((2 : ℕ) : ℚ)))
        [10, 20] 0).count 20 ≠ ([10, 20] : List ℕ).count 20 ∧
      (0 : ℚ) ≤ 0 * (1 / ((2 : ℕ) : ℚ)) ∧ 0 * (1 / ((2 : ℕ) : ℚ)) < 1 / ((2 : ℕ) : ℚ) := by
  decide

/-- Collecting visitors respect their accumulator: the cells gathered on
top of `acc` are `acc` followed by the cells gathered from nil. -/
theorem ray_loop_append {β : Type} (g : ℤ → ℤ → ℕ → List β) (x_inc y_inc : ℤ)
    (dt_dx dt_dy : TVal) :
    ∀ (n : ℕ) (x y : ℤ) (tv th : TVal) (acc : List β),
      ray_loop (fun s x y n => (s ++ g x y n, false)) x_inc y_inc dt_dx dt_dy
          n x y tv th acc =
        acc ++ ray_loop (fun s x y n => (s ++ g x y n, false)) x_inc y_inc dt_dx dt_dy
          n x y tv th [] := by
  intro n
  induction n with
  | zero => intro x y tv th acc; simp [ray_loop]
  | succ n ih =>
    intro x y tv th acc
    simp only [ray_loop, if_false]
    cases htl : tlt tv th
    · simp only [Bool.false_eq_true, if_false]
      rw [ih _ _ _ _ (acc ++ g x y n), ih _ _ _ _ ([] ++ g x y n)]
      simp
    · simp only [if_true]
      rw [ih _ _ _ _ (acc ++ g x y n), ih _ _ _ _ ([] ++ g x y n)]
      simp

/-- A non-terminating visitor that appends `g x y n` at each cell
produces exactly the concatenation of `g` over the collected cell list. -/
theorem ray_loop_bind {β : Type} (g : ℤ → ℤ → ℕ → List β) (x_inc y_inc : ℤ)
    (dt_dx dt_dy : TVal) :
    ∀ (n : ℕ) (x y : ℤ) (tv th : TVal) (acc : List β),
      ray_loop (fun s x y n => (s ++ g x y n, false)) x_inc y_inc dt_dx dt_dy
          n x y tv th acc =
        acc ++ (ray_loop (fun s x y n => (s ++ [(x, y, n)], false)) x_inc y_inc dt_dx dt_dy
          n x y tv th []).flatMap (fun c => g c.1 c.2.1 c.2.2) := by
  intro n
  induction n with
  | zero => intro x y tv th acc; simp [ray_loop]
  | succ n ih =>
    intro x y tv th acc
    simp only [ray_loop, if_false]
    cases htl : tlt tv th
    · simp only [Bool.false_eq_true, if_false]
      rw [ray_loop_append (fun x y n => [(x, y, n)]) x_inc y_inc dt_dx dt_dy n, ih]
      simp
    · simp only [if_true]
      rw [ray_loop_append (fun x y n => [(x, y, n)]) x_inc y_inc dt_dx dt_dy n, ih]
      simp

/-- The remaining-cell counts recorded along a collected ray are
`n-1, n-2, …, 0`. -/
theorem ray_loop_collect_thirds (x_inc y_inc : ℤ) (dt_dx dt_dy : TVal) :
    ∀ (n : ℕ) (x y : ℤ) (tv th : TVal),
      (ray_loop (fun s x y n => (s ++ [(x, y, n)], false)) x_inc y_inc dt_dx dt_dy
          n x y tv th []).map (fun c => c.2.2) = (List.range n).reverse := by
  intro n
  induction n with
  | zero => intro x y tv th; simp [ray_loop]
  | succ n ih =>
    intro x y tv th
    simp only [ray_loop, if_false]
    rw [List.range_succ]
    cases htl : tlt tv th
    · simp only [Bool.false_eq_true, if_false]
      rw [ray_loop_append (fun x y n => [(x, y, n)]) x_inc y_inc dt_dx dt_dy n]
      simp [ih]
    · simp only [if_true]
      rw [ray_loop_append (fun x y n => [(x, y, n)]) x_inc y_inc dt_dx dt_dy n]
      simp [ih]

/-- `ray_trace` with an appending, non-terminating visitor equals the
concatenation of the per-cell lists over `ray_cells`. -/
theorem ray_trace_bind {β : Type} (g : ℤ → ℤ → ℕ → List β)
    (start_location end_location : location_t) (acc : List β) :
    ray_trace start_location end_location (fun s x y n => (s ++ g x y n, false)) acc =
      acc ++ (ray_cells start_location end_location).flatMap (fun c => g c.1 c.2.1 c.2.2) := by
  unfold ray_trace ray_cells
  exact ray_loop_bind g _ _ _ _ _ _ _ _ _ acc

/-- A collected ray of loop counter `n` has exactly `n` cells. -/
theorem ray_loop_collect_length (x_inc y_inc : ℤ) (dt_dx dt_dy : TVal)
    (n : ℕ) (x y : ℤ) (tv th : TVal) :
    (ray_loop (fun s x y n => (s ++ [(x, y, n)], false)) x_inc y_inc dt_dx dt_dy
        n x y tv th []).length = n := by
  have h := congrArg List.length (ray_loop_collect_thirds x_inc y_inc dt_dx dt_dy n x y tv th)
  simpa using h

/-- The collected remaining-cell counts of any ray are
`k-1, …, 0` where `k` is the number of visited cells. -/
theorem ray_cells_thirds (start_location end_location : location_t) :
    (ray_cells start_location end_location).map (fun c => c.2.2) =
      (List.range (ray_cells start_location end_location).length).reverse := by
  unfold ray_cells ray_trace
  rw [ray_loop_collect_thirds, ray_loop_collect_length]

/-- Pointwise-equal visitors produce the same walk. -/
theorem ray_loop_congr {σ : Type _} (v1 v2 : σ → ℤ → ℤ → ℕ → σ × Bool)
    (h : ∀ s x y n, v1 s x y n = v2 s x y n) (x_inc y_inc : ℤ) (dt_dx dt_dy : TVal) :
    ∀ (n : ℕ) (x y : ℤ) (tv th : TVal) (s : σ),
      ray_loop v1 x_inc y_inc dt_dx dt_dy n x y tv th s =
        ray_loop v2 x_inc y_inc dt_dx dt_dy n x y tv th s := by
  intro n
  induction n with
  | zero => intro x y tv th s; rfl
  | succ n ih =>
    intro x y tv th s
    simp only [ray_loop, h s x y n]
    by_cases he : (v2 s x y n).2
    · simp [he]
    · simp only [he, if_false]
      by_cases htl : tlt tv th
      · simp only [htl, if_true]; exact ih _ _ _ _ _
      · simp only [htl, if_false]; exact ih _ _ _ _ _

/-- Pointwise-equal visitors produce the same trace. -/
theorem ray_trace_congr {σ : Type _} (v1 v2 : σ → ℤ → ℤ → ℕ → σ × Bool)
    (h : ∀ s x y n, v1 s x y n = v2 s x y n)
    (start_location end_location : location_t) (s : σ) :
    ray_trace start_location end_location v1 s = ray_trace start_location end_location v2 s := by
  unfold ray_trace
  exact ray_loop_congr v1 v2 h _ _ _ _ _ _ _ _ _ _

/-- Pointwise-equal beam actions produce the same sensor fold. -/
theorem beam_fold_congr {α : Type _} (m : beam_model_t) (f1 f2 : ℕ → ℚ → α → α)
    (O : Oracle) (h : ∀ i rot a, f1 i rot a = f2 i rot a) :
    ∀ (fuel i : ℕ) (rot : ℚ) (a : α),
      beam_fold m f1 O fuel i rot a = beam_fold m f2 O fuel i rot a := by
  intro fuel
  induction fuel with
  | zero => intro i rot a; rfl
  | succ fuel ih =>
    intro i rot a
    simp only [beam_fold]
    by_cases hi : i < m.size
    · simp only [hi, if_true, h i rot a]; exact ih _ _ _
    · simp [hi]

/-- Appending beam actions respect their accumulator. -/
theorem beam_fold_append {β : Type} (m : beam_model_t) (g : ℕ → ℚ → List β) (O : Oracle) :
    ∀ (fuel i : ℕ) (rot : ℚ) (acc : List β),
      beam_fold m (fun i rot s => s ++ g i rot) O fuel i rot acc =
        acc ++ beam_fold m (fun i rot s => s ++ g i rot) O fuel i rot [] := by
  intro fuel
  induction fuel with
  | zero => intro i rot acc; simp [beam_fold]
  | succ fuel ih =>
    intro i rot acc
    simp only [beam_fold]
    by_cases hi : i < m.size
    · simp only [hi, if_true]
      rw [ih _ _ (acc ++ g i rot), ih _ _ ([] ++ g i rot)]
      simp
    · simp [hi]

/-- An appending beam action produces the concatenation of its per-beam
lists over the sampled `(index, rotation)` pairs. -/
theorem beam_fold_flatMap {β : Type} (m : beam_model_t) (g : ℕ → ℚ → List β) (O : Oracle) :
    ∀ (fuel i : ℕ) (rot : ℚ) (acc : List β),
      beam_fold m (fun i rot s => s ++ g i rot) O fuel i rot acc =
        acc ++ (beam_fold m (fun i rot a => a ++ [(i, rot)]) O fuel i rot []).flatMap
          (fun p => g p.1 p.2) := by
  intro fuel
  induction fuel with
  | zero => intro i rot acc; simp [beam_fold]
  | succ fuel ih =>
    intro i rot acc
    simp only [beam_fold]
    by_cases hi : i < m.size
    · simp only [hi, if_true]
      rw [beam_fold_append m (fun i rot => [(i, rot)]) O fuel _ _ ([] ++ [(i, rot)]), ih]
      simp
    · simp [hi]

/-- On any cell list whose remaining-cell counts descend to zero (as the
ray tracer produces), emitting free for `n > 1` and occupied for `n = 0`
yields free on all but the last two cells and occupied on the terminal
cell; the penultimate cell contributes nothing. -/
theorem flatMap_free_occ : ∀ cs : List (ℤ × ℤ × ℕ),
    cs.map (fun c => c.2.2) = (List.range cs.length).reverse →
    cs.flatMap (fun c => if 1 < c.2.2 then [(false, c.1, c.2.1)]
      else if c.2.2 = 0 then [(true, c.1, c.2.1)] else []) = ray_write_list cs := by
  intro cs
  induction cs with
  | nil => intro _; simp [ray_write_list]
  | cons c t ih =>
    intro h
    have hrange : (List.range (t.length + 1)).reverse = t.length :: (List.range t.length).reverse := by
      rw [List.range_succ]
      simp
    rw [List.length_cons, hrange] at h
    simp only [List.map_cons, List.cons.injEq] at h
    obtain ⟨hc, ht⟩ := h
    have hw := ih ht
    rcases t with _ | ⟨a, t⟩
    · simp only [List.length_nil] at hc
      simp [ray_write_list, List.flatMap_cons, hc]
    · rcases t with _ | ⟨b, t⟩
      · simp only [List.length_cons, List.length_nil] at hc
        have ha : a.2.2 = 0 := by
          simp only [List.length_cons, List.length_nil, List.map_cons, List.map_nil] at ht
          have hr : (List.range (0 + 1)).reverse = [0] := by decide
          rw [hr] at ht
          exact ((List.cons.injEq _ _ _ _).mp ht).1
        simp [ray_write_list, List.flatMap_cons, hc, ha]
      · simp only [List.length_cons] at hc
        have h1 : 1 < c.2.2 := by omega
        rw [List.flatMap_cons, if_pos h1, hw]
        unfold ray_write_list
        simp only [List.length_cons]
        have e1 : t.length + 1 + 1 + 1 - 2 = (t.length + 1 + 1 - 2) + 1 := by omega
        have e2 : t.length + 1 + 1 + 1 - 1 = (t.length + 1 + 1 - 1) + 1 := by omega
        rw [e1, e2, List.take_succ_cons, List.drop_succ_cons]
        simp

/-- C2 (amended): the sensor model's `update` ray-traces each sampled
beam with a non-zero range to its reported hit endpoint and calls
`writer(free, cx, cy)` for every cell along the ray **except the last
two**, and `writer(occupied, cx, cy)` for the terminal cell; the
penultimate cell (remaining count 1) is skipped, receiving no writer
call at all. -/
theorem C2_sensor_update_writes (O : Oracle) (m : beam_model_t)
    (robot_location : location_t) (measurement : ℕ → ℚ) :
    beam_update_writes O m robot_location measurement =
      (beam_samples O m).flatMap (fun p =>
        if measurement p.1 ≠ 0 then
          ray_write_list
            (ray_cells robot_location (location_t.add O robot_location (measurement p.1) p.2))
        else []) := by
  have hact : ∀ (i : ℕ) (rot : ℚ) (a : List (Bool × ℤ × ℤ)),
      (if measurement i ≠ 0 then
        ray_trace robot_location (location_t.add O robot_location (measurement i) rot)
          (fun s x y n => if 1 < n then (s ++ [(false, x, y)], false)
            else if n = 0 then (s ++ [(true, x, y)], false) else (s, false)) a
      else a) =
      a ++ (if measurement i ≠ 0 then
        ray_write_list
          (ray_cells robot_location (location_t.add O robot_location (measurement i) rot))
      else []) := by
    intro i rot a
    by_cases hm : measurement i ≠ 0
    · rw [if_pos hm, if_pos hm]
      have hv : ∀ (s : List (Bool × ℤ × ℤ)) (x y : ℤ) (n : ℕ),
          (if 1 < n then (s ++ [(false, x, y)], false)
            else if n = 0 then (s ++ [(true, x, y)], false) else (s, false)) =
          (s ++ (if 1 < n then [(false, x, y)]
            else if n = 0 then [(true, x, y)] else []), false) := by
        intro s x y n
        split_ifs <;> simp
      rw [ray_trace_congr _ _ hv, ray_trace_bind]
      congr 1
      exact flatMap_free_occ _ (ray_cells_thirds _ _)
    · rw [if_neg hm, if_neg hm, List.append_nil]
  unfold beam_update_writes beam_update beam_samples
  refine Eq.trans (beam_fold_congr m _ _ O hact m.size m.start_index _ []) ?_
  rw [beam_fold_flatMap]
  rw [List.nil_append]

unseal Rat.add Rat.mul Rat.sub Rat.inv in
/-- C2 counterexample: one beam of range 3 from pose `(0.5, 0.5, 0)`
(with a platform where `cos 0 = 1`, `sin 0 = 0`) traverses cells
`(0,0), (1,0), (2,0), (3,0)`, but the writer receives only
`free (0,0)`, `free (1,0)` and `occupied (3,0)`: the penultimate cell
`(2,0)`, which the claim says must be written free, is visited by the
ray yet receives no writer call at all. -/
theorem C2_counterexample_penultimate_cell_skipped :
    beam_update_writes
        ⟨fun _ => 0, fun _ => 1, fun _ => 0, fun _ => 0, fun _ => 0, fun _ => 0,
         fun _ _ => 0, 0⟩
        ⟨1, 10, 1, 1, 0⟩ ⟨1/2, 1/2, 0⟩ (fun _ => 3) =
      [(false, 0, 0), (false, 1, 0), (true, 3, 0)] ∧
    (2, 0, 1) ∈ ray_cells ⟨1/2, 1/2, 0⟩
      (location_t.add
        ⟨fun _ => 0, fun _ => 1, fun _ => 0, fun _ => 0, fun _ => 0, fun _ => 0,
         fun _ _ => 0, 0⟩ ⟨1/2, 1/2, 0⟩ 3 0) ∧
    ∀ v : Bool, (v, 2, 0) ∉ beam_update_writes
        ⟨fun _ => 0, fun _ => 1, fun _ => 0, fun _ => 0, fun _ => 0, fun _ => 0,
         fun _ _ => 0, 0⟩
        ⟨1, 10, 1, 1, 0⟩ ⟨1/2, 1/2, 0⟩ (fun _ => 3) := by
  decide

/-- Unrolling one step of a collected ray walk. -/
theorem ray_loop_collect_succ (x_inc y_inc : ℤ) (dt_dx dt_dy : TVal)
    (n : ℕ) (x y : ℤ) (tv th : TVal) :
    ray_loop (fun s x y n => (s ++ [(x, y, n)], false)) x_inc y_inc dt_dx dt_dy
        (n + 1) x y tv th [] =
      (x, y, n) :: (if tlt tv th
        then ray_loop (fun s x y n => (s ++ [(x, y, n)], false)) x_inc y_inc dt_dx dt_dy
          n x (y + y_inc) (tadd tv dt_dy) th []
        else ray_loop (fun s x y n => (s ++ [(x, y, n)], false)) x_inc y_inc dt_dx dt_dy
          n (x + x_inc) y tv (tadd th dt_dx) []) := by
  simp only [ray_loop, if_false]
  cases htl : tlt tv th
  · simp only [Bool.false_eq_true, if_false]
    rw [ray_loop_append (fun x y n => [(x, y, n)]) x_inc y_inc dt_dx dt_dy n]
    simp
  · simp only [if_true]
    rw [ray_loop_append (fun x y n => [(x, y, n)]) x_inc y_inc dt_dx dt_dy n]
    simp

/-- An early-terminating visitor that fires on the first cell satisfying
`p` computes the `find?` of the collected cell list. -/
theorem ray_loop_find {σ : Type _} (p : ℤ → ℤ → Bool) (f : ℤ → ℤ → σ)
    (x_inc y_inc : ℤ) (dt_dx dt_dy : TVal) :
    ∀ (n : ℕ) (x y : ℤ) (tv th : TVal) (s : σ),
      ray_loop (fun s x y _ => if p x y then (f x y, true) else (s, false))
          x_inc y_inc dt_dx dt_dy n x y tv th s =
        match (ray_loop (fun s x y n => (s ++ [(x, y, n)], false)) x_inc y_inc dt_dx dt_dy
            n x y tv th []).find? (fun c => p c.1 c.2.1) with
        | some c => f c.1 c.2.1
        | none => s := by
  intro n
  induction n with
  | zero => intro x y tv th s; simp [ray_loop]
  | succ n ih =>
    intro x y tv th s
    rw [ray_loop_collect_succ]
    cases hp : p x y
    · have hhead : (fun c : ℤ × ℤ × ℕ => p c.1 c.2.1) (x, y, n) = false := by simpa using hp
      cases htl : tlt tv th
      · simp only [ray_loop, hp, Bool.false_eq_true, if_false, htl]
        rw [ih, List.find?_cons_of_neg _ (by simp [hp])]
      · simp only [ray_loop, hp, Bool.false_eq_true, if_false, if_true, htl]
        rw [ih, List.find?_cons_of_neg _ (by simp [hp])]
    · simp only [ray_loop, hp, if_true]
      rw [List.find?_cons_of_pos _ (by simp [hp])]

/-- `ray_trace` with `prob_ray`'s first-occupied-cell visitor computes
the centre of the first collected cell the lookup reports occupied. -/
theorem ray_trace_first_hit (lookup : ℤ → ℤ → Bool) (a b : location_t)
    (s : Option location_t) :
    ray_trace a b (fun s x y _ =>
        if lookup x y then (some ⟨(x : ℚ) + 1/2, (y : ℚ) + 1/2, 0⟩, true)
        else (s, false)) s =
      match (ray_cells a b).find? (fun c => lookup c.1 c.2.1) with
      | some c => some ⟨(c.1 : ℚ) + 1/2, (c.2.1 : ℚ) + 1/2, 0⟩
      | none => s := by
  unfold ray_trace ray_cells
  exact ray_loop_find lookup
    (fun x y => some ⟨(x : ℚ) + 1/2, (y : ℚ) + 1/2, 0⟩) _ _ _ _ _ _ _ _ _ s

/-- C8 (amended): `prob_ray` casts a ray from the pose toward the
endpoint at distance `max_ray` in the direction `pose.angle +
hit.angle` (`location_t.add` turns the pose's own heading by the hit's
angle); the first cell along that ray for which the lookup reports
occupied yields an expected hit at that cell's centre, and the result is
`prob_normal` of the measured distance against the expected distance with
the configured variance; if no occupied cell is seen, the result is
exactly `1.0`. -/
theorem C8_prob_ray_first_occupied (O : Oracle) (m : beam_model_t)
    (robot_location hit_location : location_t) (map_lookup : ℤ → ℤ → Bool) :
    prob_ray O m robot_location hit_location map_lookup =
      match (ray_cells robot_location
          (location_t.add O robot_location m.max_ray hit_location.angle)).find?
          (fun c => map_lookup c.1 c.2.1) with
      | some c =>
        prob_normal O (location_t.distance O robot_location hit_location)
          (location_t.distance O robot_location ⟨(c.1 : ℚ) + 1/2, (c.2.1 : ℚ) + 1/2, 0⟩)
          m.variance
      | none => 1 := by
  simp only [prob_ray]
  rw [ray_trace_first_hit map_lookup]
  cases hfind : (ray_cells robot_location
      (location_t.add O robot_location m.max_ray hit_location.angle)).find?
      (fun c => map_lookup c.1 c.2.1) with
  | none => rfl
  | some c => rfl

unseal Rat.add Rat.mul Rat.sub Rat.inv in
/-- C8 counterexample against "in direction hit.angle": with a pose whose
heading is 1 radian, `location_t.add` casts the ray in direction
`pose.angle + hit.angle`, not `hit.angle`.  On a platform with
`cos 0 = 1, sin 0 = 0, cos 1 = 0, sin 1 = 1`, a map occupied exactly at
cell `(2, 0)` and `hit = (2.5, 0.5)` at angle 0: the ray the claim
prescribes (direction 0) meets the occupied cell and yields the Gaussian
score 7, while the code's ray (direction 1) sees no occupied cell and
`prob_ray` returns exactly 1. -/
theorem C8_counterexample_cast_direction :
    prob_ray
        ⟨fun _ => 0, fun q => if q = 1 then 0 else 1, fun q => if q = 1 then 1 else 0,
         fun _ => 0, fun q => if q = 4 then 2 else if q = 1 then 1 else 0, fun _ => 7,
         fun _ _ => 0, 1/2⟩
        ⟨1, 10, 1, 1, 0⟩ ⟨1/2, 1/2, 1⟩ ⟨5/2, 1/2, 0⟩
        (fun x y => decide (x = 2 ∧ y = 0)) = 1 ∧
      prob_ray_claim_reading
        ⟨fun _ => 0, fun q => if q = 1 then 0 else 1, fun q => if q = 1 then 1 else 0,
         fun _ => 0, fun q => if q = 4 then 2 else if q = 1 then 1 else 0, fun _ => 7,
         fun _ _ => 0, 1/2⟩
        ⟨1, 10, 1, 1, 0⟩ ⟨1/2, 1/2, 1⟩ ⟨5/2, 1/2, 0⟩
        (fun x y => decide (x = 2 ∧ y = 0)) = 7 := by
  decide

/-- C3: on the chain root → A → B → C (C the only leaf, A and B with one
child each), `C.trim(map)` collapses the chain: C's node ends carrying
A's original id 1 as the root's child, its `modified_cells` is the
concatenation of A's, B's and C's lists, and every cell with a defined
entry along the chain looks up to the same value as before the trim. -/
theorem C3_trim_chain_collapse :
    trim 10 c3_nodes c3_map 3 =
      some ([⟨0, ⟨0, 0, 0⟩, none, false, 1, []⟩,
             ⟨1, ⟨0, 0, 0⟩, some 0, false, 1, [(1, 1), (2, 2), (3, 3)]⟩,
             ⟨2, ⟨0, 0, 0⟩, some 1, false, 1, [(2, 2), (3, 3)]⟩,
             ⟨1, ⟨0, 0, 0⟩, some 0, true, 0, [(1, 1), (2, 2), (3, 3)]⟩],
            rename_cells (rename_cells c3_map [(3, 3)] 3 2) [(2, 2), (3, 3)] 2 1) ∧
    ∀ x y : ℤ,
      (∃ j ∈ ancestor_chain c3_nodes c3_nodes.length 3, ∃ nd, c3_nodes[j]? = some nd ∧
        (map_lookup_by_id c3_map x y nd.id).isSome) →
      dp_lookup
        [⟨0, ⟨0, 0, 0⟩, none, false, 1, []⟩,
         ⟨1, ⟨0, 0, 0⟩, some 0, false, 1, [(1, 1), (2, 2), (3, 3)]⟩,
         ⟨2, ⟨0, 0, 0⟩, some 1, false, 1, [(2, 2), (3, 3)]⟩,
         ⟨1, ⟨0, 0, 0⟩, some 0, true, 0, [(1, 1), (2, 2), (3, 3)]⟩]
        (rename_cells (rename_cells c3_map [(3, 3)] 3 2) [(2, 2), (3, 3)] 2 1) x y 4 3 =
      dp_lookup c3_nodes c3_map x y 4 3 := by
  refine ⟨rfl, ?_⟩
  intro x y h
  obtain ⟨j, hj, nd, hnd, hs⟩ := h
  rw [show ancestor_chain c3_nodes c3_nodes.length 3 = [3, 2, 1, 0] from rfl] at hj
  simp only [List.mem_cons, List.not_mem_nil, or_false] at hj
  rcases hj with rfl | rfl | rfl | rfl
  · rw [show (c3_nodes[3]? : Option dp_node) =
      some ⟨3, ⟨0, 0, 0⟩, some 2, true, 0, [(3, 3)]⟩ from rfl] at hnd
    cases hnd
    simp only [map_lookup_by_id, c3_map, map_update_by_id] at hs
    simp at hs
    obtain ⟨rfl, rfl⟩ := hs
    decide
  · rw [show (c3_nodes[2]? : Option dp_node) =
      some ⟨2, ⟨0, 0, 0⟩, some 1, false, 1, [(2, 2)]⟩ from rfl] at hnd
    cases hnd
    simp only [map_lookup_by_id, c3_map, map_update_by_id] at hs
    simp at hs
    obtain ⟨rfl, rfl⟩ := hs
    decide
  · rw [show (c3_nodes[1]? : Option dp_node) =
      some ⟨1, ⟨0, 0, 0⟩, some 0, false, 1, [(1, 1)]⟩ from rfl] at hnd
    cases hnd
    simp only [map_lookup_by_id, c3_map, map_update_by_id] at hs
    simp at hs
    obtain ⟨rfl, rfl⟩ := hs
    decide
  · rw [show (c3_nodes[0]? : Option dp_node) =
      some ⟨0, ⟨0, 0, 0⟩, none, false, 1, []⟩ from rfl] at hnd
    cases hnd
    simp only [map_lookup_by_id, c3_map, map_update_by_id] at hs
    simp at hs

/-- Witness for C3: the lookup-preservation implication applied at the
cell `(2, 2)`, which B had written free. -/
theorem C3_trim_chain_collapse_witness :
    dp_lookup
      [⟨0, ⟨0, 0, 0⟩, none, false, 1, []⟩,
       ⟨1, ⟨0, 0, 0⟩, some 0, false, 1, [(1, 1), (2, 2), (3, 3)]⟩,
       ⟨2, ⟨0, 0, 0⟩, some 1, false, 1, [(2, 2), (3, 3)]⟩,
       ⟨1, ⟨0, 0, 0⟩, some 0, true, 0, [(1, 1), (2, 2), (3, 3)]⟩]
      (rename_cells (rename_cells c3_map [(3, 3)] 3 2) [(2, 2), (3, 3)] 2 1) 2 2 4 3 =
    dp_lookup c3_nodes c3_map 2 2 4 3 :=
  C3_trim_chain_collapse.2 2 2
    ⟨2, by decide, ⟨2, ⟨0, 0, 0⟩, some 1, false, 1, [(2, 2)]⟩, rfl, by decide⟩

unseal Rat.add Rat.mul Rat.sub Rat.inv in
/-- C5 counterexample: after one update (still control, zero scan, a
resampling draw of zero) the predicted child of particle 2 dies; its
trim decrements particle 2's child count to zero and stops at the root,
so the old particle node (index 2) remains attached to the root with
`children == 0` and `leaf == false` — a non-root tree node the claim
says cannot exist. -/
theorem C5_counterexample_dead_root_child :
    ∃ st : slam_state,
      slam_reach zero_oracle c5_cfg st ∧
      ∃ i nd, i ≠ 0 ∧ attached st.nodes i ∧ st.nodes[i]? = some nd ∧
        nd.children = 0 ∧ nd.leaf = false := by
  have h : (supdate zero_oracle c5_cfg still_control (fun _ => 0)
      (slam_init c5_cfg unit_sensor)).isSome = true := by decide
  refine ⟨(supdate zero_oracle c5_cfg still_control (fun _ => 0)
      (slam_init c5_cfg unit_sensor)).getD default,
    slam_reach.step _ still_control (fun _ => 0) _ (slam_reach.init unit_sensor rfl) ?_,
    2, ⟨2, ⟨0, 0, 0⟩, some 0, false, 0, []⟩, by decide, by decide, by decide, by decide,
    by decide⟩
  cases ho : supdate zero_oracle c5_cfg still_control (fun _ => 0)
      (slam_init c5_cfg unit_sensor) with
  | none => rw [ho] at h; cases h
  | some st1 => rfl

/-- C9 counterexample: the root is a node of every reachable ancestry
tree, but `trim` on the root dereferences its `null` parent
(`_this.parent.id`) and fails at the very first call, so calling trim
twice on it neither completes without error nor preserves any state. -/
theorem C9_counterexample_root_trim :
    ∃ st : slam_state,
      slam_reach zero_oracle c5_cfg st ∧
      trim (2 * st.nodes.length + 2) st.nodes st.smap 0 = none :=
  ⟨slam_init c5_cfg unit_sensor, slam_reach.init unit_sensor rfl, rfl⟩

unseal Rat.add Rat.mul Rat.sub Rat.inv in
/-- C7 counterexample: a reachable state whose two particles hold
distinct poses (obtained by one noisy translation update); a further
update with a still control and an all-zero scan triggers a resample
(the threshold `size · frac = 3` always exceeds the effective sample
size) whose zero draw assigns particle 0's pose to slot 1: the pose
vector changes even though the control is still and the scan is empty. -/
theorem C7_counterexample_still_update_changes_poses :
    ∃ st st' : slam_state,
      slam_reach c7_oracle c7_cfg st ∧
      c7_still_control.still = true ∧
      supdate c7_oracle c7_cfg c7_still_control (fun _ => 0) st = some st' ∧
      particle_poses st' ≠ particle_poses st := by
  have h1 : (supdate c7_oracle c7_cfg c7_move_control (fun _ => 0)
      (slam_init c7_cfg unit_sensor)).isSome = true := by decide
  have h2 : (supdate c7_oracle c7_cfg c7_still_control (fun _ => 0)
      ((supdate c7_oracle c7_cfg c7_move_control (fun _ => 0)
        (slam_init c7_cfg unit_sensor)).getD default)).isSome = true := by decide
  refine ⟨(supdate c7_oracle c7_cfg c7_move_control (fun _ => 0)
      (slam_init c7_cfg unit_sensor)).getD default,
    (supdate c7_oracle c7_cfg c7_still_control (fun _ => 0)
      ((supdate c7_oracle c7_cfg c7_move_control (fun _ => 0)
        (slam_init c7_cfg unit_sensor)).getD default)).getD default,
    slam_reach.step _ c7_move_control (fun _ => 0) _ (slam_reach.init unit_sensor rfl) ?_,
    rfl, ?_, by decide⟩
  · cases ho : supdate c7_oracle c7_cfg c7_move_control (fun _ => 0)
        (slam_init c7_cfg unit_sensor) with
    | none => rw [ho] at h1; cases h1
    | some st1 => rfl
  · cases ho : supdate c7_oracle c7_cfg c7_still_control (fun _ => 0)
        ((supdate c7_oracle c7_cfg c7_move_control (fun _ => 0)
          (slam_init c7_cfg unit_sensor)).getD default) with
    | none => rw [ho] at h2; cases h2
    | some st2 => rfl

/-- Witness for C10: a concrete four-particle filter step where slot 1 is
already zeroed and stays zeroed. -/
theorem C10_zero_weight_stays_zero_witness :
    (filter_weight (1/4) (1/400) (fun _ : ℕ => 2) [0, 0, 0, 0]
        [1/2, 0, 1/4, 1/4]).getD 1 1 = 0 ∨
      filter_weight (1/4) (1/400) (fun _ : ℕ => 2) [0, 0, 0, 0] [1/2, 0, 1/4, 1/4] =
        List.replicate ([(1:ℚ)/2, 0, 1/4, 1/4].length) (1/4) :=
  C10_zero_weight_stays_zero (1/4) (1/400) (fun _ : ℕ => 2) [0, 0, 0, 0]
    [1/2, 0, 1/4, 1/4] 1 (by norm_num) (by norm_num) (by norm_num) (by norm_num)

end Slam
